import Mathlib

/-!
# RecordStream `fast-recs-collate`: a shallow embedding and its properties

The definitions below follow `recs-collate.c` and `aggregators.c` function by
function and keep their names.

Conventions of the embedding:

* a `char *` is an `Option String` (`none` is `NULL`); C strings hold no NUL;
* a `struct clump *` is an index into `collate_state.heap`, the memory that
  holds the clumps; `malloc` appends a slot, and a function that dereferences
  `NULL` or an address outside the heap returns `none`; so does a function of
  an aggregator that reads through a pointer that is not valid or outside the
  data it owns;
* memory is not bounded: `malloc` and `realloc` succeed, and the growing
  arrays of the aggregators are lists, whose lengths fit the `int` counters
  of the C structures; `realloc` releases the old block, which matters where
  pointers into it are kept (`mode_add`);
* a `double` is an exact rational, an infinity or NaN (one zero); its
  arithmetic is exact, except where the result decides an array index
  (`perc_index`), which is rounded to binary64 (`double.binary64`);
* `int` is 32 bits wide, `long`, `unsigned long` and `uint64_t` are 64 bits
  wide; `shl_one` says what `1 << j` is where C leaves it open;
* the state of the parser (interpreter.h, which is not among the sources)
  holds the members that `string_callback` and `value_callback` use; its
  buffer is a list of bytes, and a read or write outside an array makes the
  callback return `none`;
* standard output is the field `stdout`, the text written so far;
* C library functions whose result the model does not fix are the fields of
  `libc`.
-/

set_option autoImplicit false

/-! ## C library -/

/-- The value of a C `double`: NaN, the two infinities, or a number, which the
model keeps exact. -/
inductive double where
  | nan
  | pinf
  | ninf
  | fin (q : ℚ)
deriving DecidableEq

/-- The C macro `isnan`. -/
def isnan : double → Bool
  | .nan => true
  | _ => false

/-- Addition of doubles (`+`), exact on numbers, with the IEEE rules for NaN
and the infinities. -/
def double.add : double → double → double
  | .nan, _ => .nan
  | _, .nan => .nan
  | .pinf, .ninf => .nan
  | .ninf, .pinf => .nan
  | .pinf, _ => .pinf
  | _, .pinf => .pinf
  | .ninf, _ => .ninf
  | _, .ninf => .ninf
  | .fin a, .fin b => .fin (a + b)

/-- The negation of a double (unary `-`). -/
def double.neg : double → double
  | .nan => .nan
  | .pinf => .ninf
  | .ninf => .pinf
  | .fin a => .fin (-a)

/-- Subtraction of doubles (`-`). -/
def double.sub (a b : double) : double := a.add b.neg

/-- Multiplication of doubles (`*`), exact on numbers, with the IEEE rules
for NaN and the infinities. -/
def double.mul : double → double → double
  | .nan, _ => .nan
  | _, .nan => .nan
  | .pinf, .pinf => .pinf
  | .pinf, .ninf => .ninf
  | .ninf, .pinf => .ninf
  | .ninf, .ninf => .pinf
  | .pinf, .fin b => if b = 0 then .nan else if 0 < b then .pinf else .ninf
  | .ninf, .fin b => if b = 0 then .nan else if 0 < b then .ninf else .pinf
  | .fin a, .pinf => if a = 0 then .nan else if 0 < a then .pinf else .ninf
  | .fin a, .ninf => if a = 0 then .nan else if 0 < a then .ninf else .pinf
  | .fin a, .fin b => .fin (a * b)

/-- Division of doubles (`/`), exact on numbers, with the IEEE rules for NaN,
the infinities and a zero divisor; the model has one zero, which counts as
positive. -/
def double.div : double → double → double
  | .nan, _ => .nan
  | _, .nan => .nan
  | .pinf, .pinf => .nan
  | .pinf, .ninf => .nan
  | .ninf, .pinf => .nan
  | .ninf, .ninf => .nan
  | .pinf, .fin b => if 0 ≤ b then .pinf else .ninf
  | .ninf, .fin b => if 0 ≤ b then .ninf else .pinf
  | .fin _, .pinf => .fin 0
  | .fin _, .ninf => .fin 0
  | .fin a, .fin b =>
    if b = 0 then (if a = 0 then .nan else if 0 < a then .pinf else .ninf) else .fin (a / b)

/-- The comparison `a < b` of doubles; `a > b` is `b.lt a`. A comparison with
NaN is false. -/
def double.lt : double → double → Bool
  | .nan, _ => false
  | _, .nan => false
  | .ninf, .ninf => false
  | .ninf, _ => true
  | _, .ninf => false
  | .pinf, _ => false
  | .fin _, .pinf => true
  | .fin a, .fin b => decide (a < b)

/-- The C library function `floor`. -/
def double.floor : double → double
  | .fin a => .fin (Rat.floor a)
  | d => d

/-- The conversion `(int)d` of a double: the number without its fraction;
`none` where C leaves the conversion undefined (NaN, an infinity, a number
outside the range of `int`). -/
def int_of_double : double → Option Int
  | .fin a =>
    let n : Int := if 0 ≤ a then Rat.floor a else -Rat.floor (-a)
    if -2 ^ 31 ≤ n ∧ n < 2 ^ 31 then some n else none
  | _ => none

/-- Rounding of a number to an integer: the nearest one, and of two equally
near ones the even one. -/
def round_half_even (m : ℚ) : Int :=
  if m - Rat.floor m < 1 / 2 then Rat.floor m
  else if 1 / 2 < m - Rat.floor m then Rat.floor m + 1
  else if Rat.floor m % 2 = 0 then Rat.floor m
  else Rat.floor m + 1

/-- The distance between the binary64 numbers next to `q`: `2^(e-52)` for
`2^e <= |q| < 2^(e+1)`, and `2^-1074` for the subnormal numbers. -/
def binary64_ulp (q : ℚ) : ℚ := 2 ^ (max (Int.log 2 |q|) (-1022) - 52)

/-- The rounding of the exact result of an arithmetic operation to binary64,
the format of `double` on x86-64 and AArch64: to the nearest binary64 number,
a tie to the one with the even significand, and to an infinity from `2^1024`
on. The arithmetic of the model is exact; this rounding is applied where the
value of an index rests on it (`perc_index`). -/
def double.binary64 : double → double
  | .fin q =>
    if q = 0 then .fin 0
    else
      let y : ℚ := round_half_even (|q| / binary64_ulp q) * binary64_ulp q
      if (2 : ℚ) ^ (1024 : Int) ≤ y then (if 0 < q then .pinf else .ninf)
      else .fin (if 0 < q then y else -y)
  | d => d

/-- C library functions that the program calls and whose results are left
open: `strtod` gives the converted value and the number of characters it
consumed (the distance from the start to `endp`), `printf_g` is the text
`printf("%g", d)` writes and `printf_f` the text `printf("%f", d)` writes,
`sqrt` is the function of that name, `strtol` gives the value of
`strtol(s, NULL, 10)` and whether `errno` is `EINVAL` after the call, `fopen`
tells whether the file of that name can be opened for reading. -/
structure libc where
  strtod : String → double × Nat
  printf_g : double → String
  printf_f : double → String
  sqrt : double → double
  strtol : String → Int × Bool
  fopen : String → Bool

/-- The comparison of two character sequences as `strcmp` does it: the sign
of the first difference, a proper prefix being smaller. -/
def strcmp_chars : List Char → List Char → Int
  | [], [] => 0
  | [], _ :: _ => -1
  | _ :: _, [] => 1
  | a :: s, b :: t => if a = b then strcmp_chars s t else if a < b then -1 else 1

/-- The C library function `strcmp`; only the sign of its result is fixed by
the C standard, the model returns -1, 0 or 1. -/
def strcmp (s1 s2 : String) : Int := strcmp_chars s1.data s2.data

/-- The value of the `int` expression `1 << j` as a 32-bit pattern. C leaves
the result open when 2^j does not fit an `int`: for `j = 31` the model gives
the pattern of the sign bit, as the usual compilers do, and for `j >= 32` it
takes the shift count modulo 32, as the shift instructions of x86-64 and
AArch64 do. -/
def shl_one (j : Nat) : Nat := 2 ^ (j % 32)

/-- The `int` whose 32-bit two's complement pattern is `n`. -/
def int_of_bits (n : Nat) : Int :=
  if n % 2 ^ 32 < 2 ^ 31 then ((n % 2 ^ 32 : Nat) : Int) else ((n % 2 ^ 32 : Nat) : Int) - 2 ^ 32

/-- The conversion of an `int` to `unsigned long` that C applies before it
compares the two. -/
def ulong_of_int (n : Int) : Nat := (n % 2 ^ 64).toNat

/-- The conversion of a `long` to `int` in an assignment. -/
def int_of_long (n : Int) : Int := int_of_bits (n % 2 ^ 32).toNat

/-- The text before the first occurrence of the character `c` and the text
after it, as `strchr` finds it; `none` when `c` does not occur. -/
def strchr_split (s : String) (c : Char) : Option (String × String) :=
  match s.data.span (fun x => x != c) with
  | (pre, _ :: post) => some (String.mk pre, String.mk post)
  | (_, []) => none

/-- The tokens that repeated calls of `strtok` with the one delimiter `c`
find in a text: the maximal stretches without `c` that are not empty. -/
def strtok_all (s : String) (c : Char) : List String :=
  ((s.data.splitOn c).filter (fun t => t ≠ [])).map String.mk

/-- One step of the sorting of `qsort`: `x` goes before the first element
that the comparison function does not put before it. -/
def qsort_insert {α : Type} (compar : α → α → Int) (x : α) : List α → List α
  | [] => [x]
  | y :: ys => if compar x y ≤ 0 then x :: y :: ys else y :: qsort_insert compar x ys

/-- The C library function `qsort`: the elements of the array in ascending
order of the comparison function. C leaves the order of elements that compare
equal open; the model sorts by insertion. -/
def qsort {α : Type} (compar : α → α → Int) : List α → List α
  | [] => []
  | x :: xs => qsort_insert compar x (qsort compar xs)

/-! ## aggregators.c -/

/-- The `config_data` of an aggregator instance: `null` is a pointer that was
never set, the others are `struct concat_config_data` and
`struct perc_config_data`. -/
inductive agg_config where
  | null
  | concat_config (delim : String) (delim_len : Nat)
  | perc_config (percentile : double)
deriving DecidableEq

/-- The per-clump data of one aggregator instance, one constructor for each
`struct ..._data` of aggregators.c.

* `concat_data`: `concat_buf` holds the `buf_len` characters written so far,
  `buf_size` has no counterpart;
* `perc_data`: `values` holds the `values_len` numbers stored so far;
* `mode_data`: the hash table with the pools of nodes and entries, as the
  keys in the order of their insertion, each with the `count` of its
  `struct table_entry`; the pools are those of `mode_init`, for 32 nodes and
  entries (`mode_add` tells what happens when they are full);
* `corr_data`: its members `cov_data`, `var_data1` and `var_data2`. -/
inductive agg_data where
  | count_data (count : Nat)
  | sum_data (sum : double)
  | avg_data (total count : double)
  | concat_data (concat_buf : String)
  | cov_data (count sum_of_products sum_of_first sum_of_second : double)
  | max_data (max : double)
  | min_data (min : double)
  | perc_data (values : List double)
  | mode_data (hash_table : List (String × double))
  | var_data (count sum_of_squares sum : double)
  | corr_data (cov_data var_data1 var_data2 : agg_data)
deriving DecidableEq

/-- The C `struct aggregator` of aggregators.h: names, data size and the
functions called through its pointers (`free_func` only releases memory and
has no counterpart). `parse_args_func` gets the argument text (`none`: a
pointer that is not valid) and gives its return value, the configuration and
the input field names it stored. `parse_args_func`, `add_func` and
`dump_func` give `none` when they read through a pointer that is not valid or
outside the data they own. -/
structure aggregator where
  name : String
  shortname : String
  data_size : Nat
  parse_args_func : Option String → Option (Bool × agg_config × List String)
  init_func : agg_config → agg_data
  add_func : agg_config → agg_data → List (Option String) → List double → Option agg_data
  dump_func : agg_config → agg_data → Option String

/-- The function `use_one_field`. -/
def use_one_field (config_str : Option String) : Option (Bool × List String) :=
  match config_str with
  | none => none
  | some str => if str ≠ "" then some (true, [str]) else some (false, [])

/-- The function `use_two_fields`. -/
def use_two_fields (config_str : Option String) : Option (Bool × List String) :=
  match config_str with
  | none => none
  | some str =>
    if str ≠ "" then
      match strchr_split str ',' with
      | none => some (false, [])
      | some (first, comma) => some (true, [first, comma])
    else some (false, [])

/-! ### Average -/

/-- The function `avg_parse_args`. -/
def avg_parse_args (config_str : Option String) : Option (Bool × agg_config × List String) :=
  (use_one_field config_str).map (fun r => (r.1, agg_config.null, r.2))

/-- The function `avg_init`. -/
def avg_init (_c : agg_config) : agg_data := .avg_data (.fin 0) (.fin 0)

/-- The function `avg_add`. -/
def avg_add (_c : agg_config) (d : agg_data) (_ch_data : List (Option String))
    (num_data : List double) : Option agg_data :=
  match d with
  | .avg_data total count =>
    if !isnan (num_data.getD 0 .nan) then
      some (.avg_data (total.add (num_data.getD 0 .nan)) (count.add (.fin 1)))
    else some (.avg_data total count)
  | d => some d

/-- The function `avg_dump`: `printf("%g", d->total / d->count)`. -/
def avg_dump (L : libc) (_c : agg_config) (d : agg_data) : Option String :=
  match d with
  | .avg_data total count => some (L.printf_g (total.div count))
  | _ => some ""

/-! ### Concatenate -/

/-- The function `concat_parse_args`. -/
def concat_parse_args (config_str : Option String) :
    Option (Bool × agg_config × List String) :=
  match config_str with
  | none => none
  | some str =>
    if str ≠ "" then
      match strchr_split str ',' with
      | none => some (false, .null, [])
      | some (delim, comma) => some (true, .concat_config delim delim.length, [comma])
    else some (false, .null, [])

/-- The function `concat_init`. -/
def concat_init (_c : agg_config) : agg_data := .concat_data ""

/-- The function `concat_add`; `strlen(ch_data[0])` reads through `ch_data[0]`
and `c->delim_len` through `c`. -/
def concat_add (c : agg_config) (d : agg_data) (ch_data : List (Option String))
    (_num_data : List double) : Option agg_data :=
  match d with
  | .concat_data concat_buf =>
    match ch_data.getD 0 none, c with
    | some str, .concat_config delim delim_len =>
      let concat_buf :=
        if concat_buf.length > 0 then concat_buf ++ String.mk (delim.data.take delim_len)
        else concat_buf
      some (.concat_data (concat_buf ++ str))
    | _, _ => none
  | d => some d

/-- The function `concat_dump`. -/
def concat_dump (_c : agg_config) (d : agg_data) : Option String :=
  match d with
  | .concat_data concat_buf => some ("\"" ++ concat_buf ++ "\"")
  | _ => some ""

/-! ### Count -/

/-- The function `count_parse_args`. -/
def count_parse_args (_config_str : Option String) :
    Option (Bool × agg_config × List String) :=
  some (true, .null, [])

/-- The function `count_init`. -/
def count_init (_c : agg_config) : agg_data := .count_data 0

/-- The function `count_add`: `d->count++` on a `uint64_t`. -/
def count_add (_c : agg_config) (d : agg_data) (_ch_data : List (Option String))
    (_num_data : List double) : Option agg_data :=
  match d with
  | .count_data count => some (.count_data ((count + 1) % 2 ^ 64))
  | d => some d

/-- The function `count_dump`: `printf("%llu", d->count)`. -/
def count_dump (_c : agg_config) (d : agg_data) : Option String :=
  match d with
  | .count_data count => some (toString count)
  | _ => some ""

/-! ### Covariance -/

/-- The function `cov_parse_args`. -/
def cov_parse_args (config_str : Option String) : Option (Bool × agg_config × List String) :=
  (use_two_fields config_str).map (fun r => (r.1, agg_config.null, r.2))

/-- The function `cov_init`. -/
def cov_init (_c : agg_config) : agg_data := .cov_data (.fin 0) (.fin 0) (.fin 0) (.fin 0)

/-- The function `cov_add`. -/
def cov_add (_c : agg_config) (d : agg_data) (_ch_data : List (Option String))
    (num_data : List double) : Option agg_data :=
  match d with
  | .cov_data count sum_of_products sum_of_first sum_of_second =>
    if !isnan (num_data.getD 0 .nan) && !isnan (num_data.getD 1 .nan) then
      some (.cov_data (count.add (.fin 1))
        (sum_of_products.add ((num_data.getD 0 .nan).mul (num_data.getD 1 .nan)))
        (sum_of_first.add (num_data.getD 0 .nan))
        (sum_of_second.add (num_data.getD 1 .nan)))
    else some (.cov_data count sum_of_products sum_of_first sum_of_second)
  | d => some d

/-- The function `cov_val`. -/
def cov_val (d : agg_data) : double :=
  match d with
  | .cov_data count sum_of_products sum_of_first sum_of_second =>
    (sum_of_products.div count).sub ((sum_of_first.div count).mul (sum_of_second.div count))
  | _ => .nan

/-- The function `cov_dump`: `printf("%f", cov_val(d))`. -/
def cov_dump (L : libc) (_c : agg_config) (d : agg_data) : Option String :=
  match d with
  | .cov_data _ _ _ _ => some (L.printf_f (cov_val d))
  | _ => some ""

/-! ### Max -/

/-- The function `max_parse_args`. -/
def max_parse_args (config_str : Option String) : Option (Bool × agg_config × List String) :=
  (use_one_field config_str).map (fun r => (r.1, agg_config.null, r.2))

/-- The function `max_init`. -/
def max_init (_c : agg_config) : agg_data := .max_data .ninf

/-- The function `max_add`, whose name Lean's library has taken. -/
def max_add_func (_c : agg_config) (d : agg_data) (_ch_data : List (Option String))
    (num_data : List double) : Option agg_data :=
  match d with
  | .max_data max =>
    if !isnan (num_data.getD 0 .nan) && max.lt (num_data.getD 0 .nan) then
      some (.max_data (num_data.getD 0 .nan))
    else some (.max_data max)
  | d => some d

/-- The function `max_dump`. -/
def max_dump (L : libc) (_c : agg_config) (d : agg_data) : Option String :=
  match d with
  | .max_data max => some (L.printf_g max)
  | _ => some ""

/-! ### Min -/

/-- The function `min_parse_args`. -/
def min_parse_args (config_str : Option String) : Option (Bool × agg_config × List String) :=
  (use_one_field config_str).map (fun r => (r.1, agg_config.null, r.2))

/-- The function `min_init`. -/
def min_init (_c : agg_config) : agg_data := .min_data .pinf

/-- The function `min_add`. -/
def min_add (_c : agg_config) (d : agg_data) (_ch_data : List (Option String))
    (num_data : List double) : Option agg_data :=
  match d with
  | .min_data min =>
    if !isnan (num_data.getD 0 .nan) && (num_data.getD 0 .nan).lt min then
      some (.min_data (num_data.getD 0 .nan))
    else some (.min_data min)
  | d => some d

/-- The function `min_dump`. -/
def min_dump (L : libc) (_c : agg_config) (d : agg_data) : Option String :=
  match d with
  | .min_data min => some (L.printf_g min)
  | _ => some ""

/-! ### Sum -/

/-- The function `sum_parse_args`. -/
def sum_parse_args (config_str : Option String) : Option (Bool × agg_config × List String) :=
  (use_one_field config_str).map (fun r => (r.1, agg_config.null, r.2))

/-- The function `sum_init`. -/
def sum_init (_c : agg_config) : agg_data := .sum_data (.fin 0)

/-- The function `sum_add`. -/
def sum_add (_c : agg_config) (d : agg_data) (_ch_data : List (Option String))
    (num_data : List double) : Option agg_data :=
  match d with
  | .sum_data sum =>
    if !isnan (num_data.getD 0 .nan) then some (.sum_data (sum.add (num_data.getD 0 .nan)))
    else some (.sum_data sum)
  | d => some d

/-- The function `sum_dump`: `printf("%g", d->sum)`. -/
def sum_dump (L : libc) (_c : agg_config) (d : agg_data) : Option String :=
  match d with
  | .sum_data sum => some (L.printf_g sum)
  | _ => some ""

/-! ### Perc -/

/-- The function `perc_parse_args`; `strtod` has consumed no character when
`endp == config_str`. -/
def perc_parse_args (L : libc) (config_str : Option String) :
    Option (Bool × agg_config × List String) :=
  match config_str with
  | none => none
  | some str =>
    if str ≠ "" then
      match strchr_split str ',' with
      | none => some (false, .null, [])
      | some (number, comma) =>
        if (L.strtod number).2 = 0 then some (false, .perc_config (L.strtod number).1, [])
        else some (true, .perc_config (L.strtod number).1, [comma])
    else some (false, .null, [])

/-- The function `perc_init`. -/
def perc_init (_c : agg_config) : agg_data := .perc_data []

/-- The function `perc_add`. -/
def perc_add (_c : agg_config) (d : agg_data) (_ch_data : List (Option String))
    (num_data : List double) : Option agg_data :=
  match d with
  | .perc_data values =>
    if !isnan (num_data.getD 0 .nan) then some (.perc_data (values ++ [num_data.getD 0 .nan]))
    else some (.perc_data values)
  | d => some d

/-- The function `cmp_dbl`. -/
def cmp_dbl (d1 d2 : double) : Int :=
  if d1.lt d2 then -1 else if d2.lt d1 then 1 else 0

/-- The index that `perc_dump` reads:
`(int)floor((c->percentile / 100) * d->values_len)`, the quotient and the
product each rounded to binary64. -/
def perc_index (percentile : double) (values_len : Nat) : Option Int :=
  int_of_double
    ((percentile.div (.fin 100)).binary64.mul (.fin values_len)).binary64.floor

/-- The function `perc_dump`; it reads `c->percentile` through `c` and the
element of the sorted `values` at `perc_index`, which has to be one of the
`values_len` elements stored. `qsort` sorts `values` in place; the model
leaves the stored values in arrival order, and every dump sorts them. -/
def perc_dump (L : libc) (c : agg_config) (d : agg_data) : Option String :=
  match d with
  | .perc_data values =>
    match c with
    | .perc_config percentile =>
      match perc_index percentile values.length with
      | some i => if 0 ≤ i then ((qsort cmp_dbl values)[i.toNat]?).map L.printf_g else none
      | none => none
    | _ => none
  | _ => some ""

/-! ### Mode -/

/-- Modelled from the spec: `hash_lookup` on the table of a mode aggregator
(hash.h is not among the sources): the entry of the key that equals `key`
(the table is created without a comparison function and compares keys as
strings). -/
def mode_hash_lookup (hash_table : List (String × double)) (key : String) :
    Option (String × double) :=
  hash_table.find? (fun e => e.1 == key)

/-- The function `mode_add`; `hash_lookup` applies `str_hash_func` to
`ch_data[0]`, which reads through it (`strlen`). A new key takes a node and
an entry from the pools `nodes` and `entries`, which `mode_init` allocates
for 32 of each (`nodes_len` and `entries_len` are the number of keys of the
table): the entry gets the count 0 and goes to the end of the table, then the
count of the entry of the key goes up by one. When the pools are full,
`RESIZE_ARRAY_IF_NECESSARY` hands them to `realloc`, which releases the blocks
that the nodes of the hash table live in and that the nodes point into;
`hash_insert` then links the new node into a table of released nodes, and the
model gives `none`, as for every read through a pointer that is not valid. -/
def mode_add (_c : agg_config) (d : agg_data) (ch_data : List (Option String))
    (_num_data : List double) : Option agg_data :=
  match d with
  | .mode_data hash_table =>
    match ch_data.getD 0 none with
    | none => none
    | some key =>
      match mode_hash_lookup hash_table key with
      | none =>
        if 32 < hash_table.length + 1 then none
        else
          some (.mode_data ((hash_table ++ [(key, double.fin 0)]).map (fun e =>
            if e.1 == key then (e.1, e.2.add (.fin 1)) else e)))
      | some _ =>
        some (.mode_data (hash_table.map (fun e =>
          if e.1 == key then (e.1, e.2.add (.fin 1)) else e)))
  | d => some d

/-- The loop of `mode_dump` over the nodes of the scan: the variables
`max_num` and `max_val` after it. -/
def mode_dump_loop : List (String × double) → double → Option String → double × Option String
  | [], max_num, max_val => (max_num, max_val)
  | entry :: rest, max_num, max_val =>
    if max_num.lt entry.2 then mode_dump_loop rest entry.2 (some entry.1)
    else mode_dump_loop rest max_num max_val

/-- The function `mode_dump`; `fputs(max_val, stdout)` reads through
`max_val`. `hash_scan` is the order in which `hash_scan_next` gives the
entries of a table, a function of the entries in the order of their
insertion; the hash table (hash.h) is not among the sources. -/
def mode_dump (hash_scan : List (String × double) → List (String × double))
    (_c : agg_config) (d : agg_data) : Option String :=
  match d with
  | .mode_data hash_table =>
    match (mode_dump_loop (hash_scan hash_table) (.fin 0) none).2 with
    | some max_val => some ("Mode dump!\n" ++ "\"" ++ max_val ++ "\"")
    | none => none
  | _ => some ""

/-- The function `mode_parse_args`. -/
def mode_parse_args (config_str : Option String) : Option (Bool × agg_config × List String) :=
  (use_one_field config_str).map (fun r => (r.1, agg_config.null, r.2))

/-- The function `mode_init`. -/
def mode_init (_c : agg_config) : agg_data := .mode_data []

/-! ### Variance -/

/-- The function `var_parse_args`. -/
def var_parse_args (config_str : Option String) : Option (Bool × agg_config × List String) :=
  (use_one_field config_str).map (fun r => (r.1, agg_config.null, r.2))

/-- The function `var_init`. -/
def var_init (_c : agg_config) : agg_data := .var_data (.fin 0) (.fin 0) (.fin 0)

/-- The function `var_add`. -/
def var_add (_c : agg_config) (d : agg_data) (_ch_data : List (Option String))
    (num_data : List double) : Option agg_data :=
  match d with
  | .var_data count sum_of_squares sum =>
    if !isnan (num_data.getD 0 .nan) then
      some (.var_data (count.add (.fin 1))
        (sum_of_squares.add ((num_data.getD 0 .nan).mul (num_data.getD 0 .nan)))
        (sum.add (num_data.getD 0 .nan)))
    else some (.var_data count sum_of_squares sum)
  | d => some d

/-- The function `var_val`. -/
def var_val (d : agg_data) : double :=
  match d with
  | .var_data count sum_of_squares sum =>
    let avg := sum.div count
    (sum_of_squares.div count).sub (avg.mul avg)
  | _ => .nan

/-- The function `var_dump`. -/
def var_dump (L : libc) (_c : agg_config) (d : agg_data) : Option String :=
  match d with
  | .var_data _ _ _ => some (L.printf_g (var_val d))
  | _ => some ""

/-! ### Correlation -/

/-- The function `corr_parse_args`. -/
def corr_parse_args (config_str : Option String) : Option (Bool × agg_config × List String) :=
  (use_two_fields config_str).map (fun r => (r.1, agg_config.null, r.2))

/-- The function `corr_init`. -/
def corr_init (c : agg_config) : agg_data :=
  .corr_data (cov_init c) (var_init c) (var_init c)

/-- The function `corr_add`; `ch_data+1` and `num_data+1` are the arrays
without their first element. -/
def corr_add (_c : agg_config) (d : agg_data) (ch_data : List (Option String))
    (num_data : List double) : Option agg_data :=
  match d with
  | .corr_data cov_data var_data1 var_data2 => do
    let cov_data ← cov_add .null cov_data ch_data num_data
    let var_data1 ← var_add .null var_data1 ch_data num_data
    let var_data2 ← var_add .null var_data2 (ch_data.drop 1) (num_data.drop 1)
    pure (.corr_data cov_data var_data1 var_data2)
  | d => some d

/-- The function `corr_dump`. -/
def corr_dump (L : libc) (_c : agg_config) (d : agg_data) : Option String :=
  match d with
  | .corr_data cov_data var_data1 var_data2 =>
    let cov := cov_val cov_data
    let var1 := var_val var_data1
    let var2 := var_val var_data2
    some (L.printf_g (cov.div (L.sqrt (var1.mul var2))))
  | _ => some ""

/-! ### The table `aggregators` -/

/-- The entry `{"count", "ct", sizeof(struct count_data), ...}` of the table
`aggregators`. -/
def count_aggregator : aggregator where
  name := "count"
  shortname := "ct"
  data_size := 8
  parse_args_func := count_parse_args
  init_func := count_init
  add_func := count_add
  dump_func := count_dump

/-- The entry `{"sum", "sum", sizeof(struct sum_data), ...}` of the table
`aggregators`. -/
def sum_aggregator (L : libc) : aggregator where
  name := "sum"
  shortname := "sum"
  data_size := 8
  parse_args_func := sum_parse_args
  init_func := sum_init
  add_func := sum_add
  dump_func := sum_dump L

/-- The table `aggregators` without its final entry of `NULL`s; the sizes are
those of an LP64 machine. -/
def aggregators (L : libc) (hash_scan : List (String × double) → List (String × double)) :
    List aggregator :=
  [⟨"average", "avg", 16, avg_parse_args, avg_init, avg_add, avg_dump L⟩,
   ⟨"concatenate", "concat", 16, concat_parse_args, concat_init, concat_add, concat_dump⟩,
   count_aggregator,
   ⟨"correlation", "corr", 80, corr_parse_args, corr_init, corr_add, corr_dump L⟩,
   ⟨"covariance", "cov", 32, cov_parse_args, cov_init, cov_add, cov_dump L⟩,
   ⟨"maximum", "max", 8, max_parse_args, max_init, max_add_func, max_dump L⟩,
   ⟨"minimum", "min", 8, min_parse_args, min_init, min_add, min_dump L⟩,
   ⟨"mode", "mode", 40, mode_parse_args, mode_init, mode_add, mode_dump hash_scan⟩,
   ⟨"percentile", "perc", 16, perc_parse_args L, perc_init, perc_add, perc_dump L⟩,
   sum_aggregator L,
   ⟨"variance", "var", 24, var_parse_args, var_init, var_add, var_dump L⟩]

/-! ## recs-collate.c: data -/

/-- The C `struct clump`. The hash node is the clump itself (its first
member), `key_values` holds `num_key_fields` entries and a final `NULL`,
`aggregator_data` holds one element per aggregator instance. -/
structure clump where
  key_values : List (Option String)
  next : Option Nat
  prev : Option Nat
  aggregator_data : List agg_data

/-- The C `struct agg_instance`. -/
structure agg_instance where
  agg : aggregator
  output_field_name : String
  num_input_fields : Nat
  input_fields : List Nat
  config_data : agg_config

/-- The C `struct str_ref`: where the value of an interesting field lies in
the buffer of the parser. -/
structure str_ref where
  offset : Int
  len : Int
  is_set : Bool
deriving DecidableEq

/-- The C `struct collate_state`, together with the memory of the clumps
(`heap`) and the text written to standard output (`stdout`).
`clump_table` is the hash table: the addresses of the clumps it holds;
`interesting_field_names` holds the names without the final `NULL`. -/
structure collate_state where
  max_clumps : Int
  incremental : Bool
  agg_instances : List agg_instance
  cube_max : Int
  cube_default : String
  clump_table : List Nat
  num_interesting_fields : Nat
  num_key_fields : Nat
  interesting_field_names : List String
  interesting_field : Int
  interesting_fields : List str_ref
  clumps_head : Option Nat
  clumps_tail : Option Nat
  heap : List clump
  stdout : String

/-- The constant `MAX_CLUMPS_INFINITE`. -/
def MAX_CLUMPS_INFINITE : Int := -1

/-! ## recs-collate.c: the emitter -/

/-- The first loop of `dump_clump`, from index `i` for `n` more rounds. -/
def dump_clump_keys (names : List String) (key_values : List (Option String)) :
    Nat → Nat → String
  | 0, _ => ""
  | n + 1, i =>
    (if i ≠ 0 then "," else "") ++
    (match key_values.getD i none with
     | some val => "\"" ++ names.getD i "" ++ "\":\"" ++ val ++ "\""
     | none => "\"" ++ names.getD i "" ++ "\":null") ++
    dump_clump_keys names key_values n (i + 1)

/-- The second loop of `dump_clump`; `i` is the value the first loop left in
the variable `i`. -/
def dump_clump_aggs (i : Nat) : List agg_instance → List agg_data → Option String
  | agg_inst :: insts, d :: ds => do
    let text ← agg_inst.agg.dump_func agg_inst.config_data d
    let rest ← dump_clump_aggs i insts ds
    pure ((if i ≠ 0 then "," else "") ++ "\"" ++ agg_inst.output_field_name ++ "\":" ++
      text ++ rest)
  | _, _ => some ""

/-- The text `dump_clump` writes for a clump. -/
def dump_clump_text (cs : collate_state) (c : clump) : Option String := do
  let aggs ← dump_clump_aggs cs.num_key_fields cs.agg_instances c.aggregator_data
  pure ("\x7b" ++ dump_clump_keys cs.interesting_field_names c.key_values cs.num_key_fields 0 ++
    aggs ++ "\x7d\n")

/-- The function `dump_clump`. -/
def dump_clump (p : Nat) (cs : collate_state) : Option collate_state := do
  let c ← cs.heap[p]?
  let text ← dump_clump_text cs c
  pure { cs with stdout := cs.stdout ++ text }

/-! ## recs-collate.c: the clump table -/

/-- The loop of `hash_comp_func`, from index `i` for `n` more rounds. -/
def hash_comp_func_from (k1 k2 : List (Option String)) : Nat → Nat → Int
  | 0, _ => 0
  | n + 1, i =>
    match k1.getD i none, k2.getD i none with
    | some a, some b =>
      let cmp := strcmp a b
      if cmp ≠ 0 then cmp else hash_comp_func_from k1 k2 n (i + 1)
    | none, none => 0
    | none, some _ => -1
    | some _, none => 1

/-- The function `hash_comp_func`; the global `num_key_fields` is its first
argument. -/
def hash_comp_func (num_key_fields : Nat) (k1 k2 : List (Option String)) : Int :=
  hash_comp_func_from k1 k2 num_key_fields 0

/-- The function `hash_func`; `hashlittle` (lookup3.h) is an argument, the
string length it is given is that of the string. -/
def hash_func (hashlittle : String → Nat → Nat) (num_key_fields : Nat)
    (k : List (Option String)) : Nat :=
  (List.range num_key_fields).foldl
    (fun hash i => match k.getD i none with
      | some s => hashlittle s hash
      | none => hash) 0

/-- Modelled from the spec: `hash_lookup` of the generic hash table (hash.h),
which is not among the sources. The table maps key tuples to clumps and finds
the clump whose key the comparison function given to `hash_create`
(`hash_comp_func`) reports equal to the searched key. -/
def hash_lookup (state : collate_state) (key : List (Option String)) : Option Nat :=
  state.clump_table.find? (fun p =>
    match state.heap[p]? with
    | some c => hash_comp_func state.num_key_fields c.key_values key == 0
    | none => false)

/-- Modelled from the spec: `hash_count`, the number of entries of the
table. -/
def hash_count (state : collate_state) : Nat := state.clump_table.length

/-- Modelled from the spec: `hash_insert`, which adds a node to the table. -/
def hash_insert (state : collate_state) (p : Nat) : collate_state :=
  { state with clump_table := state.clump_table ++ [p] }

/-- Modelled from the spec: `hash_delete` (and `hash_scan_delete`), which
takes a node out of the table. -/
def hash_delete (state : collate_state) (p : Nat) : collate_state :=
  { state with clump_table := state.clump_table.erase p }

/-- Lines 243-247 of `find_or_create_clump`: "remove this clump from wherever
it is in the LRU list". -/
def lru_remove (state : collate_state) (p : Nat) : Option collate_state := do
  let clump ← state.heap[p]?
  let state ← (match clump.next with
    | some n => do
      let nx ← state.heap[n]?
      pure { state with heap := state.heap.set n ({ nx with prev := clump.prev }) }
    | none => pure { state with clumps_tail := clump.prev })
  let clump ← state.heap[p]?
  match clump.prev with
  | some q => do
    let pv ← state.heap[q]?
    pure { state with heap := state.heap.set q ({ pv with next := clump.next }) }
  | none => pure { state with clumps_head := clump.next }

/-- Lines 259-272 of `find_or_create_clump`: "do an LRU eviction". The result
holds the address of the evicted clump, whose storage is used again. -/
def lru_evict (state : collate_state) : Option (collate_state × Nat) := do
  let p ← state.clumps_tail
  let clump ← state.heap[p]?
  let state := { state with clumps_tail := clump.prev }
  let state ← (match state.clumps_tail with
    | some t => do
      let tc ← state.heap[t]?
      pure { state with heap := state.heap.set t ({ tc with next := none }) }
    | none => pure { state with clumps_head := none })
  let state ← (if !state.incremental then dump_clump p state else pure state)
  pure (hash_delete state p, p)

/-- Lines 277: `malloc(state->clump_size)`, a new slot of the heap. -/
def malloc_clump (state : collate_state) : collate_state × Nat :=
  ({ state with heap := state.heap ++ [⟨[], none, none, []⟩] }, state.heap.length)

/-- Lines 281-302 of `find_or_create_clump`: the copy of the key, the
`init_func` of every aggregator instance, and the insertion into the table. -/
def init_clump (state : collate_state) (p : Nat) (key_vals : List (Option String)) :
    Option collate_state := do
  let clump ← state.heap[p]?
  let key_values :=
    (List.range state.num_key_fields).map (fun i => key_vals.getD i none) ++ [none]
  let aggregator_data :=
    state.agg_instances.map (fun agg_inst => agg_inst.agg.init_func agg_inst.config_data)
  let clump := { clump with key_values := key_values, aggregator_data := aggregator_data }
  let state := { state with heap := state.heap.set p clump }
  pure (hash_insert state p)

/-- Lines 306-311 of `find_or_create_clump`: "move this clump to the front of
the LRU list". -/
def lru_push_front (state : collate_state) (p : Nat) : Option collate_state := do
  let clump ← state.heap[p]?
  let clump := { clump with next := state.clumps_head, prev := none }
  let state := { state with heap := state.heap.set p clump }
  let state ← (match state.clumps_head with
    | some h => do
      let hc ← state.heap[h]?
      pure { state with heap := state.heap.set h ({ hc with prev := some p }) }
    | none => pure { state with clumps_tail := some p })
  pure { state with clumps_head := some p }

/-- The function `find_or_create_clump`. -/
def find_or_create_clump (state : collate_state) (key_vals : List (Option String)) :
    Option (collate_state × Nat) :=
  match hash_lookup state key_vals with
  | some p => do
    let state ← lru_remove state p
    let state ← lru_push_front state p
    pure (state, p)
  | none => do
    let (state, p) ←
      (if state.max_clumps ≠ MAX_CLUMPS_INFINITE ∧
          hash_count state ≥ ulong_of_int state.max_clumps then
        lru_evict state
      else
        pure (malloc_clump state))
    let state ← init_clump state p key_vals
    let state ← lru_push_front state p
    pure (state, p)

/-- The loop of `find_and_add_to_clump` over the aggregator instances. -/
def add_to_aggs (vals : List (Option String)) (d_vals : List double) :
    List agg_instance → List agg_data → Option (List agg_data)
  | agg_inst :: insts, d :: ds => do
    let agg_vals := (List.range agg_inst.num_input_fields).map
      (fun j => vals.getD (agg_inst.input_fields.getD j 0) none)
    let agg_d_vals := (List.range agg_inst.num_input_fields).map
      (fun j => d_vals.getD (agg_inst.input_fields.getD j 0) .nan)
    let d ← agg_inst.agg.add_func agg_inst.config_data d agg_vals agg_d_vals
    let ds ← add_to_aggs vals d_vals insts ds
    pure (d :: ds)
  | _, _ => some []

/-- The function `find_and_add_to_clump`. -/
def find_and_add_to_clump (state : collate_state) (vals : List (Option String))
    (d_vals : List double) : Option collate_state := do
  let (state, p) ← find_or_create_clump state vals
  let clump ← state.heap[p]?
  let aggregator_data ← add_to_aggs vals d_vals state.agg_instances clump.aggregator_data
  let clump := { clump with aggregator_data := aggregator_data }
  let state := { state with heap := state.heap.set p clump }
  if state.incremental then dump_clump p state else pure state

/-! ## recs-collate.c: the string and the value callback -/

/-- Modelled from the spec: a frame of the parse stack of the parser
(`struct parse_stack_frame` of interpreter.h, which is not among the sources);
the callbacks read its member `start_offset`. -/
structure parse_stack_frame where
  start_offset : Int
deriving DecidableEq

/-- Modelled from the spec: the byte buffer of the parser (interpreter.h is
not among the sources): `buf` holds the bytes, a byte being a `Char` and
`'\0'` the NUL byte, and `base_offset` is the offset of `buf[0]` in the
input. -/
structure buffer where
  buf : List Char
  base_offset : Int
deriving DecidableEq

/-- Modelled from the spec: the members of `struct parse_state`
(interpreter.h, not among the sources) that the callbacks use: the parse
stack and its current length, the current offset and the buffer. Offsets are
taken to fit an `int`. -/
structure parse_state where
  parse_stack_length : Int
  parse_stack : List parse_stack_frame
  offset : Int
  buffer : buffer
deriving DecidableEq

/-- The read `a[i]` of an array; `none` outside the array. -/
def array_get {α : Type} (a : List α) (i : Int) : Option α :=
  if 0 ≤ i then a[i.toNat]? else none

/-- The write `a[i] = x` to an array; `none` outside the array. -/
def array_set {α : Type} (a : List α) (i : Int) (x : α) : Option (List α) :=
  if 0 ≤ i ∧ i.toNat < a.length then some (a.set i.toNat x) else none

/-- The C string that starts at `buf + i`: the bytes up to the next NUL;
`none` when `i` is outside the buffer or no NUL follows inside it. -/
def c_string_at (buf : List Char) (i : Int) : Option String :=
  if 0 ≤ i ∧ '\x00' ∈ buf.drop i.toNat then
    some (String.mk ((buf.drop i.toNat).takeWhile (fun ch => ch ≠ '\x00')))
  else none

/-- The loop of lines 174-185 of `string_callback` over the names, from index
`i`: the new value of `interesting_field`. -/
def string_callback_find (str : String) : List String → Nat → Int
  | [], _ => -1
  | name :: rest, i =>
    if strcmp str name = 0 then (i : Int) else string_callback_find str rest (i + 1)

/-- The function `string_callback`; `ps` is its argument `parse_state`. -/
def string_callback (ps : parse_state) (state : collate_state) :
    Option (parse_state × collate_state) :=
  if ps.parse_stack_length = 2 then do
    let frame ← array_get ps.parse_stack (ps.parse_stack_length - 1)
    let start_off := frame.start_offset - ps.buffer.base_offset
    let one_past_end_off := ps.offset - ps.buffer.base_offset
    let start_off := start_off + 1
    let one_past_end_off := one_past_end_off - 1
    let buf ← array_set ps.buffer.buf one_past_end_off '\x00'
    let str ← c_string_at buf start_off
    pure ({ ps with buffer := { ps.buffer with buf := buf } },
      { state with
        interesting_field := string_callback_find str state.interesting_field_names 0 })
  else pure (ps, state)

/-- The function `value_callback`; `ps` is its argument `parse_state`. -/
def value_callback (ps : parse_state) (state : collate_state) :
    Option (parse_state × collate_state) :=
  if ps.parse_stack_length = 2 ∧ state.interesting_field ≠ -1 then do
    let frame ← array_get ps.parse_stack (ps.parse_stack_length - 1)
    let start_off := frame.start_offset
    let one_past_end_off := ps.offset
    let ch ← array_get ps.buffer.buf (start_off - ps.buffer.base_offset)
    if ch = '\x7b' ∨ ch = '[' ∨ ch = 't' ∨ ch = 'f' ∨ ch = 'n' then
      pure (ps, state)
    else do
      let start_off := if ch = '"' then start_off + 1 else start_off
      let one_past_end_off := if ch = '"' then one_past_end_off - 1 else one_past_end_off
      let save ← array_get ps.buffer.buf
        (one_past_end_off - ps.buffer.base_offset)
      let buf ← array_set ps.buffer.buf
        (one_past_end_off - ps.buffer.base_offset) '\x00'
      let interesting_fields ← array_set state.interesting_fields state.interesting_field
        ⟨start_off, one_past_end_off - start_off, true⟩
      let buf ← array_set buf (one_past_end_off - ps.buffer.base_offset) save
      pure ({ ps with buffer := { ps.buffer with buf := buf } },
        { state with interesting_fields := interesting_fields })
  else pure (ps, state)

/-! ## recs-collate.c: the record callback and the driver -/

/-- Lines 384-395 of `object_callback`: the numeric value of one field. -/
def dbl_val (L : libc) : Option String → double
  | some s => if (L.strtod s).2 = 0 then .nan else (L.strtod s).1
  | none => .nan

/-- Lines 406-418 of `object_callback`: the arrays `clump_vals` and
`dbl_clump_vals` for the mask `i`. -/
def cube_vals (state : collate_state) (vals : List (Option String))
    (dbl_vals : List double) (i : Nat) : List (Option String) × List double :=
  ((List.range state.num_interesting_fields).map (fun j =>
      if shl_one j &&& i ≠ 0 then some state.cube_default else vals.getD j none),
   (List.range state.num_interesting_fields).map (fun j =>
      if shl_one j &&& i ≠ 0 then double.nan else dbl_vals.getD j .nan))

/-- The loop of lines 401-421 of `object_callback`, from mask `i` for `n` more
rounds. -/
def cube_loop (vals : List (Option String)) (dbl_vals : List double) :
    Nat → Nat → collate_state → Option collate_state
  | 0, _, state => some state
  | n + 1, i, state => do
    let cv := cube_vals state vals dbl_vals i
    let state ← find_and_add_to_clump state cv.1 cv.2
    cube_loop vals dbl_vals n (i + 1) state

/-- The function `object_callback` at the end of a top-level object, from
line 379 on; `vals` is the array of the values of the interesting fields that
lines 356-377 pack (`none` for a field the record does not have). -/
def object_callback (L : libc) (state : collate_state) (vals : List (Option String)) :
    Option collate_state :=
  let dbl_vals := (List.range state.num_interesting_fields).map
    (fun i => dbl_val L (vals.getD i none))
  cube_loop vals dbl_vals state.cube_max.toNat 0 state

/-- The loop of lines 772-780 of `main` over the nodes of the table. -/
def main_flush_loop : List Nat → collate_state → Option collate_state
  | [], cs => some cs
  | node :: rest, cs => do
    let cs ← (if !cs.incremental then dump_clump node cs else pure cs)
    main_flush_loop rest (hash_delete cs node)

/-- Lines 772-780 of `main`: the scan of the clump table at the end of the
input. The scan visits the nodes in the order of `clump_table`. -/
def main_flush (cs : collate_state) : Option collate_state :=
  main_flush_loop cs.clump_table cs

/-- The records of the input, one call of `object_callback` each. -/
def process_records (L : libc) : List (List (Option String)) → collate_state →
    Option collate_state
  | [], cs => some cs
  | vals :: rest, cs => do
    let cs ← object_callback L cs vals
    process_records L rest cs

/-- Lines 750-780 of `main`: all records, then the final scan. -/
def main_run (L : libc) (cs : collate_state) (records : List (List (Option String))) :
    Option collate_state := do
  let cs ← process_records L records cs
  main_flush cs

/-! ## recs-collate.c: the configuration -/

/-- How the configuration part of `main` ends: it goes on with a value,
`usage_err` writes a message and leaves the program (`exit(1)`), or the
program reads through a pointer that is not valid. -/
inductive outcome (α : Type) where
  | ok (a : α)
  | usage_err (msg : String)
  | crash

/-- The C `struct interesting_field`. -/
structure interesting_field where
  name : String
  is_key : Bool
deriving DecidableEq

/-- The loop of `add_interesting_field` over the table, from index `i`: the
table after a match, with the index of the match. -/
def add_interesting_field_find (str : String) (is_key : Bool) :
    List interesting_field → Nat → Option (List interesting_field × Nat)
  | [], _ => none
  | f :: rest, i =>
    if strcmp str f.name = 0 then
      some ((if is_key then { f with is_key := true } else f) :: rest, i)
    else
      (add_interesting_field_find str is_key rest (i + 1)).map (fun r => (f :: r.1, r.2))

/-- The function `add_interesting_field`; the global table `fields` is its
first argument and comes back with the index. -/
def add_interesting_field (fields : List interesting_field) (str : String) (is_key : Bool) :
    List interesting_field × Nat :=
  match add_interesting_field_find str is_key fields 0 with
  | some r => r
  | none => (fields ++ [⟨str, is_key⟩], fields.length)

/-- The loop of lines 562-563 of `init_agg_instance` over the input field
names of an aggregator. -/
def add_input_fields : List interesting_field → List String →
    List interesting_field × List Nat
  | fields, [] => (fields, [])
  | fields, f :: rest =>
    let r := add_interesting_field fields f false
    let r' := add_input_fields r.1 rest
    (r'.1, r.2 :: r'.2)

/-- The function `init_agg_instance`; `aggregators` is the table of that name
and `fields` the global table of interesting fields. -/
def init_agg_instance (aggregators : List aggregator) (fields : List interesting_field)
    (agg_str : String) : outcome (agg_instance × List interesting_field) :=
  let named : String × String :=
    match strchr_split agg_str '=' with
    | some (before, after) => (before, after)
    | none => (agg_str.map (fun c => if c = ',' then '_' else c), agg_str)
  let output_field_name := named.1
  let agg_str := named.2
  let kind : String × Option String :=
    match strchr_split agg_str ',' with
    | some (before, after) => (before, some after)
    | none => (agg_str, none)
  match aggregators.find? (fun a => strcmp kind.1 a.name == 0 || strcmp kind.1 a.shortname == 0) with
  | some aggregator =>
    match aggregator.parse_args_func kind.2 with
    | some (_, config_data, names) =>
      let r := add_input_fields fields names
      .ok (⟨aggregator, output_field_name, names.length, r.2, config_data⟩, r.1)
    | none => .crash
  | none => .usage_err ("Couldn't find an aggregator named '" ++ kind.1 ++ "'")

/-- The variables of `main` that the option loop sets: `cs`, `cube`, the
global table `fields` and the names of the files opened. -/
structure main_vars where
  cs : collate_state
  cube : Bool
  fields : List interesting_field
  files : List String

/-- Lines 575-600 of `main`: the variables before the first option. -/
def main_init : main_vars where
  cs :=
    { max_clumps := 1, incremental := false, agg_instances := [], cube_max := 1,
      cube_default := "ALL", clump_table := [], num_interesting_fields := 0,
      num_key_fields := 0, interesting_field_names := [], interesting_field := 0,
      interesting_fields := [], clumps_head := none,
      clumps_tail := none, heap := [], stdout := "" }
  cube := false
  fields := []
  files := []

/-- The loop of lines 613-616 of `main` over the tokens of the key list. -/
def main_add_keys : List interesting_field → List String → List interesting_field
  | fields, [] => fields
  | fields, str :: rest => main_add_keys (add_interesting_field fields str true).1 rest

/-- The loop of lines 624-631 of `main` over the aggregator specifiers. -/
def main_add_aggs (aggregators : List aggregator) :
    main_vars → List String → outcome main_vars
  | v, [] => .ok v
  | v, agg :: rest =>
    match init_agg_instance aggregators v.fields agg with
    | .ok (agg_inst, fields) =>
      main_add_aggs aggregators
        { v with
          cs := { v.cs with agg_instances := v.cs.agg_instances ++ [agg_inst] },
          fields := fields } rest
    | .usage_err msg => .usage_err msg
    | .crash => .crash

/-- The loop of lines 603-687 of `main` over the command line arguments; a
list of keys or of aggregators without a token makes the program read through
`NULL`. -/
def main_options (E : libc) (aggregators : List aggregator) :
    List String → main_vars → outcome main_vars
  | [], v => .ok v
  | [arg], v =>
    if arg = "--key" ∨ arg = "-k" then
      .usage_err ("argument '" ++ arg ++ "' must be followed by a list of keys")
    else if arg = "--aggregator" ∨ arg = "-a" then
      .usage_err ("argument '" ++ arg ++ "' must be followed by a list of aggregators")
    else if arg = "--size" ∨ arg = "--sz" ∨ arg = "-n" then
      .usage_err ("argument '" ++ arg ++ "' must be followed by an integer")
    else if arg = "--adjacent" ∨ arg = "-a" ∨ arg = "-1" then
      .ok { v with cs := { v.cs with max_clumps := 1 } }
    else if arg = "--perfect" then
      .ok { v with cs := { v.cs with max_clumps := MAX_CLUMPS_INFINITE } }
    else if arg = "--incremental" then
      .ok { v with cs := { v.cs with incremental := true } }
    else if arg = "--cube" then
      .ok { v with cube := true }
    else if arg = "--cube-default" then
      .usage_err "argument '--cube-default' must be followed by a string"
    else if E.fopen arg then
      .ok { v with files := v.files ++ [arg] }
    else
      .usage_err ("Couldn't open file '" ++ arg ++ "' for reading")
  | arg :: next :: rest, v =>
    if arg = "--key" ∨ arg = "-k" then
      match strtok_all next ',' with
      | [] => .crash
      | keys => main_options E aggregators rest { v with fields := main_add_keys v.fields keys }
    else if arg = "--aggregator" ∨ arg = "-a" then
      match strtok_all next ':' with
      | [] => .crash
      | aggs =>
        match main_add_aggs aggregators v aggs with
        | .ok v' => main_options E aggregators rest v'
        | .usage_err msg => .usage_err msg
        | .crash => .crash
    else if arg = "--size" ∨ arg = "--sz" ∨ arg = "-n" then
      if (E.strtol next).2 then
        .usage_err ("parameter to '" ++ arg ++ "' argument was not a valid integer")
      else if (E.strtol next).1 < 1 then
        .usage_err "the size must be greater than 0"
      else
        main_options E aggregators rest
          { v with cs := { v.cs with max_clumps := int_of_long (E.strtol next).1 } }
    else if arg = "--adjacent" ∨ arg = "-a" ∨ arg = "-1" then
      main_options E aggregators (next :: rest) { v with cs := { v.cs with max_clumps := 1 } }
    else if arg = "--perfect" then
      main_options E aggregators (next :: rest)
        { v with cs := { v.cs with max_clumps := MAX_CLUMPS_INFINITE } }
    else if arg = "--incremental" then
      main_options E aggregators (next :: rest)
        { v with cs := { v.cs with incremental := true } }
    else if arg = "--cube" then
      main_options E aggregators (next :: rest) { v with cube := true }
    else if arg = "--cube-default" then
      main_options E aggregators rest { v with cs := { v.cs with cube_default := next } }
    else if E.fopen arg then
      main_options E aggregators (next :: rest) { v with files := v.files ++ [arg] }
    else
      .usage_err ("Couldn't open file '" ++ arg ++ "' for reading")

/-- The loop of lines 725-733 of `main`: the first index of `names` that
holds `name`, the old index when there is none. -/
def main_remap_field (names : List String) (fields : List interesting_field) (old : Nat) :
    Nat :=
  match fields[old]? with
  | some f =>
    match names.findIdx? (fun n => strcmp n f.name == 0) with
    | some k => k
    | none => old
  | none => old

/-- Lines 689-748 of `main`: the checks after the option loop, the order of
the interesting fields, the cube check and the new field indices of the
aggregator instances. The result is the state in which the first record is
read: the entries of `interesting_fields` are those that lines 762-763 leave
(`is_set` is false; `offset` and `len`, which nothing has written yet, are 0
in the model). -/
def main_finish (v : main_vars) : outcome collate_state :=
  if v.fields.length = 0 then
    .usage_err "must specify --key or --aggregator"
  else
    let keys := (v.fields.filter (fun f => f.is_key)).map (fun f => f.name)
    let nonkeys := (v.fields.filter (fun f => !f.is_key)).map (fun f => f.name)
    let names := keys ++ nonkeys
    let cube_max : Int := if v.cube then int_of_bits (shl_one keys.length) else v.cs.cube_max
    if v.cube ∧ v.cs.max_clumps ≠ MAX_CLUMPS_INFINITE ∧ v.cs.max_clumps < cube_max then
      .usage_err "when cubing, you must have at least 2 ** num_key_fields clumps"
    else
      .ok { v.cs with
        num_interesting_fields := v.fields.length
        num_key_fields := keys.length
        interesting_field_names := names
        interesting_field := -1
        interesting_fields := List.replicate v.fields.length ⟨0, 0, false⟩
        cube_max := cube_max
        agg_instances := v.cs.agg_instances.map (fun agg_inst =>
          { agg_inst with
            input_fields := agg_inst.input_fields.map (main_remap_field names v.fields) }) }

/-- Lines 575-748 of `main`: from the command line arguments (without the
program name) to the state in which the first record is read. -/
def main_config (E : libc) (aggregators : List aggregator) (argv : List String) :
    outcome collate_state :=
  match main_options E aggregators argv main_init with
  | .ok v => main_finish v
  | .usage_err msg => .usage_err msg
  | .crash => .crash

/-! ## Vocabulary of the statements -/

/-- What of a clump the links of the LRU list do not touch. -/
def clump.content (c : clump) : List (Option String) × List agg_data :=
  (c.key_values, c.aggregator_data)

/-- A stretch of the doubly linked LRU list: from the pointer `hd` the `next`
links run through the addresses `l` and end in `nx`, every `prev` link points
one step back, the first to `pv`; `tl` is the last address of the stretch
(`pv` when it is empty). -/
def lseg (heap : List clump) :
    Option Nat → Option Nat → List Nat → Option Nat → Option Nat → Prop
  | pv, hd, [], tl, nx => hd = nx ∧ tl = pv
  | pv, hd, a :: l, tl, nx =>
    hd = some a ∧ ∃ c, heap[a]? = some c ∧ c.prev = pv ∧ lseg heap (some a) c.next l tl nx

/-- The LRU list of `state` runs through the addresses `l`, each once. -/
def lru_is (state : collate_state) (l : List Nat) : Prop :=
  lseg state.heap none state.clumps_head l state.clumps_tail none ∧ l.Nodup

/-- The clump table and the LRU list of `state` hold the same addresses, the
list in the order `l`. -/
def table_lru (state : collate_state) (l : List Nat) : Prop :=
  lru_is state l ∧ state.clump_table.Perm l

/-- The key and the aggregator data stored at an address. -/
def content_at (heap : List clump) (a : Nat) : Option (List (Option String) × List agg_data) :=
  (heap[a]?).map clump.content

/-- The key that `find_or_create_clump` stores in a new clump. -/
def key_copy (num_key_fields : Nat) (key_vals : List (Option String)) : List (Option String) :=
  (List.range num_key_fields).map (fun i => key_vals.getD i none) ++ [none]

/-- The aggregator data of a new clump. -/
def init_data (agg_instances : List agg_instance) : List agg_data :=
  agg_instances.map (fun agg_inst => agg_inst.agg.init_func agg_inst.config_data)

/-- The fields of the state that hold the configuration are the same in `s`
and `s'`. -/
def same_config (s s' : collate_state) : Prop :=
  s'.max_clumps = s.max_clumps ∧ s'.incremental = s.incremental ∧
  s'.agg_instances = s.agg_instances ∧ s'.cube_max = s.cube_max ∧
  s'.cube_default = s.cube_default ∧
  s'.num_interesting_fields = s.num_interesting_fields ∧
  s'.num_key_fields = s.num_key_fields ∧
  s'.interesting_field_names = s.interesting_field_names

/-- The value of `max_clumps` is `MAX_CLUMPS_INFINITE` or a positive `int`. -/
def max_clumps_ok (s : collate_state) : Prop :=
  s.max_clumps = MAX_CLUMPS_INFINITE ∨ (1 ≤ s.max_clumps ∧ s.max_clumps < 2 ^ 31)

/-- The test of line 255: the table is bounded and full. -/
def at_capacity (s : collate_state) : Prop :=
  s.max_clumps ≠ MAX_CLUMPS_INFINITE ∧ hash_count s ≥ ulong_of_int s.max_clumps

/-- The LRU list after a call that returned `p`: `p` first, the others in
their old order. -/
def touch (l : List Nat) (p : Nat) : List Nat := p :: l.erase p

/-- A sequence of calls of `find_or_create_clump`, each on the state the call
before it left; the result holds the clumps the calls returned, in call
order. -/
def find_or_create_clumps :
    collate_state → List (List (Option String)) → Option (collate_state × List Nat)
  | state, [] => some (state, [])
  | state, key_vals :: rest =>
    match find_or_create_clump state key_vals with
    | some (state', p) =>
      (find_or_create_clumps state' rest).map (fun r => (r.1, p :: r.2))
    | none => none

/-- The addresses met on the way along the `next` links from a pointer, at
most `fuel` of them. -/
def lru_walk (heap : List clump) : Nat → Option Nat → List Nat
  | 0, _ => []
  | _ + 1, none => []
  | fuel + 1, some a =>
    match heap[a]? with
    | some c => a :: lru_walk heap fuel c.next
    | none => []

/-- The LRU list of the state, from `clumps_head` along the `next` links. -/
def lru_list (s : collate_state) : List Nat :=
  lru_walk s.heap s.heap.length s.clumps_head

/-- The number of calls made after the last call that returned the clump `a`
(the number of all calls when none did). -/
def calls_since (ps : List Nat) (a : Nat) : Nat := ps.reverse.indexOf a

/-- The text `dump_clump` writes for a clump with the given key and
aggregator data. -/
def record_text (cs : collate_state) (key_values : List (Option String))
    (data : List agg_data) : Option String :=
  dump_clump_text cs ⟨key_values, none, none, data⟩

/-- What an eviction writes for the clump it evicts: nothing in incremental
mode, else the text of `dump_clump`. -/
def evict_text (cs : collate_state) (c : clump) : Option String :=
  if cs.incremental then some "" else dump_clump_text cs c

/-- Every `dump_func` of the configuration gives a text on every data: it
reads nothing outside its data. -/
def dumps_total (cs : collate_state) : Prop :=
  ∀ agg_inst ∈ cs.agg_instances, ∀ d,
    (agg_inst.agg.dump_func agg_inst.config_data d).isSome = true

/-- Every `add_func` of the configuration gives new data on every data and
input. -/
def adds_total (cs : collate_state) : Prop :=
  ∀ agg_inst ∈ cs.agg_instances, ∀ d ch_data num_data,
    (agg_inst.agg.add_func agg_inst.config_data d ch_data num_data).isSome = true

/-- The state in which `main` starts to read records: the configuration is
set, the clump table and the LRU list are empty, nothing is written yet. -/
def start_state (max_clumps : Int) (incremental : Bool) (agg_instances : List agg_instance)
    (cube_max : Int) (cube_default : String) (num_interesting_fields num_key_fields : Nat)
    (interesting_field_names : List String) : collate_state where
  max_clumps := max_clumps
  incremental := incremental
  agg_instances := agg_instances
  cube_max := cube_max
  cube_default := cube_default
  clump_table := []
  num_interesting_fields := num_interesting_fields
  num_key_fields := num_key_fields
  interesting_field_names := interesting_field_names
  interesting_field := -1
  interesting_fields := List.replicate num_interesting_fields ⟨0, 0, false⟩
  clumps_head := none
  clumps_tail := none
  heap := []
  stdout := ""

/-- The aggregator instance of `--aggregator count` with output field
`out`; `count` has no input field. -/
def count_instance (out : String) : agg_instance :=
  ⟨count_aggregator, out, 0, [], .null⟩

/-- The start state of `--size 1` (`--adjacent`) with the key field `x` and
the aggregator `count`, neither incremental nor cubing. -/
def adjacent_count_state (x out cube_default : String) : collate_state :=
  start_state 1 false [count_instance out] 1 cube_default 1 1 [x]

/-- The run-length encoding of a sequence of key values: one pair per
maximal run of adjacent equal values, with the length of the run. -/
def rle : List (Option String) → List (Option String × Nat)
  | [] => []
  | v :: vs =>
    match rle vs with
    | (w, n) :: rest => if v = w then (w, n + 1) :: rest else (v, 1) :: (w, n) :: rest
    | [] => [(v, 1)]

/-- The run-length encoding of `replicate n v ++ ws` read from the left, the
run of `v` being open (`none`: no run is open). -/
def rle_from : Option (Option String × Nat) → List (Option String) →
    List (Option String × Nat)
  | none, [] => []
  | some r, [] => [r]
  | none, w :: ws => rle_from (some (w, 1)) ws
  | some (v, n), w :: ws =>
    if w = v then rle_from (some (v, n + 1)) ws else (v, n) :: rle_from (some (w, 1)) ws

/-- The output record of a clump with key value `v` and count `n`. -/
def count_record (x out : String) (v : Option String) (n : Nat) : String :=
  "\x7b\"" ++ x ++ "\":" ++
    (match v with
     | some val => "\"" ++ val ++ "\""
     | none => "null") ++
    ",\"" ++ out ++ "\":" ++ toString n ++ "\x7d\n"

/-- The texts of a list, one after the other. -/
def concat_text (l : List String) : String := l.foldr (fun a b => a ++ b) ""

/-- The clump table of the adjacent configuration: empty, or one clump that
holds the open run, its key value and its length so far. -/
def adjacent_inv (s : collate_state) : Option (Option String × Nat) → Prop
  | none => table_lru s []
  | some (v, n) => ∃ a, table_lru s [a] ∧
      content_at s.heap a = some ([v, none], [.count_data n])

/-- The length of the open run. -/
def cur_count : Option (Option String × Nat) → Nat
  | none => 0
  | some (_, n) => n

/-- The value and the length of a run of decimal digits at the start of a
text, the part of `strtod` that the examples use. -/
def strtod_digits (s : String) : double × Nat :=
  let ds := s.data.takeWhile Char.isDigit
  (.fin ((ds.foldl (fun n c => 10 * n + (c.toNat - 48)) 0 : Nat) : ℚ), ds.length)

/-- A rendering of a double for the examples; `printf("%g", d)` writes the
same text for the integers the examples use. -/
def printf_int : double → String
  | .fin q => if q.den = 1 then toString q.num else toString q.num ++ "/" ++ toString q.den
  | .nan => "nan"
  | .pinf => "inf"
  | .ninf => "-inf"

/-- A square root for the examples: exact on the squares of rationals, the
roots of numerator and denominator rounded down elsewhere. -/
def sqrt_floor : double → double
  | .fin q => if q < 0 then .nan else .fin ((Nat.sqrt q.num.toNat : ℚ) / (Nat.sqrt q.den : ℚ))
  | .pinf => .pinf
  | _ => .nan

/-- The C library of the examples: `strtol` reads a run of decimal digits
and leaves `errno` alone, every file can be opened; no example writes with
`%f`, for which the rendering of `%g` stands in. -/
def example_libc : libc where
  strtod := strtod_digits
  printf_g := printf_int
  printf_f := printf_int
  sqrt := sqrt_floor
  strtol := fun s =>
    (((s.data.takeWhile Char.isDigit).foldl (fun n c => 10 * n + (c.toNat - 48)) 0 : Nat), false)
  fopen := fun _ => true

/-- The start state of `--perfect --key x,y,z --aggregator count`. -/
def perfect_count_state : collate_state :=
  start_state MAX_CLUMPS_INFINITE false [count_instance "count"] 1 "ALL" 3 3 ["x", "y", "z"]

/-- The aggregator instance of `--aggregator out=sum,<field>` for the
interesting field with index `field`. -/
def sum_instance (L : libc) (out : String) (field : Nat) : agg_instance :=
  ⟨sum_aggregator L, out, 1, [field], .null⟩

/-- The start state of
`--perfect --key x,y,z --incremental --aggregator ptd=sum,p`. -/
def incremental_sum_state (L : libc) : collate_state :=
  start_state MAX_CLUMPS_INFINITE true [sum_instance L "ptd" 3] 1 "ALL" 4 3 ["x", "y", "z", "p"]

/-- The texts of a list with a comma between every two neighbours. -/
def comma_separated : List String → String
  | [] => ""
  | [a] => a
  | a :: b :: l => a ++ "," ++ comma_separated (b :: l)

/-- The output field of a key: `"name":"value"`, or `"name":null` for an
absent value. -/
def key_field_text (name : String) (v : Option String) : String :=
  match v with
  | some val => "\"" ++ name ++ "\":\"" ++ val ++ "\""
  | none => "\"" ++ name ++ "\":null"

/-- The output field of an aggregator instance: `"output_field_name":` and
the dump of the instance over its data. -/
def agg_field_text (agg_inst : agg_instance) (d : agg_data) : Option String :=
  (agg_inst.agg.dump_func agg_inst.config_data d).map
    (fun text => "\"" ++ agg_inst.output_field_name ++ "\":" ++ text)

/-- The output fields of the aggregator instances over their data, in the
order of the instances; `none` when a dump gives no text. -/
def agg_field_texts : List agg_instance → List agg_data → Option (List String)
  | agg_inst :: insts, d :: ds =>
    (agg_field_text agg_inst d).bind
      (fun text => (agg_field_texts insts ds).map (fun rest => text :: rest))
  | _, _ => some []

/-- Lines 587 and 711-713 of `main`: the value of `cube_max`, 1 or
`1 << num_key_fields` as an `int`. -/
def main_cube_max (cube : Bool) (num_key_fields : Nat) : Int :=
  if cube then int_of_bits (shl_one num_key_fields) else 1

/-- A sequence of calls of `find_and_add_to_clump`, one for each pair of
arrays of the list, each on the state the call before it left. -/
def add_each : List (List (Option String) × List double) → collate_state →
    Option collate_state
  | [], s => some s
  | a :: rest, s => (find_and_add_to_clump s a.1 a.2).bind (add_each rest)

/-- The array `dbl_vals` of `object_callback`. -/
def dbl_vals_of (L : libc) (num_interesting_fields : Nat) (vals : List (Option String)) :
    List double :=
  (List.range num_interesting_fields).map (fun i => dbl_val L (vals.getD i none))

/-- The names k0, k1, ... of `n` fields, for the examples. -/
def field_names (n : Nat) : List String := (List.range n).map (fun i => "k" ++ toString i)

/-- The start state of `--perfect --cube --key x --aggregator count`. -/
def cube_count_state : collate_state :=
  start_state MAX_CLUMPS_INFINITE false [count_instance "count"] (main_cube_max true 1)
    "ALL" 1 1 ["x"]

/-- The clumps to which the calls of `add_each` add, in call order: for each
call the clump that `find_or_create_clump` returns inside it. -/
def added_clumps : List (List (Option String) × List double) → collate_state →
    Option (List Nat)
  | [], _ => some []
  | a :: rest, s =>
    match find_or_create_clump s a.1, find_and_add_to_clump s a.1 a.2 with
    | some (_, p), some s' => (added_clumps rest s').map (fun ps => p :: ps)
    | _, _ => none

/-- The start state of `--perfect --cube --key x,y,z --aggregator count`. -/
def cube_three_keys_state : collate_state :=
  start_state MAX_CLUMPS_INFINITE false [count_instance "count"] (main_cube_max true 3)
    "ALL" 3 3 ["x", "y", "z"]

/-- The message of the cube check of `main`. -/
def cube_error : String := "when cubing, you must have at least 2 ** num_key_fields clumps"

/-- The number of key fields that `main` counts in the table of interesting
fields. -/
def count_key_fields (fields : List interesting_field) : Nat :=
  (fields.filter (fun f => f.is_key)).length

/-- The variables of `main` after the options `--cube --size 1 --key x`. -/
def cube_size_one_vars : main_vars :=
  { main_init with cube := true, fields := [⟨"x", true⟩] }

/-- A sequence of calls of an `add_func`, one for each pair of arrays
`ch_data` and `num_data` of the list, each on the data the call before it
left. -/
def add_all
    (add_func : agg_config → agg_data → List (Option String) → List double → Option agg_data)
    (c : agg_config) : agg_data → List (List (Option String) × List double) → Option agg_data
  | d, [] => some d
  | d, a :: rest => (add_func c d a.1 a.2).bind (fun d' => add_all add_func c d' rest)

/-- The numbers that an aggregator with one numeric input observes: the
first entries of the arrays `num_data` that are not NaN. -/
def observed (obs : List (List (Option String) × List double)) : List double :=
  (obs.map (fun a => a.2.getD 0 .nan)).filter (fun x => !isnan x)

/-- The order `a <= b` of doubles. -/
def double.le (a b : double) : Prop := a.lt b = true ∨ a = b

/-- The program from the command line arguments to the end of the input:
`main_config`, then `main_run` on the records; `none` when the configuration
ends in an error or the program reads through a pointer that is not valid. -/
def main_of (E : libc) (aggregators : List aggregator) (argv : List String)
    (records : List (List (Option String))) : Option collate_state :=
  match main_config E aggregators argv with
  | .ok cs => main_run E cs records
  | _ => none

/-- The observations of a textual aggregator with one input field, as
`find_and_add_to_clump` passes them: the text of the field and its numeric
value. -/
def text_obs (L : libc) (values : List String) : List (List (Option String) × List double) :=
  values.map (fun v => ([some v], [dbl_val L (some v)]))

/-- The table of a mode aggregator holds the values seen so far, each once
and with the number of its occurrences as its count. -/
def mode_table_of (seen : List String) (hash_table : List (String × double)) : Prop :=
  (hash_table.map Prod.fst).Nodup ∧ (∀ k, k ∈ hash_table.map Prod.fst ↔ k ∈ seen) ∧
  ∀ e ∈ hash_table, e.2 = .fin (seen.count e.1)

/-- The output field name that the specification gives an aggregator
specifier: the text before the first `=` when the specifier has one, else the
whole specifier with every comma turned into an underscore. -/
def spec_output_field_name (agg_str : String) : String :=
  if '=' ∈ agg_str.data then String.mk (agg_str.data.takeWhile (fun ch => ch ≠ '='))
  else String.mk (agg_str.data.map (fun ch => if ch = ',' then '_' else ch))

/-- The specifier without the output field name and its `=`. -/
def spec_after_name (agg_str : String) : String :=
  if '=' ∈ agg_str.data then
    String.mk ((agg_str.data.dropWhile (fun ch => ch ≠ '=')).drop 1)
  else agg_str

/-- The kind name that the specification reads in an aggregator specifier:
the text between the first `=` (the start, without one) and the next comma
(the end, without one). -/
def spec_kind_name (agg_str : String) : String :=
  String.mk ((spec_after_name agg_str).data.takeWhile (fun ch => ch ≠ ','))

/-- The argument text of an aggregator specifier: what follows the comma
that ends the kind name, `none` without such a comma. -/
def spec_arguments (agg_str : String) : Option String :=
  if ',' ∈ (spec_after_name agg_str).data then
    some (String.mk (((spec_after_name agg_str).data.dropWhile (fun ch => ch ≠ ',')).drop 1))
  else none

/-- What a call of `init_agg_instance` that returns leaves behind: the name of
the aggregator of the new instance, the members of the instance, and the
names in the table of interesting fields. -/
structure registered where
  name : String
  output_field_name : String
  num_input_fields : Nat
  input_fields : List Nat
  config_data : agg_config
  fields : List String
deriving DecidableEq

/-- The instance and the table that `init_agg_instance` gives; `none` when it
ends in `usage_err` or reads through a pointer that is not valid. -/
def registered_by (r : outcome (agg_instance × List interesting_field)) : Option registered :=
  match r with
  | .ok (agg_inst, fields) =>
    some ⟨agg_inst.agg.name, agg_inst.output_field_name, agg_inst.num_input_fields,
      agg_inst.input_fields, agg_inst.config_data, fields.map (fun f => f.name)⟩
  | _ => none

/-- A sequence of calls of `add_interesting_field`, each on the table the call
before it left; a call is the name and the flag `is_key` it passes. -/
def add_interesting_fields (fields : List interesting_field) (calls : List (String × Bool)) :
    List interesting_field :=
  calls.foldl (fun fields call => (add_interesting_field fields call.1 call.2).1) fields

/-- The names of a list in the order of their first occurrence, each once. -/
def first_seen (names : List String) : List String :=
  names.foldl (fun seen name => if name ∈ seen then seen else seen ++ [name]) []

/-- A call of the sequence declares the name a key. -/
def declared_key (calls : List (String × Bool)) (name : String) : Bool :=
  calls.any (fun call => call.1 == name && call.2)

/-- The table that the specification gives a sequence of registrations: the
names in the order of their first registration, each a key when one of its
registrations declares it a key. -/
def table_of (calls : List (String × Bool)) : List interesting_field :=
  (first_seen (calls.map Prod.fst)).map (fun name => ⟨name, declared_key calls name⟩)

/-- Every input field index of every aggregator instance is an index of the
table of interesting fields, and an instance has as many indices as input
fields. -/
def indices_valid (fields : List interesting_field) (insts : List agg_instance) : Prop :=
  ∀ agg_inst ∈ insts, agg_inst.input_fields.length = agg_inst.num_input_fields ∧
    ∀ old ∈ agg_inst.input_fields, old < fields.length

/-- The variables of `main` after the options `--aggregator sum,p --key d`. -/
def sum_p_key_d_vars : main_vars :=
  { main_init with
    cs := { main_init.cs with
      agg_instances := [⟨sum_aggregator example_libc, "sum_p", 1, [0], .null⟩] }
    fields := [⟨"p", false⟩, ⟨"d", true⟩] }

/-- The sum of the values of `f` over a list of numbers. -/
def sum_of (f : ℚ → ℚ) (xs : List ℚ) : ℚ := (xs.map f).sum

/-- The aggregator specifiers `sum,f1:sum,f2:...` for `n` fields, for the
examples. -/
def sum_specs (n : Nat) : String :=
  ":".intercalate ((List.range n).map (fun i => "sum,f" ++ toString (i + 1)))

/-- The keys and the data of the last aggregator instance of the clumps in
the memory of a state. -/
def last_data (s : collate_state) : List (List (Option String) × Option agg_data) :=
  s.heap.map (fun c => (c.key_values, c.aggregator_data.getLast?))

/-- The first bytes of a value that `value_callback` passes over: an object,
an array, `true`, `false` or `null`. -/
def skipped_start (ch : Char) : Prop :=
  ch = '\x7b' ∨ ch = '[' ∨ ch = 't' ∨ ch = 'f' ∨ ch = 'n'

/-- The state of the parser after the value of the record `{"x":"ab"}`: the
frames of the object and of the value, which starts at offset 5, and the
offset 9 after it. -/
def parsed_value_state : parse_state :=
  ⟨2, [⟨0⟩, ⟨5⟩], 9, ⟨"\x7b\"x\":\"ab\"\x7d".data, 0⟩⟩

/-- The state of the parser after the key of the record `{"x":"ab"}`: the
frames of the object and of the string, which starts at offset 1, and the
offset 4 after it. -/
def parsed_key_state : parse_state :=
  ⟨2, [⟨0⟩, ⟨1⟩], 4, ⟨"\x7b\"x\":\"ab\"\x7d".data, 0⟩⟩

/-- The clump that a call of `find_or_create_clump` evicts: the tail of the
LRU list when the call finds no clump and the table is bounded and full
(lines 255-259), no clump otherwise. -/
def evicted_by (state : collate_state) (key_vals : List (Option String)) : Option Nat :=
  match hash_lookup state key_vals with
  | some _ => none
  | none =>
    if state.max_clumps ≠ MAX_CLUMPS_INFINITE ∧
        hash_count state ≥ ulong_of_int state.max_clumps then
      state.clumps_tail
    else none

/-- For each call of a sequence of calls of `find_and_add_to_clump`, in call
order: the clump that `find_or_create_clump` returns inside it, and the clump
that it evicts, if it evicts one. -/
def add_each_trace : List (List (Option String) × List double) → collate_state →
    Option (List (Nat × Option Nat))
  | [], _ => some []
  | a :: rest, s =>
    match find_or_create_clump s a.1, find_and_add_to_clump s a.1 a.2 with
    | some (_, p), some s' =>
      (add_each_trace rest s').map (fun trace => (p, evicted_by s a.1) :: trace)
    | _, _ => none

/-- The calls of `find_and_add_to_clump` that `object_callback` makes for one
record, one for each mask. -/
def cube_calls (L : libc) (state : collate_state) (vals : List (Option String)) :
    List (List (Option String) × List double) :=
  (List.range state.cube_max.toNat).map
    (cube_vals state vals (dbl_vals_of L state.num_interesting_fields vals))

/-- The clumps `ps` are the first clumps of the LRU list `l`. -/
def at_front (l ps : List Nat) : Prop :=
  ∃ front back, l = front ++ back ∧ (∀ a, a ∈ front ↔ a ∈ ps) ∧ front.length ≤ ps.length

/-- The words of the command line after which the option loop of `main`
reads the next argument as the argument of the option (`argv[++i]`). -/
def takes_argument (arg : String) : Bool :=
  arg = "--key" ∨ arg = "-k" ∨ arg = "--aggregator" ∨ arg = "-a" ∨ arg = "--size" ∨
    arg = "--sz" ∨ arg = "-n" ∨ arg = "--cube-default"

/-- The options of a command line in their order, as the option loop of
`main` reads them: each word with the argument it takes, when it takes one
and the command line has one. -/
def options_of : List String → List (String × Option String)
  | [] => []
  | [arg] => [(arg, none)]
  | arg :: next :: rest =>
    if takes_argument arg then (arg, some next) :: options_of rest
    else (arg, none) :: options_of (next :: rest)

/-- The option is `--cube`. -/
def is_cube_option (o : String × Option String) : Bool := o.1 = "--cube"

/-- The option sets `max_clumps`: `--size`, `--adjacent` or `--perfect`,
under any of the names that the option loop of `main` knows (`-a` is read as
`--aggregator`). -/
def is_size_option (o : String × Option String) : Bool :=
  o.1 = "--size" ∨ o.1 = "--sz" ∨ o.1 = "-n" ∨ o.1 = "--adjacent" ∨ o.1 = "-1" ∨
    o.1 = "--perfect"

/-- The option declares keys: `--key` or `-k`. -/
def is_key_option (o : String × Option String) : Bool := o.1 = "--key" ∨ o.1 = "-k"

/-- The value that an option that sets `max_clumps` gives it. -/
def size_option_value (E : libc) (o : String × Option String) : Int :=
  if o.1 = "--perfect" then MAX_CLUMPS_INFINITE
  else if o.1 = "--adjacent" ∨ o.1 = "-1" then 1
  else int_of_long (E.strtol (o.2.getD "")).1

/-- The value of `max_clumps` that the options of a command line ask for: that
of the last option that sets it, and `m` when there is none. -/
def size_of_options (E : libc) (m : Int) (argv : List String) : Int :=
  match ((options_of argv).filter is_size_option).getLast? with
  | some o => size_option_value E o
  | none => m

/-- The names that the `--key` options of a command line declare keys. -/
def key_names (argv : List String) : List String :=
  (((options_of argv).filter is_key_option).map
    (fun o => strtok_all (o.2.getD "") ',')).flatten

/-- Whether a command line has the option `--cube`. -/
def cube_given (argv : List String) : Bool := (options_of argv).any is_cube_option

/-! ## Theorems -/

/-! ## The LRU list as a heap structure -/

theorem lseg_set_of_not_mem (heap : List clump) (x : Nat) (v : clump) (l : List Nat)
    (hx : x ∉ l) (pv hd tl nx : Option Nat) (h : lseg heap pv hd l tl nx) :
    lseg (heap.set x v) pv hd l tl nx := by
  induction l generalizing pv hd with
  | nil => exact h
  | cons a l ih =>
    obtain ⟨h1, c, h2, h3, h4⟩ := h
    have hne : x ≠ a := fun e => hx (e ▸ List.mem_cons_self _ _)
    refine ⟨h1, c, ?_, h3, ih (fun hm => hx (List.mem_cons_of_mem _ hm)) _ _ h4⟩
    rw [List.getElem?_set_ne hne]; exact h2

theorem lseg_append_heap (heap : List clump) (v : clump) (l : List Nat)
    (pv hd tl nx : Option Nat) (h : lseg heap pv hd l tl nx) :
    lseg (heap ++ [v]) pv hd l tl nx := by
  induction l generalizing pv hd with
  | nil => exact h
  | cons a l ih =>
    obtain ⟨h1, c, h2, h3, h4⟩ := h
    refine ⟨h1, c, ?_, h3, ih _ _ h4⟩
    have hlt : a < heap.length := by
      by_contra hge
      rw [List.getElem?_eq_none (by omega)] at h2
      cases h2
    rw [List.getElem?_append_left hlt]; exact h2

theorem lseg_append (heap : List clump) (l1 l2 : List Nat) (pv hd tl nx : Option Nat) :
    lseg heap pv hd (l1 ++ l2) tl nx ↔
      ∃ m1 m2, lseg heap pv hd l1 m1 m2 ∧ lseg heap m1 m2 l2 tl nx := by
  induction l1 generalizing pv hd with
  | nil =>
    constructor
    · intro h
      exact ⟨pv, hd, ⟨rfl, rfl⟩, h⟩
    · rintro ⟨m1, m2, ⟨h1, h2⟩, h3⟩
      subst h1 h2
      exact h3
  | cons a l ih =>
    constructor
    · rintro ⟨h1, c, h2, h3, h4⟩
      obtain ⟨m1, m2, h5, h6⟩ := (ih _ _).1 h4
      exact ⟨m1, m2, ⟨h1, c, h2, h3, h5⟩, h6⟩
    · rintro ⟨m1, m2, ⟨h1, c, h2, h3, h5⟩, h6⟩
      exact ⟨h1, c, h2, h3, (ih _ _).2 ⟨m1, m2, h5, h6⟩⟩

theorem lseg_mem_valid (heap : List clump) (l : List Nat) (pv hd tl nx : Option Nat)
    (h : lseg heap pv hd l tl nx) (a : Nat) (ha : a ∈ l) : ∃ c, heap[a]? = some c := by
  induction l generalizing pv hd with
  | nil => cases ha
  | cons b l ih =>
    obtain ⟨_, c, h2, _, h4⟩ := h
    rcases List.mem_cons.1 ha with e | hm
    · subst e; exact ⟨c, h2⟩
    · exact ih _ _ h4 hm

/-- The last address of a stretch and its first pointer. -/
theorem lseg_ends (heap : List clump) (l : List Nat) (pv hd tl nx : Option Nat)
    (h : lseg heap pv hd l tl nx) :
    hd = (match l.head? with | some a => some a | none => nx) ∧
    tl = (match l.getLast? with | some a => some a | none => pv) := by
  induction l generalizing pv hd with
  | nil => exact h
  | cons a l ih =>
    obtain ⟨h1, c, _, _, h4⟩ := h
    refine ⟨h1, ?_⟩
    have := (ih _ _ h4).2
    cases l with
    | nil => simpa using this
    | cons b l => simpa [List.getLast?_cons_cons] using this

/-- Writing the `next` link of the last clump of a stretch redirects its end. -/
theorem lseg_set_next (heap : List clump) (l : List Nat) (q : Nat) (c : clump)
    (pv hd tl nx x : Option Nat) (h : lseg heap pv hd (l ++ [q]) tl nx)
    (hq : q ∉ l) (hc : heap[q]? = some c) :
    lseg (heap.set q { c with next := x }) pv hd (l ++ [q]) tl x := by
  obtain ⟨m1, m2, h1, h2, c', h3, h4, h5, h6⟩ := (lseg_append heap l [q] pv hd tl nx).1 h
  rw [hc] at h3
  cases h3
  refine (lseg_append _ l [q] pv hd tl x).2 ⟨m1, m2, lseg_set_of_not_mem heap q _ l hq _ _ _ _ h1,
    h2, { c with next := x }, ?_, h4, rfl, h6⟩
  have hlt : q < heap.length := by
    by_contra hge
    rw [List.getElem?_eq_none (by omega)] at hc
    cases hc
  simp [List.getElem?_set_self, hlt]

/-- Writing the `prev` link of the first clump of a stretch redirects its
start. -/
theorem lseg_set_prev (heap : List clump) (l : List Nat) (a : Nat) (c : clump)
    (pv hd tl nx x : Option Nat) (h : lseg heap pv hd (a :: l) tl nx)
    (ha : a ∉ l) (hc : heap[a]? = some c) :
    lseg (heap.set a { c with prev := x }) x hd (a :: l) tl nx := by
  obtain ⟨h1, c', h2, h3, h4⟩ := h
  rw [hc] at h2
  cases h2
  have hlt : a < heap.length := by
    by_contra hge
    rw [List.getElem?_eq_none (by omega)] at hc
    cases hc
  refine ⟨h1, { c with prev := x }, ?_, rfl, lseg_set_of_not_mem heap a _ l ha _ _ _ _ h4⟩
  simp [List.getElem?_set_self, hlt]

/-! ### The steps of `find_or_create_clump` on the list -/

theorem getElem?_lt_of_some {α : Type} (l : List α) (i : Nat) (v : α) (h : l[i]? = some v) :
    i < l.length := by
  by_contra hge
  rw [List.getElem?_eq_none (by omega)] at h
  cases h

theorem content_set (heap : List clump) (i : Nat) (c v : clump) (hc : heap[i]? = some c)
    (hv : v.content = c.content) (a : Nat) :
    ((heap.set i v)[a]?).map clump.content = (heap[a]?).map clump.content := by
  by_cases e : i = a
  · subst e
    have hlt := getElem?_lt_of_some heap i c hc
    simp [List.getElem?_set_self, hlt, hc, hv]
  · rw [List.getElem?_set_ne e]

theorem lru_remove_spec (state : collate_state) (l1 l2 : List Nat) (p : Nat)
    (h : lru_is state (l1 ++ p :: l2)) :
    ∃ heap' hd' tl',
      lru_remove state p =
        some { state with heap := heap', clumps_head := hd', clumps_tail := tl' } ∧
      lseg heap' none hd' (l1 ++ l2) tl' none ∧
      heap'.length = state.heap.length ∧
      ∀ a : Nat, (heap'[a]?).map clump.content = (state.heap[a]?).map clump.content := by
  obtain ⟨hseg, hnd⟩ := h
  obtain ⟨m1, m2, hs1, hm2, c, hc, hcp, hs2⟩ :=
    (lseg_append state.heap l1 (p :: l2) none state.clumps_head state.clumps_tail none).1 hseg
  have hp1 : p ∉ l1 := by
    intro hm
    exact (List.nodup_append.1 hnd).2.2 hm (List.mem_cons_self _ _)
  have hp2 : p ∉ l2 := (List.nodup_cons.1 (List.nodup_append.1 hnd).2.1).1
  have hd12 : ∀ a, a ∈ l1 → a ∉ l2 := fun a h1 h2 =>
    (List.nodup_append.1 hnd).2.2 h1 (List.mem_cons_of_mem _ h2)
  -- the forward link
  have step1 : ∃ heap1 tl1,
      (match c.next with
        | some n => do
          let nx ← state.heap[n]?
          pure { state with heap := state.heap.set n ({ nx with prev := c.prev }) }
        | none => pure { state with clumps_tail := c.prev } : Option collate_state) =
        some { state with heap := heap1, clumps_tail := tl1 } ∧
      lseg heap1 m1 c.next l2 tl1 none ∧ heap1[p]? = some c ∧
      lseg heap1 none state.clumps_head l1 m1 m2 ∧
      heap1.length = state.heap.length ∧
      ∀ a : Nat, (heap1[a]?).map clump.content = (state.heap[a]?).map clump.content := by
    cases l2 with
    | nil =>
      obtain ⟨h1, h2⟩ := hs2
      refine ⟨state.heap, c.prev, ?_, ?_, hc, hs1, rfl, fun _ => rfl⟩
      · rw [h1]
        rfl
      · exact ⟨h1, hcp⟩
    | cons n l2 =>
      obtain ⟨h1, cn, hcn, h3, h4⟩ := hs2
      have hnp : n ≠ p := fun e => hp2 (e ▸ List.mem_cons_self _ _)
      have hn2 : n ∉ l2 := (List.nodup_cons.1 (List.nodup_cons.1 (List.nodup_append.1 hnd).2.1).2).1
      refine ⟨state.heap.set n { cn with prev := c.prev }, state.clumps_tail, ?_, ?_, ?_, ?_, ?_, ?_⟩
      · rw [h1]
        simp [hcn]
      · rw [h1, hcp]
        exact lseg_set_prev state.heap l2 n cn (some p) (some n) _ none m1 ⟨rfl, cn, hcn, h3, h4⟩
          hn2 hcn
      · rw [List.getElem?_set_ne hnp]
        exact hc
      · exact lseg_set_of_not_mem _ _ _ _
          (fun hm => hd12 n hm (List.mem_cons_self _ _)) _ _ _ _ hs1
      · simp
      · exact content_set state.heap n cn { cn with prev := c.prev } hcn rfl
  obtain ⟨heap1, tl1, e1, hs2', hc1, hs1', hlen1, hcont1⟩ := step1
  simp only [Option.bind_eq_bind] at e1
  -- the backward link
  rcases List.eq_nil_or_concat l1 with e | ⟨l1', q, e⟩
  · subst e
    obtain ⟨h1, h2⟩ := hs1'
    refine ⟨heap1, c.next, tl1, ?_, ?_, hlen1, hcont1⟩
    · simp only [lru_remove, hc, Option.bind_eq_bind, Option.some_bind]
      rw [e1]
      simp only [Option.some_bind, hc1]
      rw [hcp, h2]
      rfl
    · simpa [← h2] using hs2'
  · subst e
    have hq : q ∉ l1' := by
      have := (List.nodup_append.1 hnd).1
      rw [List.concat_eq_append] at this
      intro hm
      exact (List.nodup_append.1 this).2.2 hm (List.mem_singleton_self _)
    rw [List.concat_eq_append] at hs1' hd12 hp1 ⊢
    obtain ⟨m1', m2', h5, h6, cq, hcq, h7, h8, h9⟩ :=
      (lseg_append heap1 l1' [q] none state.clumps_head m1 m2).1 hs1'
    refine ⟨heap1.set q { cq with next := c.next }, state.clumps_head, tl1, ?_, ?_, ?_, ?_⟩
    · simp only [lru_remove, hc, Option.bind_eq_bind, Option.some_bind]
      rw [e1]
      simp only [Option.some_bind, hc1]
      rw [hcp, h9]
      simp [hcq]
    · refine (lseg_append _ (l1' ++ [q]) l2 none state.clumps_head tl1 none).2
        ⟨m1, c.next, lseg_set_next heap1 l1' q cq none _ m1 m2 c.next hs1' hq hcq, ?_⟩
      exact lseg_set_of_not_mem _ _ _ _
        (hd12 q (List.mem_append_right _ (List.mem_singleton_self _))) _ _ _ _ hs2'
    · simp [hlen1]
    · intro a
      rw [content_set heap1 q cq { cq with next := c.next } hcq rfl a]
      exact hcont1 a

theorem lru_push_front_spec (state : collate_state) (l : List Nat) (p : Nat) (c : clump)
    (h : lru_is state l) (hp : p ∉ l) (hc : state.heap[p]? = some c) :
    ∃ heap' tl',
      lru_push_front state p =
        some { state with heap := heap', clumps_head := some p, clumps_tail := tl' } ∧
      lseg heap' none (some p) (p :: l) tl' none ∧
      heap'.length = state.heap.length ∧
      ∀ a : Nat, (heap'[a]?).map clump.content = (state.heap[a]?).map clump.content := by
  obtain ⟨hseg, hnd⟩ := h
  have hlt := getElem?_lt_of_some _ _ _ hc
  cases l with
  | nil =>
    obtain ⟨h1, h2⟩ := hseg
    refine ⟨state.heap.set p { c with next := none, prev := none }, some p, ?_, ?_, ?_, ?_⟩
    · simp only [lru_push_front, hc, Option.bind_eq_bind, Option.some_bind, h1]
      rfl
    · refine ⟨rfl, { c with next := none, prev := none }, ?_, rfl, rfl, rfl⟩
      simp [List.getElem?_set_self, hlt]
    · simp
    · exact content_set state.heap p c { c with next := none, prev := none } hc rfl
  | cons b l =>
    obtain ⟨h1, cb, hcb, h3, h4⟩ := hseg
    have hpb : p ≠ b := fun e => hp (e ▸ List.mem_cons_self _ _)
    have hb : b ∉ l := (List.nodup_cons.1 hnd).1
    have hcb1 : (state.heap.set p { c with next := some b, prev := none })[b]? = some cb := by
      rw [List.getElem?_set_ne hpb]
      exact hcb
    refine ⟨(state.heap.set p { c with next := some b, prev := none }).set b
      { cb with prev := some p }, state.clumps_tail, ?_, ?_, ?_, ?_⟩
    · simp only [lru_push_front, hc, Option.bind_eq_bind, Option.some_bind, h1]
      simp [hcb1]
    · refine ⟨rfl, { c with next := some b, prev := none }, ?_, rfl, ?_⟩
      · rw [List.getElem?_set_ne (Ne.symm hpb)]
        simp [List.getElem?_set_self, hlt]
      · exact lseg_set_prev _ l b cb none (some b) _ none (some p)
          (lseg_set_of_not_mem state.heap p _ (b :: l) hp _ _ _ _ ⟨rfl, cb, hcb, h3, h4⟩)
          hb hcb1
    · simp
    · intro a
      rw [content_set _ b cb { cb with prev := some p } hcb1 rfl a]
      exact content_set state.heap p c { c with next := some b, prev := none } hc rfl a

theorem dump_clump_text_congr (cs cs' : collate_state) (c c' : clump)
    (h1 : cs'.interesting_field_names = cs.interesting_field_names)
    (h2 : cs'.num_key_fields = cs.num_key_fields)
    (h3 : cs'.agg_instances = cs.agg_instances)
    (h4 : c'.content = c.content) :
    dump_clump_text cs' c' = dump_clump_text cs c := by
  have h5 : c'.key_values = c.key_values := congrArg Prod.fst h4
  have h6 : c'.aggregator_data = c.aggregator_data := congrArg Prod.snd h4
  simp [dump_clump_text, h1, h2, h3, h5, h6]

theorem lru_evict_spec (state : collate_state) (l : List Nat) (t : Nat)
    (h : lru_is state (l ++ [t])) :
    ∃ heap' hd' tl' ct, state.heap[t]? = some ct ∧
      lru_evict state =
        (evict_text state ct).map (fun text =>
          ({ state with
              heap := heap', clumps_head := hd', clumps_tail := tl',
              clump_table := state.clump_table.erase t,
              stdout := state.stdout ++ text }, t)) ∧
      lseg heap' none hd' l tl' none ∧
      heap'.length = state.heap.length ∧
      ∀ a : Nat, (heap'[a]?).map clump.content = (state.heap[a]?).map clump.content := by
  obtain ⟨hseg, hnd⟩ := h
  obtain ⟨m1, m2, hs1, hm2, ct, hct, hcp, h5, h6⟩ :=
    (lseg_append state.heap l [t] none state.clumps_head state.clumps_tail none).1 hseg
  have htl : t ∉ l := fun hm =>
    (List.nodup_append.1 hnd).2.2 hm (List.mem_singleton_self _)
  rcases List.eq_nil_or_concat l with e | ⟨l', q, e⟩
  · subst e
    obtain ⟨h1, h2⟩ := hs1
    refine ⟨state.heap, none, none, ct, hct, ?_, ⟨rfl, rfl⟩, rfl, fun _ => rfl⟩
    simp only [lru_evict, h6, hct, Option.bind_eq_bind, Option.some_bind, hcp, h2, evict_text]
    cases hinc : state.incremental with
    | false =>
      simp only [dump_clump, dump_clump_text, hct, hash_delete, Option.pure_def,
        Option.bind_eq_bind, Option.some_bind, Bool.not_false, if_true, Bool.false_eq_true,
        if_false]
      cases dump_clump_aggs state.num_key_fields state.agg_instances ct.aggregator_data <;> rfl
    | true => simp [hash_delete]
  · subst e
    rw [List.concat_eq_append] at hs1 htl ⊢
    obtain ⟨m1', m2', h7, h8, cq, hcq, h9, h10, h11⟩ :=
      (lseg_append state.heap l' [q] none state.clumps_head m1 m2).1 hs1
    have hq : q ∉ l' := by
      have := (List.nodup_append.1 hnd).1
      rw [List.concat_eq_append] at this
      intro hm
      exact (List.nodup_append.1 this).2.2 hm (List.mem_singleton_self _)
    have hqt : q ≠ t := fun e => htl (e ▸ List.mem_append_right _ (List.mem_singleton_self _))
    have hct1 : (state.heap.set q { cq with next := none })[t]? = some ct := by
      rw [List.getElem?_set_ne hqt]
      exact hct
    refine ⟨state.heap.set q { cq with next := none }, state.clumps_head, some q, ct, hct, ?_, ?_,
      ?_, ?_⟩
    · simp only [lru_evict, h6, hct, Option.bind_eq_bind, Option.some_bind, hcp, h11, evict_text]
      simp only [hcq, Option.some_bind]
      cases hinc : state.incremental with
      | false =>
        simp only [dump_clump, dump_clump_text, hct1, hash_delete, Option.pure_def,
          Option.bind_eq_bind, Option.some_bind, Bool.not_false, if_true, Bool.false_eq_true,
          if_false]
        cases dump_clump_aggs state.num_key_fields state.agg_instances ct.aggregator_data <;> rfl
      | true => simp [hash_delete]
    · have := lseg_set_next state.heap l' q cq none _ m1 m2 none hs1 hq hcq
      rw [h11] at this
      exact this
    · simp
    · exact content_set state.heap q cq { cq with next := none } hcq rfl

theorem init_clump_spec (state : collate_state) (p : Nat) (c : clump)
    (key_vals : List (Option String)) (hc : state.heap[p]? = some c) :
    init_clump state p key_vals =
      some { state with
        heap := state.heap.set p
          { c with
            key_values :=
              (List.range state.num_key_fields).map (fun i => key_vals.getD i none) ++ [none],
            aggregator_data :=
              state.agg_instances.map
                (fun agg_inst => agg_inst.agg.init_func agg_inst.config_data) },
        clump_table := state.clump_table ++ [p] } := by
  simp [init_clump, hc, hash_insert]

/-! ### The three ways through `find_or_create_clump` -/

theorem hash_lookup_mem (state : collate_state) (k : List (Option String)) (p : Nat)
    (h : hash_lookup state k = some p) : p ∈ state.clump_table :=
  List.mem_of_find?_eq_some h

theorem find_or_create_clump_hit (state : collate_state) (l : List Nat)
    (k : List (Option String)) (p : Nat) (hwf : table_lru state l)
    (hl : hash_lookup state k = some p) :
    ∃ heap' tl',
      find_or_create_clump state k =
        some ({ state with heap := heap', clumps_head := some p, clumps_tail := tl' }, p) ∧
      table_lru { state with heap := heap', clumps_head := some p, clumps_tail := tl' }
        (p :: l.erase p) ∧
      p ∈ l ∧
      heap'.length = state.heap.length ∧
      ∀ a : Nat, content_at heap' a = content_at state.heap a := by
  obtain ⟨hlru, hperm⟩ := hwf
  have hpl : p ∈ l := hperm.subset (hash_lookup_mem state k p hl)
  obtain ⟨l1, l2, e⟩ := List.append_of_mem hpl
  subst e
  have hnd := hlru.2
  have hp1 : p ∉ l1 := fun hm => (List.nodup_append.1 hnd).2.2 hm (List.mem_cons_self _ _)
  have hp2 : p ∉ l2 := (List.nodup_cons.1 (List.nodup_append.1 hnd).2.1).1
  have herase : (l1 ++ p :: l2).erase p = l1 ++ l2 := by
    rw [List.erase_append_right _ hp1, List.erase_cons_head]
  obtain ⟨heap1, hd1, tl1, e1, hs1, hlen1, hcont1⟩ := lru_remove_spec state l1 l2 p hlru
  have hnd' : (l1 ++ l2).Nodup := by
    have := hnd
    rw [List.nodup_append] at this ⊢
    exact ⟨this.1, (List.nodup_cons.1 this.2.1).2,
      fun a h1 h2 => this.2.2 h1 (List.mem_cons_of_mem _ h2)⟩
  have hpn : p ∉ l1 ++ l2 := by
    simp [hp1, hp2]
  obtain ⟨c1, hc1⟩ : ∃ c1, heap1[p]? = some c1 := by
    obtain ⟨c, hc⟩ := lseg_mem_valid _ _ _ _ _ _ hlru.1 p hpl
    have hlt := getElem?_lt_of_some _ _ _ hc
    have hlt1 : p < heap1.length := by omega
    exact ⟨heap1[p], List.getElem?_eq_getElem _⟩
  obtain ⟨heap2, tl2, e2, hs2, hlen2, hcont2⟩ :=
    lru_push_front_spec { state with heap := heap1, clumps_head := hd1, clumps_tail := tl1 }
      (l1 ++ l2) p c1 ⟨hs1, hnd'⟩ hpn hc1
  refine ⟨heap2, tl2, ?_, ⟨⟨?_, ?_⟩, ?_⟩, hpl, by rw [hlen2]; exact hlen1, ?_⟩
  · simp only [find_or_create_clump, hl, e1, Option.bind_eq_bind, Option.some_bind, e2]
    rfl
  · rw [herase]
    exact hs2
  · rw [herase]
    exact List.nodup_cons.2 ⟨hpn, hnd'⟩
  · rw [herase]
    exact hperm.trans List.perm_middle
  · intro a
    simp only [content_at]
    rw [hcont2 a]
    exact hcont1 a

theorem find_or_create_clump_alloc (state : collate_state) (l : List Nat)
    (k : List (Option String)) (hwf : table_lru state l)
    (hl : hash_lookup state k = none)
    (hroom : ¬ (state.max_clumps ≠ MAX_CLUMPS_INFINITE ∧
      hash_count state ≥ ulong_of_int state.max_clumps)) :
    ∃ heap' tl',
      find_or_create_clump state k =
        some ({ state with
          heap := heap', clumps_head := some state.heap.length, clumps_tail := tl',
          clump_table := state.clump_table ++ [state.heap.length] }, state.heap.length) ∧
      table_lru { state with
          heap := heap', clumps_head := some state.heap.length, clumps_tail := tl',
          clump_table := state.clump_table ++ [state.heap.length] }
        (state.heap.length :: l) ∧
      state.heap.length ∉ l ∧
      heap'.length = state.heap.length + 1 ∧
      content_at heap' state.heap.length =
        some (key_copy state.num_key_fields k, init_data state.agg_instances) ∧
      ∀ a : Nat, a ≠ state.heap.length → content_at heap' a = content_at state.heap a := by
  obtain ⟨hlru, hperm⟩ := hwf
  have hnl : state.heap.length ∉ l := by
    intro hm
    obtain ⟨c, hc⟩ := lseg_mem_valid _ _ _ _ _ _ hlru.1 _ hm
    have := getElem?_lt_of_some _ _ _ hc
    omega
  have hget : (state.heap ++ [(⟨[], none, none, []⟩ : clump)])[state.heap.length]? =
      some ⟨[], none, none, []⟩ := by
    simp
  have hinit := init_clump_spec
    { state with heap := state.heap ++ [(⟨[], none, none, []⟩ : clump)] }
    state.heap.length ⟨[], none, none, []⟩ k hget
  obtain ⟨heap2, tl2, e2, hs2, hlen2, hcont2⟩ :=
    lru_push_front_spec
      { state with
        heap := (state.heap ++ [(⟨[], none, none, []⟩ : clump)]).set state.heap.length
          { key_values := key_copy state.num_key_fields k, next := none, prev := none,
            aggregator_data := init_data state.agg_instances },
        clump_table := state.clump_table ++ [state.heap.length] }
      l state.heap.length
      { key_values := key_copy state.num_key_fields k, next := none, prev := none,
        aggregator_data := init_data state.agg_instances }
      ⟨lseg_set_of_not_mem _ _ _ _ hnl _ _ _ _ (lseg_append_heap _ _ _ _ _ _ _ hlru.1), hlru.2⟩
      hnl (by simp [List.getElem?_set_self])
  refine ⟨heap2, tl2, ?_, ⟨⟨hs2, List.nodup_cons.2 ⟨hnl, hlru.2⟩⟩, ?_⟩, hnl, ?_, ?_, ?_⟩
  · simp only [find_or_create_clump, hl, if_neg hroom, malloc_clump, Option.bind_eq_bind,
      Option.some_bind, Option.pure_def]
    rw [hinit]
    simp only [Option.some_bind]
    simp only [key_copy, init_data] at e2
    rw [e2]
    rfl
  · exact (List.perm_append_comm.trans (List.Perm.cons _ hperm))
  · rw [hlen2]
    simp
  · simp only [content_at]
    rw [hcont2]
    simp [List.getElem?_set_self, clump.content]
  · intro a ha
    simp only [content_at]
    rw [hcont2]
    simp only [List.getElem?_set_ne (Ne.symm ha)]
    by_cases hlt : a < state.heap.length
    · rw [List.getElem?_append_left hlt]
    · rw [List.getElem?_eq_none (by simp; omega), List.getElem?_eq_none (by omega)]

theorem find_or_create_clump_evict (state : collate_state) (l : List Nat) (t : Nat)
    (k : List (Option String)) (hwf : table_lru state (l ++ [t]))
    (hl : hash_lookup state k = none)
    (hfull : state.max_clumps ≠ MAX_CLUMPS_INFINITE ∧
      hash_count state ≥ ulong_of_int state.max_clumps) :
    ∃ ct, state.heap[t]? = some ct ∧
      ((evict_text state ct = none ∧ lru_evict state = none ∧
          find_or_create_clump state k = none) ∨
        ∃ text heap' tl', evict_text state ct = some text ∧
          find_or_create_clump state k =
            some ({ state with
              heap := heap', clumps_head := some t, clumps_tail := tl',
              clump_table := state.clump_table.erase t ++ [t],
              stdout := state.stdout ++ text }, t) ∧
          table_lru { state with
              heap := heap', clumps_head := some t, clumps_tail := tl',
              clump_table := state.clump_table.erase t ++ [t],
              stdout := state.stdout ++ text }
            (t :: l) ∧
          heap'.length = state.heap.length ∧
          content_at heap' t =
            some (key_copy state.num_key_fields k, init_data state.agg_instances) ∧
          ∀ a : Nat, a ≠ t → content_at heap' a = content_at state.heap a) := by
  obtain ⟨hlru, hperm⟩ := hwf
  have htl : t ∉ l := fun hm =>
    (List.nodup_append.1 hlru.2).2.2 hm (List.mem_singleton_self _)
  have hndl : l.Nodup := (List.nodup_append.1 hlru.2).1
  obtain ⟨heap1, hd1, tl1, ct, hct, e1, hs1, hlen1, hcont1⟩ := lru_evict_spec state l t hlru
  refine ⟨ct, hct, ?_⟩
  cases htext : evict_text state ct with
  | none =>
    left
    rw [htext] at e1
    refine ⟨rfl, e1, ?_⟩
    simp only [find_or_create_clump, hl, if_pos hfull, e1, Option.bind_eq_bind]
    rfl
  | some text =>
  right
  rw [htext] at e1
  have hlt : t < heap1.length := by
    have := getElem?_lt_of_some _ _ _ hct
    omega
  have hct1 : heap1[t]? = some (heap1[t]) := List.getElem?_eq_getElem _
  have hinit := init_clump_spec
    { state with
      heap := heap1, clumps_head := hd1, clumps_tail := tl1,
      clump_table := state.clump_table.erase t,
      stdout := state.stdout ++ text }
    t (heap1[t]) k hct1
  obtain ⟨heap2, tl2, e2, hs2, hlen2, hcont2⟩ :=
    lru_push_front_spec
      { state with
        heap := heap1.set t
          { heap1[t] with
            key_values := key_copy state.num_key_fields k,
            aggregator_data := init_data state.agg_instances },
        clumps_head := hd1, clumps_tail := tl1,
        clump_table := state.clump_table.erase t ++ [t],
        stdout := state.stdout ++ text }
      l t
      { heap1[t] with
        key_values := key_copy state.num_key_fields k,
        aggregator_data := init_data state.agg_instances }
      ⟨lseg_set_of_not_mem _ _ _ _ htl _ _ _ _ hs1, hndl⟩
      htl (by simp [List.getElem?_set_self, hlt])
  refine ⟨text, heap2, tl2, rfl, ?_, ⟨⟨hs2, List.nodup_cons.2 ⟨htl, hndl⟩⟩, ?_⟩, ?_, ?_, ?_⟩
  · simp only [find_or_create_clump, hl, if_pos hfull, e1, Option.bind_eq_bind,
      Option.some_bind, Option.map_some']
    rw [hinit]
    simp only [Option.some_bind]
    simp only [key_copy, init_data] at e2
    rw [e2]
    rfl
  · have h1 : (state.clump_table.erase t).Perm l := by
      have := List.Perm.erase t hperm
      rwa [List.erase_append_right _ htl, List.erase_cons_head, List.append_nil] at this
    exact List.perm_append_comm.trans (List.Perm.cons _ h1)
  · rw [hlen2]
    simp [hlen1]
  · simp only [content_at]
    rw [hcont2]
    simp [List.getElem?_set_self, clump.content, hlt]
  · intro a ha
    simp only [content_at]
    rw [hcont2]
    simp only [List.getElem?_set_ne (Ne.symm ha)]
    exact hcont1 a

theorem same_config_refl (s : collate_state) : same_config s s :=
  ⟨rfl, rfl, rfl, rfl, rfl, rfl, rfl, rfl⟩

theorem same_config_trans (s1 s2 s3 : collate_state) (h1 : same_config s1 s2)
    (h2 : same_config s2 s3) : same_config s1 s3 := by
  obtain ⟨a1, a2, a3, a4, a5, a6, a7, a8⟩ := h1
  obtain ⟨b1, b2, b3, b4, b5, b6, b7, b8⟩ := h2
  exact ⟨b1.trans a1, b2.trans a2, b3.trans a3, b4.trans a4, b5.trans a5, b6.trans a6,
    b7.trans a7, b8.trans a8⟩

theorem ulong_of_int_pos (n : Int) (h1 : 1 ≤ n) (h2 : n < 2 ^ 31) :
    ((ulong_of_int n : Nat) : Int) = n := by
  unfold ulong_of_int
  rw [Int.emod_eq_of_lt (by omega) (by omega), Int.toNat_of_nonneg (by omega)]

/-- The second loop of `dump_clump` gives a text when every dump does. -/
theorem dump_clump_aggs_isSome (i : Nat) (insts : List agg_instance)
    (h : ∀ agg_inst ∈ insts, ∀ d,
      (agg_inst.agg.dump_func agg_inst.config_data d).isSome = true) :
    ∀ ds, (dump_clump_aggs i insts ds).isSome = true := by
  induction insts with
  | nil => intro ds; rfl
  | cons a insts ih =>
    intro ds
    cases ds with
    | nil => rfl
    | cons d ds =>
      obtain ⟨text, ht⟩ := Option.isSome_iff_exists.1 (h a (List.mem_cons_self _ _) d)
      obtain ⟨rest, hr⟩ := Option.isSome_iff_exists.1
        (ih (fun b hb => h b (List.mem_cons_of_mem _ hb)) ds)
      simp [dump_clump_aggs, ht, hr]

theorem dump_clump_text_isSome (cs : collate_state) (c : clump) (h : dumps_total cs) :
    (dump_clump_text cs c).isSome = true := by
  obtain ⟨aggs, ha⟩ := Option.isSome_iff_exists.1
    (dump_clump_aggs_isSome cs.num_key_fields cs.agg_instances h c.aggregator_data)
  simp [dump_clump_text, ha]

theorem evict_text_isSome (cs : collate_state) (c : clump)
    (h : cs.incremental = true ∨ dumps_total cs) : (evict_text cs c).isSome = true := by
  unfold evict_text
  cases hinc : cs.incremental with
  | true => rfl
  | false =>
    rcases h with h | h
    · rw [hinc] at h
      cases h
    · simpa using dump_clump_text_isSome cs c h

/-- One call of `find_or_create_clump` on a state whose table and LRU list
agree. Either the dump of the clump to evict gives no text and the call does
not return, or it returns a clump, the list has that clump moved or added to
the front, and only a hit, an allocation below the capacity or an eviction of
the last clump of the list can have happened. -/
theorem find_or_create_clump_cases (s : collate_state) (l : List Nat)
    (k : List (Option String)) (hwf : table_lru s l) (hcap : max_clumps_ok s) :
    (find_or_create_clump s k = none ∧ hash_lookup s k = none ∧ at_capacity s ∧
      ∃ t ct, l.getLast? = some t ∧ s.heap[t]? = some ct ∧ evict_text s ct = none) ∨
    ∃ s' p, find_or_create_clump s k = some (s', p) ∧
      table_lru s' (touch l p) ∧ same_config s s' ∧
      (s.max_clumps ≠ MAX_CLUMPS_INFINITE →
        (s.clump_table.length : Int) ≤ s.max_clumps →
        (s'.clump_table.length : Int) ≤ s.max_clumps) ∧
      (hash_lookup s k = none → at_capacity s →
        l.getLast? = some p ∧ ∃ s1, lru_evict s = some (s1, p)) ∧
      (∀ q, hash_lookup s k = some q →
        p = q ∧ p ∈ l ∧ s'.stdout = s.stdout ∧ s'.clump_table = s.clump_table ∧
        s'.heap.length = s.heap.length ∧
        ∀ a : Nat, content_at s'.heap a = content_at s.heap a) ∧
      (hash_lookup s k = none →
        content_at s'.heap p =
          some (key_copy s.num_key_fields k, init_data s.agg_instances) ∧
        (∀ a : Nat, a ≠ p → content_at s'.heap a = content_at s.heap a) ∧
        (¬ at_capacity s →
          p ∉ l ∧ p = s.heap.length ∧ s'.stdout = s.stdout ∧
          s'.clump_table = s.clump_table ++ [p]) ∧
        (at_capacity s →
          s'.clump_table = s.clump_table.erase p ++ [p] ∧
          ∃ ct text, s.heap[p]? = some ct ∧ evict_text s ct = some text ∧
            s'.stdout = s.stdout ++ text)) := by
  cases hl : hash_lookup s k with
  | some p =>
    right
    obtain ⟨heap', tl', e, hwf', hpl, hlen, hcont⟩ := find_or_create_clump_hit s l k p hwf hl
    refine ⟨_, p, e, hwf', same_config_refl s, fun _ h => h, ?_, ?_, ?_⟩
    · intro h
      cases h
    · intro q hq
      cases hq
      exact ⟨rfl, hpl, rfl, rfl, hlen, hcont⟩
    · intro h
      cases h
  | none =>
    by_cases hfull : at_capacity s
    · -- the list is not empty
      have hne : l ≠ [] := by
        intro e
        subst e
        have hlen : s.clump_table.length = 0 := by
          simpa using hwf.2.length_eq
        rcases hcap with h | ⟨h1, h2⟩
        · exact hfull.1 h
        · have := hfull.2
          have h3 := ulong_of_int_pos _ h1 h2
          simp only [hash_count, hlen] at this
          omega
      obtain ⟨l', t, e⟩ := (List.eq_nil_or_concat l).resolve_left hne
      subst e
      rw [List.concat_eq_append] at hwf ⊢
      obtain ⟨ct, hct, hev⟩ := find_or_create_clump_evict s l' t k hwf hl hfull
      rcases hev with ⟨htext, _, e⟩ | ⟨text, heap', tl', htext, e, hwf', _, hc1, hc2⟩
      · left
        exact ⟨e, rfl, hfull, t, ct, by simp, hct, htext⟩
      right
      have htl : t ∉ l' := fun hm =>
        (List.nodup_append.1 hwf.1.2).2.2 hm (List.mem_singleton_self _)
      have herase : (l' ++ [t]).erase t = l' := by
        rw [List.erase_append_right _ htl, List.erase_cons_head, List.append_nil]
      have htm : t ∈ s.clump_table := hwf.2.symm.subset (by simp)
      obtain ⟨heap1, hd1, tl1, ct1, hct1, e1, _⟩ := lru_evict_spec s l' t hwf.1
      rw [hct] at hct1
      cases hct1
      rw [htext] at e1
      refine ⟨_, t, e, by unfold touch; rw [herase]; exact hwf', same_config_refl s, ?_, ?_, ?_, ?_⟩
      · intro _ h
        simpa [List.length_erase_of_mem htm, Nat.sub_add_cancel
          (List.length_pos_of_mem htm)] using h
      · intro _ _
        exact ⟨by simp, _, e1⟩
      · intro q hq
        cases hq
      · intro _
        exact ⟨hc1, hc2, fun h => absurd hfull h, fun _ => ⟨rfl, ct, text, hct, htext, rfl⟩⟩
    · right
      obtain ⟨heap', tl', e, hwf', hnl, _, hc1, hc2⟩ :=
        find_or_create_clump_alloc s l k hwf hl hfull
      refine ⟨_, _, e, by unfold touch; rw [List.erase_of_not_mem hnl]; exact hwf',
        same_config_refl s,
        ?_, fun _ h => absurd h hfull, ?_, ?_⟩
      · intro hb h
        rcases hcap with h0 | ⟨h1, h2⟩
        · exact absurd h0 hb
        · have h3 := ulong_of_int_pos _ h1 h2
          have h4 : ¬ (hash_count s ≥ ulong_of_int s.max_clumps) := fun h5 => hfull ⟨hb, h5⟩
          simp only [hash_count] at h4
          simp only [List.length_append, List.length_singleton]
          push_cast
          omega
      · intro q hq
        cases hq
      · intro _
        exact ⟨hc1, hc2, fun _ => ⟨hnl, rfl, rfl, rfl⟩, fun h => absurd h hfull⟩

/-- A call of `find_or_create_clump` returns when evictions write nothing or
every dump gives a text. -/
theorem find_or_create_clump_returns (s : collate_state) (l : List Nat)
    (k : List (Option String)) (hwf : table_lru s l) (hcap : max_clumps_ok s)
    (hd : s.incremental = true ∨ dumps_total s) :
    (find_or_create_clump s k).isSome = true := by
  rcases find_or_create_clump_cases s l k hwf hcap with ⟨_, _, _, t, ct, _, _, h⟩ | ⟨s', p, e, _⟩
  · have := evict_text_isSome s ct hd
    rw [h] at this
    cases this
  · rw [e]
    rfl

/-- One call of `find_or_create_clump` that returns, on a state whose table
and LRU list agree: the list has the returned clump moved or added to the
front, and only a hit, an allocation below the capacity or an eviction of the
last clump of the list can have happened. -/
theorem find_or_create_clump_step (s : collate_state) (l : List Nat)
    (k : List (Option String)) (hwf : table_lru s l) (hcap : max_clumps_ok s)
    (hret : (find_or_create_clump s k).isSome = true) :
    ∃ s' p, find_or_create_clump s k = some (s', p) ∧
      table_lru s' (touch l p) ∧ same_config s s' ∧
      (s.max_clumps ≠ MAX_CLUMPS_INFINITE →
        (s.clump_table.length : Int) ≤ s.max_clumps →
        (s'.clump_table.length : Int) ≤ s.max_clumps) ∧
      (hash_lookup s k = none → at_capacity s →
        l.getLast? = some p ∧ ∃ s1, lru_evict s = some (s1, p)) ∧
      (∀ q, hash_lookup s k = some q →
        p = q ∧ p ∈ l ∧ s'.stdout = s.stdout ∧ s'.clump_table = s.clump_table ∧
        s'.heap.length = s.heap.length ∧
        ∀ a : Nat, content_at s'.heap a = content_at s.heap a) ∧
      (hash_lookup s k = none →
        content_at s'.heap p =
          some (key_copy s.num_key_fields k, init_data s.agg_instances) ∧
        (∀ a : Nat, a ≠ p → content_at s'.heap a = content_at s.heap a) ∧
        (¬ at_capacity s →
          p ∉ l ∧ p = s.heap.length ∧ s'.stdout = s.stdout ∧
          s'.clump_table = s.clump_table ++ [p]) ∧
        (at_capacity s →
          s'.clump_table = s.clump_table.erase p ++ [p] ∧
          ∃ ct text, s.heap[p]? = some ct ∧ evict_text s ct = some text ∧
            s'.stdout = s.stdout ++ text)) := by
  rcases find_or_create_clump_cases s l k hwf hcap with ⟨e, _⟩ | h
  · rw [e] at hret
    cases hret
  · exact h

/-! ### Sequences of calls, and C1 -/

theorem lru_walk_eq (heap : List clump) (l : List Nat) (fuel : Nat) (pv hd tl : Option Nat)
    (h : lseg heap pv hd l tl none) (hf : l.length ≤ fuel) : lru_walk heap fuel hd = l := by
  induction l generalizing fuel pv hd with
  | nil =>
    obtain ⟨h1, _⟩ := h
    subst h1
    cases fuel <;> rfl
  | cons a l ih =>
    obtain ⟨h1, c, h2, _, h4⟩ := h
    subst h1
    cases fuel with
    | zero => simp at hf
    | succ n =>
      simp only [lru_walk, h2]
      rw [ih n _ _ h4 (by simpa using hf)]

theorem nodup_length_le (l : List Nat) (n : Nat) (hnd : l.Nodup) (hlt : ∀ a ∈ l, a < n) :
    l.length ≤ n := by
  have h1 : l.toFinset ⊆ Finset.range n := by
    intro a ha
    exact Finset.mem_range.2 (hlt a (List.mem_toFinset.1 ha))
  have h2 := Finset.card_le_card h1
  rwa [List.toFinset_card_of_nodup hnd, Finset.card_range] at h2

theorem lru_list_eq (s : collate_state) (l : List Nat) (h : lru_is s l) : lru_list s = l := by
  refine lru_walk_eq s.heap l _ none _ _ h.1 (nodup_length_le l _ h.2 ?_)
  intro a ha
  obtain ⟨c, hc⟩ := lseg_mem_valid _ _ _ _ _ _ h.1 a ha
  exact getElem?_lt_of_some _ _ _ hc

theorem same_config_dumps (s s' : collate_state) (h : same_config s s')
    (hd : s.incremental = true ∨ dumps_total s) : s'.incremental = true ∨ dumps_total s' := by
  obtain ⟨_, g2, g3, _⟩ := h
  unfold dumps_total at hd ⊢
  rw [g2, g3]
  exact hd

theorem find_or_create_clumps_spec (ks : List (List (Option String))) :
    ∀ (s : collate_state) (l : List Nat), table_lru s l → max_clumps_ok s →
    (find_or_create_clumps s ks).isSome = true →
    ∃ s' ps, find_or_create_clumps s ks = some (s', ps) ∧
      table_lru s' (ps.foldl touch l) ∧ same_config s s' ∧
      (s.max_clumps ≠ MAX_CLUMPS_INFINITE →
        (s.clump_table.length : Int) ≤ s.max_clumps →
        (s'.clump_table.length : Int) ≤ s.max_clumps) := by
  induction ks with
  | nil =>
    intro s l hwf _ _
    exact ⟨s, [], rfl, hwf, same_config_refl s, fun _ h => h⟩
  | cons k ks ih =>
    intro s l hwf hcap hret
    have hret1 : (find_or_create_clump s k).isSome = true := by
      cases e : find_or_create_clump s k with
      | none => simp [find_or_create_clumps, e] at hret
      | some r => rfl
    obtain ⟨s1, p, e1, hwf1, hc1, hb1, _, _⟩ := find_or_create_clump_step s l k hwf hcap hret1
    have hcap1 : max_clumps_ok s1 := by
      unfold max_clumps_ok
      rw [hc1.1]
      exact hcap
    have hret2 : (find_or_create_clumps s1 ks).isSome = true := by
      cases e : find_or_create_clumps s1 ks with
      | none => simp [find_or_create_clumps, e1, e] at hret
      | some r => rfl
    obtain ⟨s2, ps, e2, hwf2, hc2, hb2⟩ := ih s1 (touch l p) hwf1 hcap1 hret2
    refine ⟨s2, p :: ps, ?_, hwf2, same_config_trans _ _ _ hc1 hc2, ?_⟩
    · simp [find_or_create_clumps, e1, e2]
    · intro hb h
      have := hb2 (by rw [hc1.1]; exact hb) (by rw [hc1.1]; exact hb1 hb h)
      rwa [hc1.1] at this

/-- A sequence of calls of `find_or_create_clump` returns when evictions
write nothing or every dump gives a text. -/
theorem find_or_create_clumps_returns (ks : List (List (Option String))) :
    ∀ (s : collate_state) (l : List Nat), table_lru s l → max_clumps_ok s →
    (s.incremental = true ∨ dumps_total s) →
    (find_or_create_clumps s ks).isSome = true := by
  induction ks with
  | nil =>
    intro s l _ _ _
    rfl
  | cons k ks ih =>
    intro s l hwf hcap hd
    have hret1 := find_or_create_clump_returns s l k hwf hcap hd
    obtain ⟨s1, p, e1, hwf1, hc1, _⟩ := find_or_create_clump_step s l k hwf hcap hret1
    have hcap1 : max_clumps_ok s1 := by
      unfold max_clumps_ok
      rw [hc1.1]
      exact hcap
    have h2 := ih s1 (touch l p) hwf1 hcap1 (same_config_dumps s s1 hc1 hd)
    obtain ⟨r, hr⟩ := Option.isSome_iff_exists.1 h2
    simp [find_or_create_clumps, e1, hr]

theorem table_lru_empty (cs : collate_state)
    (hempty : cs.clump_table = [] ∧ cs.clumps_head = none ∧ cs.clumps_tail = none) :
    table_lru cs [] := by
  obtain ⟨h1, h2, h3⟩ := hempty
  exact ⟨⟨⟨h2, h3⟩, List.nodup_nil⟩, by rw [h1]⟩

/-- C1 (LRU bound): from an empty clump table with `max_clumps = N`, `N >= 1`,
after each call of a sequence of calls of `find_or_create_clump` on arbitrary
key tuples the clump table holds at most `N` entries; and every call returns
when the configuration is incremental (an eviction writes nothing) or every
`dump_func` gives a text on every data. -/
theorem lru_bound (cs : collate_state) (N : Nat) (key_tuples : List (List (Option String)))
    (hN : 1 ≤ N) (hint : N < 2 ^ 31) (hmax : cs.max_clumps = (N : Int))
    (hempty : cs.clump_table = [] ∧ cs.clumps_head = none ∧ cs.clumps_tail = none)
    (n : Nat) :
    (∀ s ps, find_or_create_clumps cs (key_tuples.take n) = some (s, ps) →
      hash_count s ≤ N) ∧
    (cs.incremental = true ∨ dumps_total cs →
      ∃ s ps, find_or_create_clumps cs (key_tuples.take n) = some (s, ps)) := by
  have hcap : max_clumps_ok cs := by
    right
    rw [hmax]
    exact ⟨by exact_mod_cast hN, by exact_mod_cast hint⟩
  constructor
  · intro s ps e
    obtain ⟨s', ps', e', _, _, hb⟩ :=
      find_or_create_clumps_spec (key_tuples.take n) cs [] (table_lru_empty cs hempty) hcap
        (by rw [e]; rfl)
    rw [e] at e'
    cases e'
    have h1 : cs.max_clumps ≠ MAX_CLUMPS_INFINITE := by
      rw [hmax]
      unfold MAX_CLUMPS_INFINITE
      omega
    have := hb h1 (by rw [hempty.1, hmax]; simp)
    rw [hmax] at this
    unfold hash_count
    exact_mod_cast this
  · intro hd
    obtain ⟨r, hr⟩ := Option.isSome_iff_exists.1
      (find_or_create_clumps_returns (key_tuples.take n) cs [] (table_lru_empty cs hempty) hcap hd)
    exact ⟨r.1, r.2, hr⟩

/-! ### `find_and_add_to_clump` and `object_callback` -/

theorem lseg_set_links (heap : List clump) (x : Nat) (c v : clump)
    (hc : heap[x]? = some c) (hn : v.next = c.next) (hp : v.prev = c.prev) (l : List Nat)
    (pv hd tl nx : Option Nat) (h : lseg heap pv hd l tl nx) :
    lseg (heap.set x v) pv hd l tl nx := by
  induction l generalizing pv hd with
  | nil => exact h
  | cons a l ih =>
    obtain ⟨h1, ca, h2, h3, h4⟩ := h
    by_cases e : x = a
    · subst e
      rw [hc] at h2
      cases h2
      have hlt := getElem?_lt_of_some _ _ _ hc
      refine ⟨h1, v, by simp [List.getElem?_set_self, hlt], by rw [hp, h3], ?_⟩
      rw [hn]
      exact ih _ _ h4
    · refine ⟨h1, ca, ?_, h3, ih _ _ h4⟩
      rw [List.getElem?_set_ne e]
      exact h2

theorem content_at_some (heap : List clump) (a : Nat) (c : clump) (h : heap[a]? = some c) :
    content_at heap a = some (c.key_values, c.aggregator_data) := by
  simp [content_at, h, clump.content]

/-- The loop of `find_and_add_to_clump` gives new data when every add
does. -/
theorem add_to_aggs_isSome (vals : List (Option String)) (d_vals : List double)
    (insts : List agg_instance)
    (h : ∀ agg_inst ∈ insts, ∀ d ch_data num_data,
      (agg_inst.agg.add_func agg_inst.config_data d ch_data num_data).isSome = true) :
    ∀ ds, (add_to_aggs vals d_vals insts ds).isSome = true := by
  induction insts with
  | nil => intro ds; rfl
  | cons a insts ih =>
    intro ds
    cases ds with
    | nil => rfl
    | cons d ds =>
      obtain ⟨d', hd'⟩ := Option.isSome_iff_exists.1 (h a (List.mem_cons_self _ _) d
        ((List.range a.num_input_fields).map (fun j => vals.getD (a.input_fields.getD j 0) none))
        ((List.range a.num_input_fields).map
          (fun j => d_vals.getD (a.input_fields.getD j 0) .nan)))
      obtain ⟨rest, hr⟩ := Option.isSome_iff_exists.1
        (ih (fun b hb => h b (List.mem_cons_of_mem _ hb)) ds)
      simp only [add_to_aggs, hd', hr, Option.bind_eq_bind, Option.some_bind, Option.pure_def,
        Option.isSome_some]

/-- One call of `find_and_add_to_clump` on a state whose table and LRU list
agree: what it gives in terms of the call of `find_or_create_clump` inside
it, the loop over the aggregator instances and the text of the clump. -/
theorem find_and_add_to_clump_eq (s : collate_state) (l : List Nat)
    (vals : List (Option String)) (d_vals : List double)
    (hwf : table_lru s l) (hcap : max_clumps_ok s) (s1 : collate_state) (p : Nat)
    (e1 : find_or_create_clump s vals = some (s1, p)) :
    ∃ c, s1.heap[p]? = some c ∧
      find_and_add_to_clump s vals d_vals =
        (add_to_aggs vals d_vals s.agg_instances c.aggregator_data).bind (fun d' =>
          (if s.incremental then record_text s c.key_values d' else some "").map (fun text =>
            { s1 with
              heap := s1.heap.set p { c with aggregator_data := d' },
              stdout := s1.stdout ++ text })) := by
  obtain ⟨s1', p', e1', hwf1, hcfg, _⟩ :=
    find_or_create_clump_step s l vals hwf hcap (by rw [e1]; rfl)
  rw [e1] at e1'
  cases e1'
  obtain ⟨c, hc⟩ := lseg_mem_valid _ _ _ _ _ _ hwf1.1.1 p (List.mem_cons_self _ _)
  have hlt := getElem?_lt_of_some _ _ _ hc
  obtain ⟨g1, g2, g3, g4, g5, g6, g7, g8⟩ := hcfg
  refine ⟨c, hc, ?_⟩
  simp only [find_and_add_to_clump, e1, Option.bind_eq_bind, Option.some_bind, hc, g3]
  cases add_to_aggs vals d_vals s.agg_instances c.aggregator_data with
  | none => rfl
  | some d' =>
    simp only [Option.some_bind, g2]
    cases hinc : s.incremental with
    | false => simp
    | true =>
      simp only [if_true, dump_clump, List.getElem?_set_self, hlt, Option.bind_eq_bind,
        Option.some_bind, Option.pure_def, record_text, dump_clump_text, g3, g7, g8]
      cases dump_clump_aggs s.num_key_fields s.agg_instances d' <;> rfl

theorem find_and_add_to_clump_step (s : collate_state) (l : List Nat)
    (vals : List (Option String)) (d_vals : List double)
    (hwf : table_lru s l) (hcap : max_clumps_ok s)
    (hret : (find_and_add_to_clump s vals d_vals).isSome = true) :
    ∃ s1 p s' kv d d' text, find_or_create_clump s vals = some (s1, p) ∧
      find_and_add_to_clump s vals d_vals = some s' ∧
      table_lru s' (touch l p) ∧ same_config s s' ∧
      s'.clump_table = s1.clump_table ∧ s'.heap.length = s1.heap.length ∧
      content_at s1.heap p = some (kv, d) ∧
      add_to_aggs vals d_vals s.agg_instances d = some d' ∧
      content_at s'.heap p = some (kv, d') ∧
      (∀ a : Nat, a ≠ p → content_at s'.heap a = content_at s1.heap a) ∧
      (if s.incremental then record_text s kv d' else some "") = some text ∧
      s'.stdout = s1.stdout ++ text := by
  have hret1 : (find_or_create_clump s vals).isSome = true := by
    cases e : find_or_create_clump s vals with
    | none => simp [find_and_add_to_clump, e] at hret
    | some r => rfl
  obtain ⟨s1, p, e1, hwf1, hcfg, _⟩ := find_or_create_clump_step s l vals hwf hcap hret1
  obtain ⟨c, hc, e2⟩ := find_and_add_to_clump_eq s l vals d_vals hwf hcap s1 p e1
  have hlt := getElem?_lt_of_some _ _ _ hc
  cases hadd : add_to_aggs vals d_vals s.agg_instances c.aggregator_data with
  | none =>
    rw [e2, hadd] at hret
    cases hret
  | some d' =>
  cases htext : (if s.incremental then record_text s c.key_values d' else some "") with
  | none =>
    rw [e2, hadd, Option.some_bind, htext] at hret
    cases hret
  | some text =>
  rw [hadd, Option.some_bind, htext, Option.map_some'] at e2
  have hseg := lseg_set_links s1.heap p c { c with aggregator_data := d' }
    hc rfl rfl _ _ _ _ _ hwf1.1.1
  refine ⟨s1, p, _, c.key_values, c.aggregator_data, d', text, e1, e2,
    ⟨⟨hseg, hwf1.1.2⟩, hwf1.2⟩, hcfg, rfl, by simp, content_at_some _ _ _ hc, hadd, ?_, ?_,
    htext, rfl⟩
  · simp [content_at, List.getElem?_set_self, hlt, clump.content]
  · intro a ha
    simp [content_at, List.getElem?_set_ne (Ne.symm ha)]

/-- A call of `find_and_add_to_clump` returns when every add gives new data
and every dump a text. -/
theorem find_and_add_to_clump_returns (s : collate_state) (l : List Nat)
    (vals : List (Option String)) (d_vals : List double)
    (hwf : table_lru s l) (hcap : max_clumps_ok s) (ha : adds_total s) (hd : dumps_total s) :
    (find_and_add_to_clump s vals d_vals).isSome = true := by
  obtain ⟨r, e1⟩ := Option.isSome_iff_exists.1
    (find_or_create_clump_returns s l vals hwf hcap (Or.inr hd))
  obtain ⟨s1, p⟩ := r
  obtain ⟨c, hc, e2⟩ := find_and_add_to_clump_eq s l vals d_vals hwf hcap s1 p e1
  obtain ⟨d', hd'⟩ := Option.isSome_iff_exists.1
    (add_to_aggs_isSome vals d_vals s.agg_instances ha c.aggregator_data)
  have ht : (if s.incremental then record_text s c.key_values d' else some "").isSome = true := by
    split
    · exact dump_clump_text_isSome s _ hd
    · rfl
  obtain ⟨text, htext⟩ := Option.isSome_iff_exists.1 ht
  rw [e2, hd', Option.some_bind, htext]
  rfl

theorem range_map_getD {α : Type} (f : Nat → α) (n : Nat) (d : α) :
    (List.range n).map (fun j => ((List.range n).map f).getD j d) = (List.range n).map f := by
  apply List.map_congr_left
  intro j hj
  have hj' := List.mem_range.1 hj
  simp [List.getD_eq_getElem?_getD, List.getElem?_range hj']

/-- Without cubing (`cube_max = 1`) a record is added once, under its own
values. -/
theorem object_callback_no_cube (L : libc) (s : collate_state) (vals : List (Option String))
    (h : s.cube_max = 1) :
    object_callback L s vals =
      find_and_add_to_clump s
        ((List.range s.num_interesting_fields).map (fun j => vals.getD j none))
        ((List.range s.num_interesting_fields).map (fun i => dbl_val L (vals.getD i none))) := by
  simp only [object_callback, h, Int.toNat_one, cube_loop, cube_vals, Nat.and_zero, ne_eq,
    not_true_eq_false, if_false, Option.bind_eq_bind]
  rw [range_map_getD]
  cases find_and_add_to_clump s _ _ <;> rfl

theorem strcmp_chars_eq_zero (s t : List Char) : strcmp_chars s t = 0 ↔ s = t := by
  induction s generalizing t with
  | nil => cases t <;> simp [strcmp_chars]
  | cons a s ih =>
    cases t with
    | nil => simp [strcmp_chars]
    | cons b t =>
      simp only [strcmp_chars]
      by_cases e : a = b
      · simp [e, ih]
      · simp only [e, if_false, List.cons.injEq, false_and, iff_false]
        split <;> decide

theorem strcmp_eq_zero (s t : String) : strcmp s t = 0 ↔ s = t := by
  rw [strcmp, strcmp_chars_eq_zero, String.ext_iff]

/-- With one key field `hash_comp_func` returns 0 exactly for equal first
entries. -/
theorem hash_comp_func_one (k1 k2 : List (Option String)) :
    hash_comp_func 1 k1 k2 = 0 ↔ k1.getD 0 none = k2.getD 0 none := by
  simp only [hash_comp_func, hash_comp_func_from]
  cases k1.getD 0 none <;> cases k2.getD 0 none <;> simp [strcmp_eq_zero]

/-! ### C2: adjacent run-length -/

theorem rle_from_some (ws : List (Option String)) (v : Option String) (n : Nat) :
    rle_from (some (v, n)) ws =
      (match rle ws with
       | (w, m) :: rest => if v = w then (w, m + n) :: rest else (v, n) :: (w, m) :: rest
       | [] => [(v, n)]) := by
  induction ws generalizing v n with
  | nil => rfl
  | cons w ws ih =>
    simp only [rle_from, rle]
    rw [ih, ih]
    by_cases e : w = v
    · subst e
      cases rle ws with
      | nil => simp [Nat.add_comm]
      | cons r rest =>
        obtain ⟨u, m⟩ := r
        by_cases e2 : w = u
        · simp [e2, Nat.add_assoc, Nat.add_comm 1 n]
        · simp [e2, Nat.add_comm]
    · have e' : ¬ v = w := fun h => e h.symm
      cases rle ws with
      | nil => simp [e, e']
      | cons r rest =>
        obtain ⟨u, m⟩ := r
        by_cases e2 : w = u
        · subst e2
          simp [e, e']
        · simp [e, e2, e']

theorem rle_from_none (ws : List (Option String)) : rle_from none ws = rle ws := by
  cases ws with
  | nil => rfl
  | cons w ws =>
    simp only [rle_from, rle]
    rw [rle_from_some]

/-- The pairs of `rle` spell the sequence out again: `rle` loses nothing. -/
theorem rle_expand (l : List (Option String)) :
    ((rle l).map (fun r => List.replicate r.2 r.1)).flatten = l := by
  induction l with
  | nil => rfl
  | cons v vs ih =>
    simp only [rle]
    cases h : rle vs with
    | nil =>
      rw [h] at ih
      simp only [List.map_nil, List.flatten_nil] at ih
      simp [← ih]
    | cons r rest =>
      obtain ⟨w, n⟩ := r
      rw [h] at ih
      simp only [List.map_cons, List.flatten_cons] at ih
      by_cases e : v = w
      · subst e
        simp only [if_true, List.map_cons, List.flatten_cons, List.replicate_succ,
          List.cons_append, ih]
      · simp only [if_neg e, List.map_cons, List.flatten_cons, ih]
        rfl

/-- The runs of `rle` are maximal: neighbouring pairs have different key
values, and no run is empty. -/
theorem rle_maximal (l : List (Option String)) :
    List.Chain' (fun a b => a.1 ≠ b.1) (rle l) ∧ ∀ r ∈ rle l, 1 ≤ r.2 := by
  induction l with
  | nil => exact ⟨List.chain'_nil, fun r h => by cases h⟩
  | cons v vs ih =>
    simp only [rle]
    cases h : rle vs with
    | nil =>
      refine ⟨List.chain'_singleton _, ?_⟩
      intro r hr
      rw [List.mem_singleton.1 hr]
    | cons r rest =>
      obtain ⟨w, n⟩ := r
      rw [h] at ih
      obtain ⟨hc, hp⟩ := ih
      by_cases e : v = w
      · subst e
        simp only [if_true]
        refine ⟨?_, ?_⟩
        · cases rest with
          | nil => exact List.chain'_singleton _
          | cons r2 rest2 =>
            exact List.chain'_cons.2 ⟨(List.chain'_cons.1 hc).1, (List.chain'_cons.1 hc).2⟩
        · intro r hr
          rcases List.mem_cons.1 hr with e1 | h1
          · rw [e1]
            exact Nat.le_add_left 1 n
          · exact hp r (List.mem_cons_of_mem _ h1)
      · simp only [if_neg e]
        refine ⟨List.chain'_cons.2 ⟨e, hc⟩, ?_⟩
        intro r hr
        rcases List.mem_cons.1 hr with e1 | h1
        · rw [e1]
        · exact hp r h1

theorem content_at_eq_some (heap : List clump) (a : Nat) (kv : List (Option String))
    (d : List agg_data) (h : content_at heap a = some (kv, d)) :
    ∃ c, heap[a]? = some c ∧ c.key_values = kv ∧ c.aggregator_data = d := by
  unfold content_at at h
  cases hc : heap[a]? with
  | none => simp [hc] at h
  | some c =>
    simp only [hc, Option.map_some', Option.some.injEq, clump.content, Prod.mk.injEq] at h
    exact ⟨c, rfl, h.1, h.2⟩

theorem hash_lookup_singleton (s : collate_state) (a : Nat) (c : clump)
    (k : List (Option String)) (ht : s.clump_table = [a]) (hc : s.heap[a]? = some c) :
    hash_lookup s k =
      if hash_comp_func s.num_key_fields c.key_values k = 0 then some a else none := by
  simp only [hash_lookup, ht, List.find?, hc]
  by_cases e : hash_comp_func s.num_key_fields c.key_values k = 0
  · simp [e]
  · have e' : (hash_comp_func s.num_key_fields c.key_values k == 0) = false := by
      simpa using e
    rw [e', if_neg e]

theorem adjacent_record_text (s : collate_state) (x out cube_default : String) (c : clump)
    (v : Option String) (n : Nat)
    (hcfg : same_config (adjacent_count_state x out cube_default) s)
    (hk : c.key_values = [v, none]) (hd : c.aggregator_data = [.count_data n]) :
    dump_clump_text s c = some (count_record x out v n) := by
  obtain ⟨_, _, g3, _, _, _, g7, g8⟩ := hcfg
  simp only [adjacent_count_state, start_state] at g3 g7 g8
  simp only [dump_clump_text, g3, g7, g8, hk, hd, dump_clump_keys, dump_clump_aggs,
    count_instance, count_aggregator, count_dump, count_record, Option.bind_eq_bind,
    Option.some_bind, Option.pure_def]
  apply congrArg some
  apply String.ext
  cases v <;> simp [String.data_append]

/-- One record in the configuration of `adjacent_count_state`: the open run
grows, or it is written and a new run opens. -/
theorem adjacent_step (L : libc) (x out cube_default : String) (s : collate_state)
    (cur : Option (Option String × Nat)) (r : List (Option String))
    (hcfg : same_config (adjacent_count_state x out cube_default) s)
    (hcur : adjacent_inv s cur) (hn : cur_count cur + 1 < 2 ^ 64) :
    ∃ s', object_callback L s r = some s' ∧
      same_config (adjacent_count_state x out cube_default) s' ∧
      (match cur with
       | none =>
         adjacent_inv s' (some (r.getD 0 none, 1)) ∧ s'.stdout = s.stdout
       | some (v, n) =>
         if r.getD 0 none = v then
           adjacent_inv s' (some (v, n + 1)) ∧ s'.stdout = s.stdout
         else
           adjacent_inv s' (some (r.getD 0 none, 1)) ∧
           s'.stdout = s.stdout ++ count_record x out v n) := by
  have hcfg' := hcfg
  obtain ⟨g1, g2, g3, g4, g5, g6, g7, g8⟩ := hcfg
  simp only [adjacent_count_state, start_state] at g1 g2 g3 g4 g5 g6 g7 g8
  have hcap : max_clumps_ok s := Or.inr ⟨by rw [g1], by rw [g1]; norm_num⟩
  have hul : ulong_of_int s.max_clumps = 1 := by
    rw [g1]
    decide
  have hinf : s.max_clumps ≠ MAX_CLUMPS_INFINITE := by
    rw [g1]
    decide
  rw [object_callback_no_cube L s r g4, g6]
  have hk : (List.range 1).map (fun j => r.getD j none) = [r.getD 0 none] := by
    simp [List.range_succ]
  rw [hk]
  generalize (List.range 1).map (fun i => dbl_val L (r.getD i none)) = dv
  have hkc : key_copy s.num_key_fields [r.getD 0 none] = [r.getD 0 none, none] := by
    simp [key_copy, g7, List.range_succ]
  have hid : init_data s.agg_instances = [.count_data 0] := by
    simp [init_data, g3, count_instance, count_aggregator, count_init]
  have hadd : ∀ m, add_to_aggs [r.getD 0 none] dv s.agg_instances [.count_data m] =
      some [.count_data ((m + 1) % 2 ^ 64)] := by
    intro m
    simp [add_to_aggs, g3, count_instance, count_aggregator, count_add]
  have hat : adds_total s := by
    intro agg_inst hm d ch_data num_data
    rw [g3] at hm
    cases List.mem_singleton.1 hm
    cases d <;> rfl
  have hdt : dumps_total s := by
    intro agg_inst hm d
    rw [g3] at hm
    cases List.mem_singleton.1 hm
    cases d <;> rfl
  cases cur with
  | none =>
    have hwf : table_lru s [] := hcur
    have ht : s.clump_table = [] := List.perm_nil.1 hwf.2
    have hl : hash_lookup s [r.getD 0 none] = none := by
      simp [hash_lookup, ht]
    have hroom : ¬ at_capacity s := by
      rintro ⟨_, h⟩
      rw [hul] at h
      simp [hash_count, ht] at h
    obtain ⟨s1, p, s', kv, d, d', text, e1, e2, hwf', hc', _, _, hp1, hd', hp2, _, htext, hout⟩ :=
      find_and_add_to_clump_step s [] [r.getD 0 none] dv hwf hcap
        (find_and_add_to_clump_returns s [] [r.getD 0 none] dv hwf hcap hat hdt)
    obtain ⟨s1', p', e1', _, _, _, _, _, hmiss⟩ :=
      find_or_create_clump_step s [] [r.getD 0 none] hwf hcap (by rw [e1]; rfl)
    rw [g2] at htext
    cases htext
    rw [e1] at e1'
    cases e1'
    obtain ⟨hm1, _, hm3, _⟩ := hmiss hl
    obtain ⟨_, _, hm4, _⟩ := hm3 hroom
    rw [hm1, hkc, hid] at hp1
    cases hp1
    rw [hadd] at hd'
    cases hd'
    refine ⟨s', e2, same_config_trans _ _ _ hcfg' hc', ⟨p, hwf', ?_⟩, ?_⟩
    · rw [hp2]
      rfl
    · rw [hout, hm4]
      simp
  | some vn =>
    obtain ⟨v, n⟩ := vn
    obtain ⟨a, hwf, hca⟩ := hcur
    simp only [cur_count] at hn
    obtain ⟨c, hc, hck, hcd⟩ := content_at_eq_some _ _ _ _ hca
    have ht : s.clump_table = [a] := List.perm_singleton.1 hwf.2
    have hl := hash_lookup_singleton s a c [r.getD 0 none] ht hc
    rw [g7, hck] at hl
    simp only [hash_comp_func_one, List.getD_cons_zero] at hl
    obtain ⟨s1, p, s', kv, d, d', text, e1, e2, hwf', hc', _, _, hp1, hd', hp2, _, htext, hout⟩ :=
      find_and_add_to_clump_step s [a] [r.getD 0 none] dv hwf hcap
        (find_and_add_to_clump_returns s [a] [r.getD 0 none] dv hwf hcap hat hdt)
    obtain ⟨s1', p', e1', _, _, _, hev, hhit, hmiss⟩ :=
      find_or_create_clump_step s [a] [r.getD 0 none] hwf hcap (by rw [e1]; rfl)
    rw [g2] at htext
    cases htext
    rw [e1] at e1'
    cases e1'
    by_cases e3 : r.getD 0 none = v
    · rw [if_pos e3.symm] at hl
      obtain ⟨h4, _, h5, _, _, h6⟩ := hhit a hl
      subst h4
      rw [h6, hca] at hp1
      cases hp1
      rw [hadd, Nat.mod_eq_of_lt hn] at hd'
      cases hd'
      have htouch : touch [p] p = [p] := by simp [touch]
      rw [htouch] at hwf'
      refine ⟨s', e2, same_config_trans _ _ _ hcfg' hc', ?_⟩
      simp only [if_pos e3]
      refine ⟨⟨p, hwf', ?_⟩, ?_⟩
      · rw [hp2]
      · rw [hout, h5]
        simp
    · rw [if_neg (fun h => e3 h.symm)] at hl
      have hfull : at_capacity s := ⟨hinf, by rw [hul]; simp [hash_count, ht]⟩
      obtain ⟨h4, _⟩ := hev hl hfull
      simp only [List.getLast?_singleton, Option.some.injEq] at h4
      subst h4
      obtain ⟨hm1, _, _, hm4⟩ := hmiss hl
      obtain ⟨_, ct, text, hct, htext, hm5⟩ := hm4 hfull
      rw [hc] at hct
      cases hct
      rw [evict_text, g2, adjacent_record_text s x out cube_default c v n hcfg' hck hcd] at htext
      cases htext
      rw [hm1, hkc, hid] at hp1
      cases hp1
      rw [hadd] at hd'
      cases hd'
      have htouch : touch [a] a = [a] := by simp [touch]
      rw [htouch] at hwf'
      refine ⟨s', e2, same_config_trans _ _ _ hcfg' hc', ?_⟩
      simp only [if_neg e3]
      refine ⟨⟨a, hwf', ?_⟩, ?_⟩
      · rw [hp2]
        rfl
      · rw [hout, hm5]
        simp

theorem concat_text_cons (a : String) (l : List String) :
    concat_text (a :: l) = a ++ concat_text l := rfl

theorem adjacent_records (L : libc) (x out cube_default : String)
    (records : List (List (Option String))) :
    ∀ (s : collate_state) (cur : Option (Option String × Nat)),
    same_config (adjacent_count_state x out cube_default) s → adjacent_inv s cur →
    cur_count cur + records.length < 2 ^ 64 →
    ∃ s' cur', process_records L records s = some s' ∧
      same_config (adjacent_count_state x out cube_default) s' ∧ adjacent_inv s' cur' ∧
      s'.stdout ++ concat_text ((rle_from cur' []).map (fun r => count_record x out r.1 r.2)) =
        s.stdout ++ concat_text
          ((rle_from cur (records.map (fun r => r.getD 0 none))).map
            (fun r => count_record x out r.1 r.2)) := by
  induction records with
  | nil =>
    intro s cur hcfg hinv _
    exact ⟨s, cur, rfl, hcfg, hinv, rfl⟩
  | cons r rs ih =>
    intro s cur hcfg hinv hlen
    simp only [List.length_cons] at hlen
    obtain ⟨s1, e1, hcfg1, h1⟩ :=
      adjacent_step L x out cube_default s cur r hcfg hinv (by omega)
    cases cur with
    | none =>
      obtain ⟨hinv1, hout1⟩ := h1
      obtain ⟨s', cur', e2, hcfg2, hinv2, hout2⟩ :=
        ih s1 (some (r.getD 0 none, 1)) hcfg1 hinv1 (by simp only [cur_count]; omega)
      refine ⟨s', cur', by simp [process_records, e1, e2], hcfg2, hinv2, ?_⟩
      rw [hout2, hout1]
      rfl
    | some vn =>
      obtain ⟨v, n⟩ := vn
      simp only [cur_count] at hlen
      by_cases e : r.getD 0 none = v
      · simp only [if_pos e] at h1
        obtain ⟨hinv1, hout1⟩ := h1
        obtain ⟨s', cur', e2, hcfg2, hinv2, hout2⟩ :=
          ih s1 (some (v, n + 1)) hcfg1 hinv1 (by simp only [cur_count]; omega)
        refine ⟨s', cur', by simp [process_records, e1, e2], hcfg2, hinv2, ?_⟩
        rw [hout2, hout1]
        simp only [List.map_cons, rle_from, if_pos e]
      · simp only [if_neg e] at h1
        obtain ⟨hinv1, hout1⟩ := h1
        obtain ⟨s', cur', e2, hcfg2, hinv2, hout2⟩ :=
          ih s1 (some (r.getD 0 none, 1)) hcfg1 hinv1 (by simp only [cur_count]; omega)
        refine ⟨s', cur', by simp [process_records, e1, e2], hcfg2, hinv2, ?_⟩
        rw [hout2, hout1]
        simp only [List.map_cons, rle_from, if_neg e, concat_text_cons, String.append_assoc]

theorem adjacent_flush (x out cube_default : String) (s : collate_state)
    (cur : Option (Option String × Nat))
    (hcfg : same_config (adjacent_count_state x out cube_default) s)
    (hinv : adjacent_inv s cur) :
    ∃ s', main_flush s = some s' ∧
      s'.stdout = s.stdout ++
        concat_text ((rle_from cur []).map (fun r => count_record x out r.1 r.2)) := by
  have g2 : s.incremental = false := hcfg.2.1
  cases cur with
  | none =>
    have ht : s.clump_table = [] := List.perm_nil.1 hinv.2
    refine ⟨s, by simp [main_flush, ht, main_flush_loop], ?_⟩
    simp [rle_from, concat_text]
  | some vn =>
    obtain ⟨v, n⟩ := vn
    obtain ⟨a, hwf, hca⟩ := hinv
    obtain ⟨c, hc, hck, hcd⟩ := content_at_eq_some _ _ _ _ hca
    have ht : s.clump_table = [a] := List.perm_singleton.1 hwf.2
    refine ⟨hash_delete { s with stdout := s.stdout ++ count_record x out v n } a, ?_, ?_⟩
    · simp [main_flush, ht, main_flush_loop, g2, dump_clump, hc,
        adjacent_record_text s x out cube_default c v n hcfg hck hcd]
    · simp [hash_delete, rle_from, concat_text]

/-- C2 (adjacent run-length): with `max_clumps = 1`, not incremental, no cube,
one key field `x` and the single aggregator `count` (output field `out`), the
text written for any sequence of fewer than 2^64 records, evictions and the
final scan together, is the run-length encoding of the key values of the
records: one output record per maximal run of adjacent equal key values, in
input order, with the length of the run as its count. -/
theorem adjacent_run_length (L : libc) (x out cube_default : String)
    (records : List (List (Option String))) (hlen : records.length < 2 ^ 64) :
    ∃ s, main_run L (adjacent_count_state x out cube_default) records = some s ∧
      s.stdout = concat_text
        ((rle (records.map (fun r => r.getD 0 none))).map
          (fun r => count_record x out r.1 r.2)) := by
  obtain ⟨s1, cur, e1, hcfg1, hinv1, hout1⟩ :=
    adjacent_records L x out cube_default records (adjacent_count_state x out cube_default)
      none (same_config_refl _) (table_lru_empty _ ⟨rfl, rfl, rfl⟩)
      (by simp only [cur_count]; omega)
  obtain ⟨s2, e2, hout2⟩ := adjacent_flush x out cube_default s1 cur hcfg1 hinv1
  refine ⟨s2, by simp [main_run, e1, e2], ?_⟩
  rw [hout2, hout1, rle_from_none]
  simp [adjacent_count_state, start_state]

/-! ### Witnesses of C1 and C2; C5, C3 and C4 at their failing inputs -/

/-- C1, at three calls with capacity 2. -/
theorem lru_bound_witness :
    (1 ≤ 2 ∧ 2 < 2 ^ 31) ∧
    ∃ s ps, find_or_create_clumps (start_state 2 false [count_instance "count"] 1 "ALL" 1 1 ["x"])
        ([[some "a"], [some "b"], [some "c"]].take 3) = some (s, ps) ∧
      hash_count s ≤ 2 := by
  have h := lru_bound (start_state 2 false [count_instance "count"] 1 "ALL" 1 1 ["x"]) 2
    [[some "a"], [some "b"], [some "c"]] (by decide) (by decide) rfl ⟨rfl, rfl, rfl⟩ 3
  obtain ⟨s, ps, e⟩ := h.2 (Or.inr (fun agg_inst hm d => by
    cases List.mem_singleton.1 hm
    cases d <;> rfl))
  exact ⟨by decide, s, ps, e, h.1 s ps e⟩

/-- C2, at the records a, a, b, a. -/
theorem adjacent_run_length_witness :
    [[some "a"], [some "a"], [some "b"], [some "a"]].length < 2 ^ 64 ∧
    ∃ s, main_run example_libc (adjacent_count_state "x" "count" "ALL")
        [[some "a"], [some "a"], [some "b"], [some "a"]] = some s ∧
      s.stdout = concat_text
        ((rle ([[some "a"], [some "a"], [some "b"], [some "a"]].map
          (fun r => r.getD 0 none))).map (fun r => count_record "x" "count" r.1 r.2)) :=
  ⟨by decide, adjacent_run_length example_libc "x" "count" "ALL"
    [[some "a"], [some "a"], [some "b"], [some "a"]] (by decide)⟩

/-- C5: `hash_comp_func` returns 0 for two key tuples that differ at
position 1, because both have `NULL` at position 0. -/
theorem hash_comp_func_null_first :
    hash_comp_func 2 [none, some "a"] [none, some "b"] = 0 := by
  decide

/-- C3: in perfect mode with the key fields x, y, z and the aggregator `count`,
the records `{"y":"a"}` and `{"z":"a"}` have different key tuples, the same
`hash_func` value and compare equal, and the output is one record with count
2 instead of two records with count 1. -/
theorem perfect_count_merges_keys :
    ([none, some "a", none] : List (Option String)) ≠ [none, none, some "a"] ∧
    (∀ hashlittle, hash_func hashlittle 3 [none, some "a", none] =
      hash_func hashlittle 3 [none, none, some "a"]) ∧
    hash_comp_func 3 [none, some "a", none] [none, none, some "a"] = 0 ∧
    (main_run example_libc perfect_count_state
        [[none, some "a", none], [none, none, some "a"]]).map (fun s => s.stdout) =
      some "\x7b\"x\":null,\"y\":\"a\",\"z\":null,\"count\":2\x7d\n" := by
  refine ⟨by decide, fun _ => rfl, by decide, by decide⟩

/-- C4: in incremental perfect mode with the key fields x, y, z and
`ptd=sum,p`, the records `{"y":"a","p":1}` and `{"z":"a","p":2}` have
different key tuples, and the second output record carries the key tuple of
the first record and the sum 3 instead of its own key tuple and the sum 2. -/
theorem incremental_sum_merges_keys :
    (main_run example_libc (incremental_sum_state example_libc)
        [[none, some "a", none, some "1"], [none, none, some "a", some "2"]]).map
        (fun s => s.stdout) =
      some ("\x7b\"x\":null,\"y\":\"a\",\"z\":null,\"ptd\":1\x7d\n" ++
        "\x7b\"x\":null,\"y\":\"a\",\"z\":null,\"ptd\":3\x7d\n") := by
  decide!

/-! ### C6: the victim of an eviction -/

theorem calls_since_snoc (ps : List Nat) (p a : Nat) :
    calls_since (ps ++ [p]) a = if p = a then 0 else calls_since ps a + 1 := by
  unfold calls_since
  rw [List.reverse_append, List.reverse_singleton, List.singleton_append, List.indexOf_cons]
  by_cases e : p = a
  · simp [e]
  · have e' : (p == a) = false := by simpa using e
    rw [e', if_neg e]
    rfl

/-- The list that a sequence of touches builds holds the touched clumps, each
once, the more recently touched first. -/
theorem touch_recency (ps : List Nat) :
    (ps.foldl touch []).Nodup ∧ (∀ a, a ∈ ps.foldl touch [] ↔ a ∈ ps) ∧
    (ps.foldl touch []).Pairwise (fun a b => calls_since ps a < calls_since ps b) ∧
    (ps.foldl touch []).head? = ps.getLast? := by
  induction ps using List.reverseRecOn with
  | nil => simp
  | append_singleton ps p ih =>
    obtain ⟨hnd, hmem, hpw, _⟩ := ih
    rw [List.foldl_append]
    simp only [List.foldl_cons, List.foldl_nil, touch]
    have hne : ∀ b, b ∈ (ps.foldl touch []).erase p → b ≠ p := fun b hb =>
      ((List.Nodup.mem_erase_iff hnd).1 hb).1
    refine ⟨List.nodup_cons.2 ⟨fun h => hne p h rfl, hnd.erase p⟩, ?_, ?_, by simp⟩
    · intro a
      by_cases e : a = p
      · simp [e]
      · simp [e, List.mem_erase_of_ne e, hmem]
    · refine List.pairwise_cons.2 ⟨?_, ?_⟩
      · intro b hb
        rw [calls_since_snoc, calls_since_snoc, if_pos rfl, if_neg (fun h => hne b hb h.symm)]
        omega
      · refine List.Pairwise.imp_of_mem ?_ (hpw.sublist (List.erase_sublist p _))
        intro a b ha hb hab
        rw [calls_since_snoc, calls_since_snoc, if_neg (fun h => hne a ha h.symm),
          if_neg (fun h => hne b hb h.symm)]
        omega

/-- C6 (LRU victim): after any sequence of calls of `find_or_create_clump` in
bounded mode, from an empty table, the LRU list starts with the clump the last
call returned and is ordered by the number of calls since the last touch of
each clump, it holds the clumps of the table, and a further call that misses
at capacity has the last clump of the list as its victim, of which the last
touch is the earliest among the clumps of the table: a call that returns has
evicted that clump and returns its storage. The calls return when the
configuration is incremental (an eviction writes nothing) or every
`dump_func` gives a text on every data. -/
theorem lru_victim (cs : collate_state) (N : Nat) (key_tuples : List (List (Option String)))
    (hN : 1 ≤ N) (hint : N < 2 ^ 31) (hmax : cs.max_clumps = (N : Int))
    (hempty : cs.clump_table = [] ∧ cs.clumps_head = none ∧ cs.clumps_tail = none) :
    (cs.incremental = true ∨ dumps_total cs →
      ∃ s ps, find_or_create_clumps cs key_tuples = some (s, ps)) ∧
    ∀ s ps, find_or_create_clumps cs key_tuples = some (s, ps) →
      s.clumps_head = ps.getLast? ∧
      (lru_list s).Pairwise (fun a b => calls_since ps a < calls_since ps b) ∧
      (∀ a, a ∈ lru_list s ↔ a ∈ s.clump_table) ∧
      ∀ k, hash_lookup s k = none → at_capacity s →
        ∃ t, s.clumps_tail = some t ∧ t ∈ s.clump_table ∧
          (∀ b ∈ s.clump_table, calls_since ps b ≤ calls_since ps t) ∧
          (∀ s2 p, find_or_create_clump s k = some (s2, p) →
            p = t ∧ ∃ s1, lru_evict s = some (s1, t)) ∧
          (cs.incremental = true ∨ dumps_total cs →
            ∃ s2, find_or_create_clump s k = some (s2, t)) := by
  have hcap : max_clumps_ok cs := by
    right
    rw [hmax]
    exact ⟨by exact_mod_cast hN, by exact_mod_cast hint⟩
  constructor
  · intro hd
    obtain ⟨r, hr⟩ := Option.isSome_iff_exists.1
      (find_or_create_clumps_returns key_tuples cs [] (table_lru_empty cs hempty) hcap hd)
    exact ⟨r.1, r.2, hr⟩
  intro s ps e
  obtain ⟨s', ps', e', hwf, hcfg, _⟩ :=
    find_or_create_clumps_spec key_tuples cs [] (table_lru_empty cs hempty) hcap
      (by rw [e]; rfl)
  rw [e] at e'
  cases e'
  obtain ⟨_, _, hpw, hhead⟩ := touch_recency ps
  have hlist := lru_list_eq s _ hwf.1
  have hends := lseg_ends _ _ _ _ _ _ hwf.1.1
  refine ⟨?_, by rw [hlist]; exact hpw, ?_, ?_⟩
  · rw [hends.1, ← hhead]
    cases (ps.foldl touch []).head? <;> rfl
  · intro a
    rw [hlist]
    exact ⟨fun h => hwf.2.symm.subset h, fun h => hwf.2.subset h⟩
  · intro k hl hfull
    have hcap' : max_clumps_ok s := by
      unfold max_clumps_ok
      rw [hcfg.1]
      exact hcap
    have hvictim : ∀ t, (ps.foldl touch []).getLast? = some t →
        s.clumps_tail = some t ∧ t ∈ s.clump_table ∧
          ∀ b ∈ s.clump_table, calls_since ps b ≤ calls_since ps t := by
      intro t hlast
      obtain ⟨l', hl'⟩ := List.getLast?_eq_some_iff.1 hlast
      have htm : t ∈ ps.foldl touch [] := by
        rw [hl']
        simp
      refine ⟨by rw [hends.2, hlast], hwf.2.symm.subset htm, ?_⟩
      intro b hb
      have hbl : b ∈ ps.foldl touch [] := hwf.2.subset hb
      rw [hl'] at hbl hpw
      rcases List.mem_append.1 hbl with h1 | h1
      · exact Nat.le_of_lt ((List.pairwise_append.1 hpw).2.2 b h1 t (List.mem_singleton_self _))
      · rw [List.mem_singleton.1 h1]
    rcases find_or_create_clump_cases s _ k hwf hcap' with
      ⟨e0, _, _, t, ct, hlast, _, htext⟩ | ⟨s2, t, e2, _, _, _, hev, _⟩
    · obtain ⟨h1, h2, h3⟩ := hvictim t hlast
      refine ⟨t, h1, h2, h3, ?_, ?_⟩
      · intro s2 p e2
        rw [e0] at e2
        cases e2
      · intro hd
        have := evict_text_isSome s ct (same_config_dumps cs s hcfg hd)
        rw [htext] at this
        cases this
    · obtain ⟨hlast, s1, e1⟩ := hev hl hfull
      obtain ⟨h1, h2, h3⟩ := hvictim t hlast
      refine ⟨t, h1, h2, h3, ?_, fun _ => ⟨s2, e2⟩⟩
      intro s2' p e2'
      rw [e2] at e2'
      cases e2'
      exact ⟨rfl, s1, e1⟩

/-- C6, at three calls with capacity 2. -/
theorem lru_victim_witness :
    (1 ≤ 2 ∧ 2 < 2 ^ 31) ∧
    ∃ s ps, find_or_create_clumps (start_state 2 false [count_instance "count"] 1 "ALL" 1 1 ["x"])
        [[some "a"], [some "b"], [some "a"]] = some (s, ps) ∧
      s.clumps_head = ps.getLast? ∧
      (lru_list s).Pairwise (fun a b => calls_since ps a < calls_since ps b) ∧
      (∀ a, a ∈ lru_list s ↔ a ∈ s.clump_table) ∧
      ∀ k, hash_lookup s k = none → at_capacity s →
        ∃ s1 s2 t, lru_evict s = some (s1, t) ∧ find_or_create_clump s k = some (s2, t) ∧
          s.clumps_tail = some t ∧ t ∈ s.clump_table ∧
          ∀ b ∈ s.clump_table, calls_since ps b ≤ calls_since ps t := by
  have hd : (start_state 2 false [count_instance "count"] 1 "ALL" 1 1 ["x"]).incremental = true ∨
      dumps_total (start_state 2 false [count_instance "count"] 1 "ALL" 1 1 ["x"]) :=
    Or.inr (fun agg_inst hm d => by
      cases List.mem_singleton.1 hm
      cases d <;> rfl)
  have h := lru_victim (start_state 2 false [count_instance "count"] 1 "ALL" 1 1 ["x"]) 2
    [[some "a"], [some "b"], [some "a"]] (by decide) (by decide) rfl ⟨rfl, rfl, rfl⟩
  obtain ⟨s, ps, e⟩ := h.1 hd
  obtain ⟨h1, h2, h3, h4⟩ := h.2 s ps e
  refine ⟨by decide, s, ps, e, h1, h2, h3, ?_⟩
  intro k hl hfull
  obtain ⟨t, g1, g2, g3, g4, g5⟩ := h4 k hl hfull
  obtain ⟨s2, e2⟩ := g5 hd
  obtain ⟨_, s1, e1⟩ := g4 s2 t e2
  exact ⟨s1, s2, t, e1, e2, g1, g2, g3⟩

/-! ### C10: the emitter -/

theorem comma_separated_cons (a : String) (l : List String) :
    comma_separated (a :: l) = a ++ concat_text (l.map (fun b => "," ++ b)) := by
  induction l generalizing a with
  | nil => simp [comma_separated, concat_text]
  | cons b l ih =>
    simp only [comma_separated, ih, List.map_cons, concat_text_cons, String.append_assoc]

theorem concat_text_append (l1 l2 : List String) :
    concat_text (l1 ++ l2) = concat_text l1 ++ concat_text l2 := by
  induction l1 with
  | nil => simp [concat_text]
  | cons a l ih => simp only [List.cons_append, concat_text_cons, ih, String.append_assoc]

theorem dump_clump_keys_eq (names : List String) (key_values : List (Option String))
    (n i : Nat) :
    dump_clump_keys names key_values n i =
      concat_text ((List.range n).map (fun j =>
        (if i + j ≠ 0 then "," else "") ++
          key_field_text (names.getD (i + j) "") (key_values.getD (i + j) none))) := by
  induction n generalizing i with
  | zero => rfl
  | succ n ih =>
    rw [List.range_succ_eq_map, List.map_cons, List.map_map, concat_text_cons, dump_clump_keys,
      ih (i + 1)]
    have h : (fun j => (if i + 1 + j ≠ 0 then "," else "") ++
          key_field_text (names.getD (i + 1 + j) "") (key_values.getD (i + 1 + j) none)) =
        ((fun j => (if i + j ≠ 0 then "," else "") ++
          key_field_text (names.getD (i + j) "") (key_values.getD (i + j) none)) ∘ Nat.succ) := by
      funext j
      simp only [Function.comp, Nat.succ_eq_add_one]
      rw [show i + 1 + j = i + (j + 1) by omega]
    rw [h]
    simp only [Nat.add_zero, key_field_text, String.append_assoc]

theorem dump_clump_aggs_eq (i : Nat) (hi : i ≠ 0) (insts : List agg_instance)
    (ds : List agg_data) :
    dump_clump_aggs i insts ds =
      (agg_field_texts insts ds).map
        (fun texts => concat_text (texts.map (fun b => "," ++ b))) := by
  induction insts generalizing ds with
  | nil => cases ds <;> rfl
  | cons a insts ih =>
    cases ds with
    | nil => rfl
    | cons d ds =>
      simp only [dump_clump_aggs, agg_field_texts, agg_field_text, ih, if_pos hi,
        Option.bind_eq_bind, Option.pure_def]
      cases a.agg.dump_func a.config_data d with
      | none => rfl
      | some text =>
        cases agg_field_texts insts ds with
        | none => rfl
        | some rest =>
          simp only [Option.some_bind, Option.map_some', List.map_cons, concat_text_cons,
            String.append_assoc]

theorem dump_clump_text_eq (cs : collate_state) (c : clump) (hK : 1 ≤ cs.num_key_fields) :
    dump_clump_text cs c =
      (agg_field_texts cs.agg_instances c.aggregator_data).map (fun texts =>
        "\x7b" ++
        comma_separated
          ((List.range cs.num_key_fields).map (fun i =>
              key_field_text (cs.interesting_field_names.getD i "") (c.key_values.getD i none)) ++
            texts) ++
        "\x7d\n") := by
  obtain ⟨m, hm⟩ : ∃ m, cs.num_key_fields = m + 1 := ⟨cs.num_key_fields - 1, by omega⟩
  have hkeys : dump_clump_keys cs.interesting_field_names c.key_values (m + 1) 0 =
      key_field_text (cs.interesting_field_names.getD 0 "") (c.key_values.getD 0 none) ++
        concat_text ((List.range m).map (fun j => "," ++
          key_field_text (cs.interesting_field_names.getD (j + 1) "")
            (c.key_values.getD (j + 1) none))) := by
    rw [dump_clump_keys_eq, List.range_succ_eq_map, List.map_cons, List.map_map,
      concat_text_cons]
    have h : ((fun j => (if 0 + j ≠ 0 then "," else "") ++
          key_field_text (cs.interesting_field_names.getD (0 + j) "")
            (c.key_values.getD (0 + j) none)) ∘ Nat.succ) =
        (fun j => "," ++ key_field_text (cs.interesting_field_names.getD (j + 1) "")
            (c.key_values.getD (j + 1) none)) := by
      funext j
      simp [Function.comp]
    rw [h]
    simp
  have hlist : (List.range (m + 1)).map (fun i =>
        key_field_text (cs.interesting_field_names.getD i "") (c.key_values.getD i none)) =
      key_field_text (cs.interesting_field_names.getD 0 "") (c.key_values.getD 0 none) ::
        (List.range m).map (fun j =>
          key_field_text (cs.interesting_field_names.getD (j + 1) "")
            (c.key_values.getD (j + 1) none)) := by
    rw [List.range_succ_eq_map, List.map_cons, List.map_map]
    rfl
  unfold dump_clump_text
  rw [hm, hkeys, hlist, dump_clump_aggs_eq _ (by omega)]
  cases agg_field_texts cs.agg_instances c.aggregator_data with
  | none => rfl
  | some texts =>
    simp only [Option.map_some', Option.bind_eq_bind, Option.some_bind, Option.pure_def]
    rw [List.cons_append, comma_separated_cons, List.map_append, concat_text_append,
      List.map_map]
    simp only [String.append_assoc]
    rfl

/-- C10 (emitter format): with at least one key field, `dump_clump` writes an
opening brace, the fields of the key in table order, `"name":"value"` or
`"name":null`, then the fields of the aggregator instances in registration
order, `"output_field_name":` and the dump of the instance over its own data,
with one comma between every two consecutive fields and none elsewhere, then
a closing brace and a newline; it writes this when every dump gives its text,
and does not return when one gives none. -/
theorem emitter_format (cs : collate_state) (p : Nat) (c : clump)
    (hK : 1 ≤ cs.num_key_fields) (hc : cs.heap[p]? = some c) :
    dump_clump p cs =
      (agg_field_texts cs.agg_instances c.aggregator_data).map (fun texts =>
        { cs with
          stdout := cs.stdout ++ ("\x7b" ++
            comma_separated
              ((List.range cs.num_key_fields).map (fun i =>
                  key_field_text (cs.interesting_field_names.getD i "")
                    (c.key_values.getD i none)) ++
                texts) ++
            "\x7d\n") }) := by
  simp only [dump_clump, hc, Option.bind_eq_bind, Option.some_bind, Option.pure_def]
  rw [dump_clump_text_eq cs c hK]
  cases agg_field_texts cs.agg_instances c.aggregator_data <;> rfl

/-- C10, at a clump with key value a and count 2. -/
theorem emitter_format_witness :
    (1 ≤ 1 ∧ ([⟨[some "a", none], none, none, [.count_data 2]⟩] : List clump)[0]? =
      some ⟨[some "a", none], none, none, [.count_data 2]⟩) ∧
    (dump_clump 0 { adjacent_count_state "x" "count" "ALL" with
        heap := [⟨[some "a", none], none, none, [.count_data 2]⟩] }).map (fun s => s.stdout) =
      some "\x7b\"x\":\"a\",\"count\":2\x7d\n" := by
  refine ⟨⟨by decide, rfl⟩, ?_⟩
  rw [emitter_format { adjacent_count_state "x" "count" "ALL" with
        heap := [⟨[some "a", none], none, none, [.count_data 2]⟩] } 0
      ⟨[some "a", none], none, none, [.count_data 2]⟩ (by decide) rfl]
  decide

/-! ### No function writes the configuration -/

theorem dump_clump_same_config (p : Nat) (s s' : collate_state)
    (h : dump_clump p s = some s') : same_config s s' := by
  unfold dump_clump at h
  cases hc : s.heap[p]? with
  | none => simp [hc] at h
  | some c =>
    simp only [hc, Option.bind_eq_bind, Option.some_bind, Option.pure_def,
      Option.bind_eq_some, Option.some.injEq] at h
    obtain ⟨text, _, h⟩ := h
    subst h
    exact same_config_refl s

theorem lru_remove_same_config (p : Nat) (s s' : collate_state)
    (h : lru_remove s p = some s') : same_config s s' := by
  unfold lru_remove at h
  simp only [Option.bind_eq_bind, Option.bind_eq_some] at h
  obtain ⟨c, _, s1, h1, c1, _, h2⟩ := h
  have g1 : same_config s s1 := by
    split at h1
    · simp only [Option.bind_eq_some, Option.pure_def, Option.some.injEq] at h1
      obtain ⟨nx, _, h1⟩ := h1
      subst h1
      exact same_config_refl s
    · simp only [Option.pure_def, Option.some.injEq] at h1
      subst h1
      exact same_config_refl s
  have g2 : same_config s1 s' := by
    split at h2
    · simp only [Option.bind_eq_some, Option.pure_def, Option.some.injEq] at h2
      obtain ⟨nx, _, h2⟩ := h2
      subst h2
      exact same_config_refl s1
    · simp only [Option.pure_def, Option.some.injEq] at h2
      subst h2
      exact same_config_refl s1
  exact same_config_trans _ _ _ g1 g2

theorem lru_push_front_same_config (p : Nat) (s s' : collate_state)
    (h : lru_push_front s p = some s') : same_config s s' := by
  unfold lru_push_front at h
  simp only [Option.bind_eq_bind, Option.bind_eq_some] at h
  obtain ⟨c, _, s1, h1, h2⟩ := h
  simp only [Option.pure_def, Option.some.injEq] at h2
  subst h2
  split at h1
  · simp only [Option.bind_eq_some, Option.pure_def, Option.some.injEq] at h1
    obtain ⟨nx, _, h1⟩ := h1
    subst h1
    exact same_config_refl s
  · simp only [Option.pure_def, Option.some.injEq] at h1
    subst h1
    exact same_config_refl s

theorem lru_evict_same_config (s s' : collate_state) (p : Nat)
    (h : lru_evict s = some (s', p)) : same_config s s' := by
  unfold lru_evict at h
  simp only [Option.bind_eq_bind, Option.bind_eq_some] at h
  obtain ⟨t, _, c, _, s1, h1, s2, h2, h3⟩ := h
  simp only [Option.pure_def, Option.some.injEq, Prod.mk.injEq] at h3
  obtain ⟨h3, _⟩ := h3
  subst h3
  have g1 : same_config s s1 := by
    split at h1
    · simp only [Option.bind_eq_some, Option.pure_def, Option.some.injEq] at h1
      obtain ⟨nx, _, h1⟩ := h1
      subst h1
      exact same_config_refl s
    · simp only [Option.pure_def, Option.some.injEq] at h1
      subst h1
      exact same_config_refl s
  have g2 : same_config s1 s2 := by
    split at h2
    · exact dump_clump_same_config _ _ _ h2
    · simp only [Option.pure_def, Option.some.injEq] at h2
      subst h2
      exact same_config_refl s1
  exact same_config_trans _ _ _ g1 (same_config_trans _ _ _ g2 (same_config_refl _))

theorem init_clump_same_config (p : Nat) (k : List (Option String)) (s s' : collate_state)
    (h : init_clump s p k = some s') : same_config s s' := by
  unfold init_clump at h
  simp only [Option.bind_eq_bind, Option.bind_eq_some, Option.pure_def,
    Option.some.injEq] at h
  obtain ⟨c, _, h⟩ := h
  subst h
  exact same_config_refl s

theorem find_or_create_clump_same_config (k : List (Option String)) (s s' : collate_state)
    (p : Nat) (h : find_or_create_clump s k = some (s', p)) : same_config s s' := by
  unfold find_or_create_clump at h
  split at h
  · simp only [Option.bind_eq_bind, Option.bind_eq_some, Option.pure_def, Option.some.injEq,
      Prod.mk.injEq] at h
    obtain ⟨s1, h1, s2, h2, h3, _⟩ := h
    subst h3
    exact same_config_trans _ _ _ (lru_remove_same_config _ _ _ h1)
      (lru_push_front_same_config _ _ _ h2)
  · simp only [Option.bind_eq_bind, Option.bind_eq_some, Option.pure_def, Option.some.injEq,
      Prod.mk.injEq] at h
    obtain ⟨⟨s1, p1⟩, h1, s2, h2, s3, h3, h4, _⟩ := h
    subst h4
    have g1 : same_config s s1 := by
      split at h1
      · exact lru_evict_same_config _ _ _ h1
      · simp only [malloc_clump, Option.some.injEq, Prod.mk.injEq] at h1
        obtain ⟨h1, _⟩ := h1
        subst h1
        exact same_config_refl s
    exact same_config_trans _ _ _ g1 (same_config_trans _ _ _
      (init_clump_same_config _ _ _ _ h2) (lru_push_front_same_config _ _ _ h3))

theorem find_and_add_to_clump_same_config (vals : List (Option String))
    (d_vals : List double) (s s' : collate_state)
    (h : find_and_add_to_clump s vals d_vals = some s') : same_config s s' := by
  unfold find_and_add_to_clump at h
  simp only [Option.bind_eq_bind, Option.bind_eq_some] at h
  obtain ⟨⟨s1, p⟩, h1, c, _, d, _, h2⟩ := h
  have g1 := find_or_create_clump_same_config _ _ _ _ h1
  split at h2
  · have g2 := dump_clump_same_config _ _ _ h2
    exact same_config_trans _ _ _ g1 g2
  · simp only [Option.pure_def, Option.some.injEq] at h2
    subst h2
    exact g1

/-! ### C7: the cube loop -/

theorem cube_vals_congr (s s' : collate_state) (h : same_config s s')
    (vals : List (Option String)) (dbl_vals : List double) (i : Nat) :
    cube_vals s' vals dbl_vals i = cube_vals s vals dbl_vals i := by
  obtain ⟨_, _, _, _, g5, g6, _, _⟩ := h
  simp only [cube_vals, g5, g6]

theorem cube_loop_eq (vals : List (Option String)) (dbl_vals : List double) (n : Nat) :
    ∀ (i : Nat) (s : collate_state),
    cube_loop vals dbl_vals n i s =
      add_each ((List.range' i n).map (cube_vals s vals dbl_vals)) s := by
  induction n with
  | zero =>
    intro i s
    rfl
  | succ n ih =>
    intro i s
    simp only [cube_loop, List.range'_succ, List.map_cons, add_each, Option.bind_eq_bind]
    cases h : find_and_add_to_clump s (cube_vals s vals dbl_vals i).1
        (cube_vals s vals dbl_vals i).2 with
    | none => rfl
    | some s1 =>
      simp only [Option.some_bind]
      rw [ih (i + 1) s1]
      have hc := find_and_add_to_clump_same_config _ _ _ _ h
      have hf : cube_vals s1 vals dbl_vals = cube_vals s vals dbl_vals := by
        funext j
        exact cube_vals_congr s s1 hc vals dbl_vals j
      rw [hf]

theorem shl_one_and (j i : Nat) (hj : j < 32) : (shl_one j &&& i ≠ 0) ↔ i.testBit j = true := by
  have h1 : shl_one j = 2 ^ j := by
    unfold shl_one
    rw [Nat.mod_eq_of_lt hj]
  rw [h1, Nat.land_comm, Nat.and_two_pow]
  cases i.testBit j <;> simp

theorem main_cube_max_eq (K : Nat) (hK : K ≤ 30) : main_cube_max true K = ((2 ^ K : Nat) : Int) := by
  have h1 : 2 ^ K ≤ 2 ^ 30 := Nat.pow_le_pow_right (by omega) hK
  have h2 : 2 ^ K % 2 ^ 32 = 2 ^ K := Nat.mod_eq_of_lt (by omega)
  have h3 : K % 32 = K := Nat.mod_eq_of_lt (by omega)
  simp only [main_cube_max, if_true, int_of_bits, shl_one, h3, h2]
  rw [if_pos (by omega)]

theorem getD_map_range {α : Type} (f : Nat → α) (n j : Nat) (d : α) (hj : j < n) :
    ((List.range n).map f).getD j d = f j := by
  simp [List.getD_eq_getElem?_getD, List.getElem?_range hj]

theorem main_cube_max_toNat (cube : Bool) (K : Nat) (hK : K ≤ 30) :
    (main_cube_max cube K).toNat = if cube then 2 ^ K else 1 := by
  cases cube with
  | false => rfl
  | true =>
    rw [main_cube_max_eq _ hK]
    exact Int.toNat_ofNat _

theorem object_callback_eq_add_each (L : libc) (s : collate_state)
    (vals : List (Option String)) (n : Nat) (hn : s.cube_max.toNat = n) :
    object_callback L s vals =
      add_each ((List.range n).map
        (cube_vals s vals (dbl_vals_of L s.num_interesting_fields vals))) s := by
  simp only [object_callback, hn, dbl_vals_of]
  rw [cube_loop_eq]
  simp only [List.range_eq_range']

theorem cube_vals_getD (L : libc) (s : collate_state) (vals : List (Option String))
    (i j : Nat) (hj : j < s.num_interesting_fields) (hj32 : j < 32) :
    (cube_vals s vals (dbl_vals_of L s.num_interesting_fields vals) i).1.getD j none =
      (if i.testBit j then some s.cube_default else vals.getD j none) ∧
    (cube_vals s vals (dbl_vals_of L s.num_interesting_fields vals) i).2.getD j .nan =
      (if i.testBit j then .nan else dbl_val L (vals.getD j none)) := by
  simp only [cube_vals, dbl_vals_of]
  rw [getD_map_range _ _ _ _ hj, getD_map_range _ _ _ _ hj, getD_map_range _ _ _ _ hj]
  by_cases hb : i.testBit j = true
  · simp [(shl_one_and j i hj32).2 hb, hb]
  · have hb' : ¬ (shl_one j &&& i ≠ 0) := fun h => hb ((shl_one_and j i hj32).1 h)
    simp only [if_neg hb', hb]
    simp

/-- C7 (cube substitution), amended: with at most 30 key fields,
`object_callback` calls `find_and_add_to_clump` once for each mask 0, 1, ...,
2^K - 1 in increasing order when cubing is enabled and once, for mask 0, when
it is not; at every position `j` of a key field the arrays passed for a mask
hold the cube default text and NaN when bit `j` of the mask is set, and the
text and the numeric value of the record otherwise. -/
theorem cube_substitution (L : libc) (s : collate_state) (vals : List (Option String))
    (cube : Bool) (hK : s.num_key_fields ≤ 30)
    (hKn : s.num_key_fields ≤ s.num_interesting_fields)
    (hmax : s.cube_max = main_cube_max cube s.num_key_fields) :
    object_callback L s vals =
      add_each ((List.range (if cube then 2 ^ s.num_key_fields else 1)).map
        (cube_vals s vals (dbl_vals_of L s.num_interesting_fields vals))) s ∧
    ∀ i j, j < s.num_key_fields →
      (cube_vals s vals (dbl_vals_of L s.num_interesting_fields vals) i).1.getD j none =
        (if i.testBit j then some s.cube_default else vals.getD j none) ∧
      (cube_vals s vals (dbl_vals_of L s.num_interesting_fields vals) i).2.getD j .nan =
        (if i.testBit j then .nan else dbl_val L (vals.getD j none)) :=
  ⟨object_callback_eq_add_each L s vals _ (by rw [hmax]; exact main_cube_max_toNat cube _ hK),
    fun i j hj => cube_vals_getD L s vals i j (by omega) (by omega)⟩

/-- C7, at one key field with cubing. -/
theorem cube_substitution_witness :
    ((1 : Nat) ≤ 30 ∧ (1 : Nat) ≤ 1 ∧ main_cube_max true 1 = main_cube_max true 1) ∧
    (object_callback example_libc cube_count_state [some "a"] =
      add_each ((List.range (if true then 2 ^ 1 else 1)).map
        (cube_vals cube_count_state [some "a"] (dbl_vals_of example_libc 1 [some "a"])))
        cube_count_state ∧
    ∀ i j, j < 1 →
      (cube_vals cube_count_state [some "a"] (dbl_vals_of example_libc 1 [some "a"]) i).1.getD
          j none =
        (if i.testBit j then some "ALL" else [some "a"].getD j none) ∧
      (cube_vals cube_count_state [some "a"] (dbl_vals_of example_libc 1 [some "a"]) i).2.getD
          j .nan =
        (if i.testBit j then .nan else dbl_val example_libc ([some "a"].getD j none))) :=
  ⟨⟨by decide, by decide, rfl⟩,
    cube_substitution example_libc cube_count_state [some "a"] true (by decide) (by decide) rfl⟩

/-- C7 as stated fails at 31 key fields: `1 << 31` is negative as an `int`,
the loop of `object_callback` runs no round, and the record is added to no
clump, not even under mask 0. -/
theorem cube_no_mask_at_31_keys :
    main_cube_max true 31 = -2147483648 ∧
    (object_callback example_libc
        (start_state MAX_CLUMPS_INFINITE false [count_instance "count"] (main_cube_max true 31)
          "ALL" 31 31 (field_names 31)) (List.replicate 31 (some "a"))).map
        (fun s => (s.clump_table, s.heap.length)) = some ([], 0) := by
  decide

/-! ### Every record is processed: the table and the list stay in step -/

theorem max_clumps_ok_congr (s s' : collate_state) (h : same_config s s')
    (hcap : max_clumps_ok s) : max_clumps_ok s' := by
  unfold max_clumps_ok
  rw [h.1]
  exact hcap

theorem same_config_totals (s s' : collate_state) (h : same_config s s')
    (ha : adds_total s) (hd : dumps_total s) : adds_total s' ∧ dumps_total s' := by
  obtain ⟨_, _, g3, _⟩ := h
  unfold adds_total at ha ⊢
  unfold dumps_total at hd ⊢
  rw [g3]
  exact ⟨ha, hd⟩

theorem add_each_wf (args : List (List (Option String) × List double)) :
    ∀ (s : collate_state) (l : List Nat), table_lru s l → max_clumps_ok s →
    (add_each args s).isSome = true →
    ∃ s' l', add_each args s = some s' ∧ table_lru s' l' ∧ same_config s s' := by
  induction args with
  | nil =>
    intro s l hwf _ _
    exact ⟨s, l, rfl, hwf, same_config_refl s⟩
  | cons a rest ih =>
    intro s l hwf hcap hret
    have hret1 : (find_and_add_to_clump s a.1 a.2).isSome = true := by
      cases e : find_and_add_to_clump s a.1 a.2 with
      | none => simp [add_each, e] at hret
      | some r => rfl
    obtain ⟨_, p, s1, _, _, _, _, _, e1, hwf1, hcfg1, _⟩ :=
      find_and_add_to_clump_step s l a.1 a.2 hwf hcap hret1
    obtain ⟨s', l', e2, hwf', hcfg'⟩ := ih s1 _ hwf1 (max_clumps_ok_congr s s1 hcfg1 hcap)
      (by simpa [add_each, e1] using hret)
    exact ⟨s', l', by simp [add_each, e1, e2], hwf', same_config_trans _ _ _ hcfg1 hcfg'⟩

/-- A sequence of calls of `find_and_add_to_clump` returns when every add
gives new data and every dump a text. -/
theorem add_each_returns (args : List (List (Option String) × List double)) :
    ∀ (s : collate_state) (l : List Nat), table_lru s l → max_clumps_ok s →
    adds_total s → dumps_total s → (add_each args s).isSome = true := by
  induction args with
  | nil =>
    intro s l _ _ _ _
    rfl
  | cons a rest ih =>
    intro s l hwf hcap ha hd
    have hret1 := find_and_add_to_clump_returns s l a.1 a.2 hwf hcap ha hd
    obtain ⟨_, p, s1, _, _, _, _, _, e1, hwf1, hcfg1, _⟩ :=
      find_and_add_to_clump_step s l a.1 a.2 hwf hcap hret1
    obtain ⟨ha1, hd1⟩ := same_config_totals s s1 hcfg1 ha hd
    have h2 := ih s1 _ hwf1 (max_clumps_ok_congr s s1 hcfg1 hcap) ha1 hd1
    simpa [add_each, e1] using h2

/-- One record, in any configuration whose `max_clumps` is unbounded or
positive: when `object_callback` returns, the clump table and the LRU list
still hold the same clumps. -/
theorem object_callback_wf (L : libc) (s : collate_state) (l : List Nat)
    (vals : List (Option String)) (hwf : table_lru s l) (hcap : max_clumps_ok s)
    (hret : (object_callback L s vals).isSome = true) :
    ∃ s' l', object_callback L s vals = some s' ∧ table_lru s' l' ∧ same_config s s' := by
  rw [object_callback_eq_add_each L s vals _ rfl] at hret ⊢
  exact add_each_wf _ s l hwf hcap hret

/-- One record: `object_callback` returns when every add gives new data and
every dump a text. -/
theorem object_callback_returns (L : libc) (s : collate_state) (l : List Nat)
    (vals : List (Option String)) (hwf : table_lru s l) (hcap : max_clumps_ok s)
    (ha : adds_total s) (hd : dumps_total s) : (object_callback L s vals).isSome = true := by
  rw [object_callback_eq_add_each L s vals _ rfl]
  exact add_each_returns _ s l hwf hcap ha hd

/-- All records of an input: when `process_records` returns, the clump table
and the LRU list still hold the same clumps. -/
theorem process_records_wf (L : libc) (records : List (List (Option String))) :
    ∀ (s : collate_state) (l : List Nat), table_lru s l → max_clumps_ok s →
    (process_records L records s).isSome = true →
    ∃ s' l', process_records L records s = some s' ∧ table_lru s' l' ∧ same_config s s' := by
  induction records with
  | nil =>
    intro s l hwf _ _
    exact ⟨s, l, rfl, hwf, same_config_refl s⟩
  | cons r rest ih =>
    intro s l hwf hcap hret
    have hret1 : (object_callback L s r).isSome = true := by
      cases e : object_callback L s r with
      | none => simp [process_records, e] at hret
      | some r => rfl
    obtain ⟨s1, l1, e1, hwf1, hcfg1⟩ := object_callback_wf L s l r hwf hcap hret1
    obtain ⟨s', l', e2, hwf', hcfg'⟩ := ih s1 l1 hwf1 (max_clumps_ok_congr s s1 hcfg1 hcap)
      (by simpa [process_records, e1] using hret)
    exact ⟨s', l', by simp [process_records, e1, e2], hwf',
      same_config_trans _ _ _ hcfg1 hcfg'⟩

/-- All records of an input: `process_records` returns when every add gives
new data and every dump a text. -/
theorem process_records_returns (L : libc) (records : List (List (Option String))) :
    ∀ (s : collate_state) (l : List Nat), table_lru s l → max_clumps_ok s →
    adds_total s → dumps_total s → (process_records L records s).isSome = true := by
  induction records with
  | nil =>
    intro s l _ _ _ _
    rfl
  | cons r rest ih =>
    intro s l hwf hcap ha hd
    have hret1 := object_callback_returns L s l r hwf hcap ha hd
    obtain ⟨s1, l1, e1, hwf1, hcfg1⟩ := object_callback_wf L s l r hwf hcap hret1
    obtain ⟨ha1, hd1⟩ := same_config_totals s s1 hcfg1 ha hd
    have h2 := ih s1 l1 hwf1 (max_clumps_ok_congr s s1 hcfg1 hcap) ha1 hd1
    simpa [process_records, e1] using h2

/-! ### C8: the clumps of the cube expansion -/

/-- The early return of `hash_comp_func` in the cube expansion: for a record
without any of the key fields x, y, z the masks 2 and 4 give different key
tuples with the same `hash_func` value, and both are added to one clump. -/
theorem cube_absent_keys_share_clump :
    (cube_vals cube_three_keys_state [none, none, none]
        (dbl_vals_of example_libc 3 [none, none, none]) 2).1 = [none, some "ALL", none] ∧
    (cube_vals cube_three_keys_state [none, none, none]
        (dbl_vals_of example_libc 3 [none, none, none]) 4).1 = [none, none, some "ALL"] ∧
    (∀ hashlittle, hash_func hashlittle 3 [none, some "ALL", none] =
      hash_func hashlittle 3 [none, none, some "ALL"]) ∧
    (added_clumps ((List.range (2 ^ 3)).map
        (cube_vals cube_three_keys_state [none, none, none]
          (dbl_vals_of example_libc 3 [none, none, none]))) cube_three_keys_state).map
        (fun ps => ps.getD 2 0 == ps.getD 4 1) = some true := by
  refine ⟨by decide, by decide, fun _ => rfl, by decide⟩

/-! ### C9: the cube check of `main` -/

theorem main_finish_cube_error (v : main_vars) (hfields : v.fields ≠ [])
    (hK : count_key_fields v.fields ≤ 30) :
    main_finish v = .usage_err cube_error ↔
      (v.cube = true ∧ v.cs.max_clumps ≠ MAX_CLUMPS_INFINITE ∧
        v.cs.max_clumps < 2 ^ count_key_fields v.fields) := by
  have hlen : ¬ v.fields.length = 0 := fun h => hfields (List.length_eq_zero.1 h)
  have hpow : main_cube_max true (count_key_fields v.fields) =
      ((2 ^ count_key_fields v.fields : Nat) : Int) := main_cube_max_eq _ hK
  simp only [main_cube_max, if_true] at hpow
  simp only [count_key_fields] at hpow hK ⊢
  simp only [main_finish, if_neg hlen, List.length_map]
  by_cases hc : v.cube = true
  · simp only [hc, if_true, true_and, hpow]
    by_cases h2 : v.cs.max_clumps ≠ MAX_CLUMPS_INFINITE ∧
        v.cs.max_clumps < ((2 ^ (v.fields.filter (fun f => f.is_key)).length : Nat) : Int)
    · rw [if_pos h2]
      simp only [cube_error, true_iff]
      exact ⟨h2.1, by exact_mod_cast h2.2⟩
    · rw [if_neg h2]
      constructor
      · intro h
        cases h
      · intro h
        exact absurd ⟨h.1, by exact_mod_cast h.2⟩ h2
  · have hc' : v.cube = false := by simpa using hc
    simp [hc']

/-- C9 as stated fails at 31 key fields: `--cube --size 2147483647` with 31
keys is not rejected although `max_clumps` is less than 2^31; no `int` value
of `cube_max` is greater than this `max_clumps`. -/
theorem cube_size_check_fails_at_31_keys :
    (match main_config example_libc [count_aggregator]
        ["--cube", "--size", "2147483647", "--key",
          "a,b,c,d,e,f,g,h,i,j,k,l,m,n,o,p,q,r,s,t,u,v,w,x,y,z,A,B,C,D,E"] with
      | .ok cs => some (cs.max_clumps, cs.num_key_fields, cs.cube_max)
      | _ => none) = some (2147483647, 31, -2147483648) ∧
    (2147483647 : Int) < 2 ^ 31 := by
  decide

/-! ### C12: minimum and maximum -/

theorem double_lt_trans (a b c : double) (h1 : a.lt b = true) (h2 : b.lt c = true) :
    a.lt c = true := by
  cases a <;> cases b <;> cases c <;> simp_all [double.lt]
  exact lt_trans h1 h2

theorem double_le_trans (a b c : double) (h1 : a.le b) (h2 : b.le c) : a.le c := by
  rcases h1 with h1 | h1
  · rcases h2 with h2 | h2
    · exact Or.inl (double_lt_trans a b c h1 h2)
    · subst h2
      exact Or.inl h1
  · subst h1
    exact h2

theorem double_le_of_not_lt (a b : double) (ha : isnan a = false) (hb : isnan b = false)
    (h : a.lt b = false) : b.le a := by
  cases a <;> cases b <;> simp_all [double.lt, double.le, isnan]
  exact lt_or_eq_of_le h

theorem min_add_all (c : agg_config) (obs : List (List (Option String) × List double)) :
    ∀ m0, isnan m0 = false →
    ∃ m, add_all min_add c (.min_data m0) obs = some (.min_data m) ∧ isnan m = false ∧
      (m = m0 ∨ m ∈ observed obs) ∧ m.le m0 ∧ ∀ x ∈ observed obs, m.le x := by
  induction obs with
  | nil =>
    intro m0 h0
    exact ⟨m0, rfl, h0, Or.inl rfl, Or.inr rfl, by simp [observed]⟩
  | cons a rest ih =>
    intro m0 h0
    by_cases hx : isnan (a.2.getD 0 .nan) = true
    · obtain ⟨m, e, hm, h1, h2, h3⟩ := ih m0 h0
      have hobs : observed (a :: rest) = observed rest := by
        simp only [observed, List.map_cons, List.filter_cons, hx, Bool.not_true, Bool.false_eq_true, if_false]
      refine ⟨m, ?_, hm, by rw [hobs]; exact h1, h2, by rw [hobs]; exact h3⟩
      simp only [add_all, min_add, hx, Bool.not_true, Bool.false_and, Option.some_bind]
      exact e
    · have hx' : isnan (a.2.getD 0 .nan) = false := by simpa using hx
      have hobs : observed (a :: rest) = a.2.getD 0 .nan :: observed rest := by
        simp only [observed, List.map_cons, List.filter_cons, hx', Bool.not_false, if_true]
      by_cases hlt : (a.2.getD 0 .nan).lt m0 = true
      · obtain ⟨m, e, hm, h1, h2, h3⟩ := ih (a.2.getD 0 .nan) hx'
        refine ⟨m, ?_, hm, ?_, double_le_trans _ _ _ h2 (Or.inl hlt), ?_⟩
        · simp only [add_all, min_add, hx', hlt, Bool.not_false, Bool.and_self, if_true,
            Option.some_bind]
          exact e
        · right
          rw [hobs]
          rcases h1 with h1 | h1
          · rw [h1]
            exact List.mem_cons_self _ _
          · exact List.mem_cons_of_mem _ h1
        · intro x hm'
          rw [hobs] at hm'
          rcases List.mem_cons.1 hm' with e' | hm'
          · rw [e']
            exact h2
          · exact h3 x hm'
      · have hlt' : (a.2.getD 0 .nan).lt m0 = false := by simpa using hlt
        obtain ⟨m, e, hm, h1, h2, h3⟩ := ih m0 h0
        refine ⟨m, ?_, hm, ?_, h2, ?_⟩
        · simp only [add_all, min_add, hx', hlt', Bool.not_false, Bool.and_false, if_false,
            Option.some_bind]
          exact e
        · rcases h1 with h1 | h1
          · exact Or.inl h1
          · right
            rw [hobs]
            exact List.mem_cons_of_mem _ h1
        · intro x hm'
          rw [hobs] at hm'
          rcases List.mem_cons.1 hm' with e' | hm'
          · rw [e']
            exact double_le_trans _ _ _ h2 (double_le_of_not_lt _ _ hx' h0 hlt')
          · exact h3 x hm'

theorem max_add_all (c : agg_config) (obs : List (List (Option String) × List double)) :
    ∀ m0, isnan m0 = false →
    ∃ m, add_all max_add_func c (.max_data m0) obs = some (.max_data m) ∧ isnan m = false ∧
      (m = m0 ∨ m ∈ observed obs) ∧ m0.le m ∧ ∀ x ∈ observed obs, x.le m := by
  induction obs with
  | nil =>
    intro m0 h0
    exact ⟨m0, rfl, h0, Or.inl rfl, Or.inr rfl, by simp [observed]⟩
  | cons a rest ih =>
    intro m0 h0
    by_cases hx : isnan (a.2.getD 0 .nan) = true
    · obtain ⟨m, e, hm, h1, h2, h3⟩ := ih m0 h0
      have hobs : observed (a :: rest) = observed rest := by
        simp only [observed, List.map_cons, List.filter_cons, hx, Bool.not_true,
          Bool.false_eq_true, if_false]
      refine ⟨m, ?_, hm, by rw [hobs]; exact h1, h2, by rw [hobs]; exact h3⟩
      simp only [add_all, max_add_func, hx, Bool.not_true, Bool.false_and, Option.some_bind]
      exact e
    · have hx' : isnan (a.2.getD 0 .nan) = false := by simpa using hx
      have hobs : observed (a :: rest) = a.2.getD 0 .nan :: observed rest := by
        simp only [observed, List.map_cons, List.filter_cons, hx', Bool.not_false, if_true]
      by_cases hlt : m0.lt (a.2.getD 0 .nan) = true
      · obtain ⟨m, e, hm, h1, h2, h3⟩ := ih (a.2.getD 0 .nan) hx'
        refine ⟨m, ?_, hm, ?_, double_le_trans _ _ _ (Or.inl hlt) h2, ?_⟩
        · simp only [add_all, max_add_func, hx', hlt, Bool.not_false, Bool.and_self, if_true,
            Option.some_bind]
          exact e
        · right
          rw [hobs]
          rcases h1 with h1 | h1
          · rw [h1]
            exact List.mem_cons_self _ _
          · exact List.mem_cons_of_mem _ h1
        · intro x hm'
          rw [hobs] at hm'
          rcases List.mem_cons.1 hm' with e' | hm'
          · rw [e']
            exact h2
          · exact h3 x hm'
      · have hlt' : m0.lt (a.2.getD 0 .nan) = false := by simpa using hlt
        obtain ⟨m, e, hm, h1, h2, h3⟩ := ih m0 h0
        refine ⟨m, ?_, hm, ?_, h2, ?_⟩
        · simp only [add_all, max_add_func, hx', hlt', Bool.not_false, Bool.and_false, if_false,
            Option.some_bind]
          exact e
        · rcases h1 with h1 | h1
          · exact Or.inl h1
          · right
            rw [hobs]
            exact List.mem_cons_of_mem _ h1
        · intro x hm'
          rw [hobs] at hm'
          rcases List.mem_cons.1 hm' with e' | hm'
          · rw [e']
            exact double_le_trans _ _ _ (double_le_of_not_lt _ _ h0 hx' hlt') h2
          · exact h3 x hm'

/-- C12 (min/max): from `min_init`, the calls of `min_add` on any sequence of
observations leave the least of the observed numbers (those that are not NaN)
in the data, and `+infinity` when there is none; from `max_init`, the calls of
`max_add` leave the greatest, and `-infinity` when there is none. -/
theorem min_max_exact (c : agg_config) (obs : List (List (Option String) × List double)) :
    (∃ m, add_all min_add c (min_init c) obs = some (.min_data m) ∧
      (observed obs = [] → m = .pinf) ∧ (observed obs ≠ [] → m ∈ observed obs) ∧
      ∀ x ∈ observed obs, m.le x) ∧
    (∃ m, add_all max_add_func c (max_init c) obs = some (.max_data m) ∧
      (observed obs = [] → m = .ninf) ∧ (observed obs ≠ [] → m ∈ observed obs) ∧
      ∀ x ∈ observed obs, x.le m) := by
  constructor
  · obtain ⟨m, e, _, h1, _, h3⟩ := min_add_all c obs .pinf rfl
    refine ⟨m, e, ?_, ?_, h3⟩
    · intro h
      rw [h] at h1
      simpa using h1
    · intro hne
      rcases h1 with h1 | h1
      · obtain ⟨x, hx⟩ := List.exists_mem_of_ne_nil _ hne
        have h4 := h3 x hx
        rw [h1] at h4 ⊢
        rcases h4 with h4 | h4
        · cases x <;> simp [double.lt] at h4
        · rw [h4]
          exact hx
      · exact h1
  · obtain ⟨m, e, _, h1, _, h3⟩ := max_add_all c obs .ninf rfl
    refine ⟨m, e, ?_, ?_, h3⟩
    · intro h
      rw [h] at h1
      simpa using h1
    · intro hne
      rcases h1 with h1 | h1
      · obtain ⟨x, hx⟩ := List.exists_mem_of_ne_nil _ hne
        have h4 := h3 x hx
        rw [h1] at h4 ⊢
        rcases h4 with h4 | h4
        · cases x <;> simp [double.lt] at h4
        · rw [← h4]
          exact hx
      · exact h1

/-! ### C13: observations that are NaN -/

/-- A call that leaves every data as it is can be taken out of a sequence of
calls. -/
theorem add_all_skip
    (add_func : agg_config → agg_data → List (Option String) → List double → Option agg_data)
    (c : agg_config) (a : List (Option String) × List double)
    (h : ∀ d, add_func c d a.1 a.2 = some d)
    (before after : List (List (Option String) × List double)) :
    ∀ d0, add_all add_func c d0 (before ++ a :: after) =
      add_all add_func c d0 (before ++ after) := by
  induction before with
  | nil =>
    intro d0
    simp only [List.nil_append, add_all, h, Option.some_bind]
  | cons b before ih =>
    intro d0
    simp only [List.cons_append, add_all]
    cases add_func c d0 b.1 b.2 with
    | none => rfl
    | some d1 => exact ih d1

/-- C13 (skip-NaN): for the aggregators sum, average, minimum, maximum,
variance, percentile and covariance of the table, a call of `add_func` whose
numeric input is NaN (for covariance: one of its two inputs) returns the data
unchanged, whatever the data; so a sequence of calls with such a call
anywhere in it leaves the same data, and `dump_func` writes the same text, as
the sequence without it. -/
theorem skip_nan (L : libc) (hash_scan : List (String × double) → List (String × double))
    (agg : aggregator) (hagg : agg ∈ aggregators L hash_scan)
    (hname : agg.name ∈
      ["sum", "average", "minimum", "maximum", "variance", "percentile", "covariance"])
    (c : agg_config) (ch_data : List (Option String)) (num_data : List double)
    (hnan : isnan (num_data.getD 0 .nan) = true ∨
      (agg.name = "covariance" ∧ isnan (num_data.getD 1 .nan) = true)) :
    (∀ d, agg.add_func c d ch_data num_data = some d) ∧
    ∀ d0 before after,
      add_all agg.add_func c d0 (before ++ (ch_data, num_data) :: after) =
        add_all agg.add_func c d0 (before ++ after) ∧
      (add_all agg.add_func c d0 (before ++ (ch_data, num_data) :: after)).bind
          (agg.dump_func c) =
        (add_all agg.add_func c d0 (before ++ after)).bind (agg.dump_func c) := by
  have hadd : ∀ d, agg.add_func c d ch_data num_data = some d := by
    simp only [aggregators, List.mem_cons, List.mem_singleton, List.not_mem_nil, or_false]
      at hagg
    rcases hagg with e | e | e | e | e | e | e | e | e | e | e <;> subst e
    · rcases hnan with h | ⟨h, _⟩
      · intro d
        cases d <;> simp only [avg_add, h, Bool.not_true, Bool.false_eq_true, if_false, Bool.false_and]
      · simp at h
    · simp at hname
    · simp [count_aggregator] at hname
    · simp at hname
    · intro d
      rcases hnan with h | ⟨_, h⟩ <;> cases d <;>
        simp only [cov_add, h, Bool.not_true, Bool.false_eq_true, if_false, Bool.false_and,
          Bool.and_false]
    · rcases hnan with h | ⟨h, _⟩
      · intro d
        cases d <;> simp only [max_add_func, h, Bool.not_true, Bool.false_eq_true, if_false, Bool.false_and]
      · simp at h
    · rcases hnan with h | ⟨h, _⟩
      · intro d
        cases d <;> simp only [min_add, h, Bool.not_true, Bool.false_eq_true, if_false, Bool.false_and]
      · simp at h
    · simp at hname
    · rcases hnan with h | ⟨h, _⟩
      · intro d
        cases d <;> simp only [perc_add, h, Bool.not_true, Bool.false_eq_true, if_false, Bool.false_and]
      · simp at h
    · rcases hnan with h | ⟨h, _⟩
      · intro d
        cases d <;> simp only [sum_aggregator, sum_add, h, Bool.not_true, Bool.false_eq_true, if_false]
      · simp [sum_aggregator] at h
    · rcases hnan with h | ⟨h, _⟩
      · intro d
        cases d <;> simp only [var_add, h, Bool.not_true, Bool.false_eq_true, if_false, Bool.false_and]
      · simp at h
  refine ⟨hadd, fun d0 before after => ?_⟩
  have h := add_all_skip agg.add_func c (ch_data, num_data) hadd before after d0
  exact ⟨h, by rw [h]⟩

/-- C13, at the aggregator sum and an absent input. -/
theorem skip_nan_witness :
    (sum_aggregator example_libc ∈ aggregators example_libc List.reverse ∧
      (sum_aggregator example_libc).name ∈
        ["sum", "average", "minimum", "maximum", "variance", "percentile", "covariance"] ∧
      isnan (([.nan] : List double).getD 0 .nan) = true) ∧
    (sum_aggregator example_libc).add_func .null (.sum_data (.fin 3)) [none] [.nan] =
      some (.sum_data (.fin 3)) :=
  ⟨⟨by simp [aggregators], by decide, rfl⟩,
    (skip_nan example_libc List.reverse (sum_aggregator example_libc) (by simp [aggregators])
      (by decide) .null [none] [.nan] (Or.inl rfl)).1 (.sum_data (.fin 3))⟩

/-! ### C14: correlation and one NaN input -/

/-- C14: a call of `corr_add` with the numbers 1 and NaN changes the data:
`cov_add` skips the pair and the second `var_add` skips the NaN, but the first
`var_add` counts the 1 (count, sum of squares and sum of `var_data1` go from 0
to 1). With `--perfect --key k --aggregator c=correlation,x,y` the record
`{"k":"a","x":"1"}`, which has no field y, changes the data of its clump in
this way. -/
theorem corr_add_counts_half_pair :
    isnan (([.fin 1, .nan] : List double).getD 1 .nan) = true ∧
    corr_add .null (corr_init .null) [some "1", none] [.fin 1, .nan] =
      some (.corr_data (cov_init .null) (.var_data (.fin 1) (.fin 1) (.fin 1))
        (var_init .null)) ∧
    corr_add .null (corr_init .null) [some "1", none] [.fin 1, .nan] ≠
      some (corr_init .null) ∧
    cov_add .null (cov_init .null) [some "1", none] [.fin 1, .nan] = some (cov_init .null) ∧
    (match main_config example_libc (aggregators example_libc (fun t => t))
        ["--perfect", "--key", "k", "--aggregator", "c=correlation,x,y"] with
      | .ok cs =>
        (process_records example_libc [[some "a", some "1", none]] cs).map
          (fun s => s.heap.map (fun c => c.aggregator_data))
      | _ => none) =
      some [[.corr_data (cov_init .null) (.var_data (.fin 1) (.fin 1) (.fin 1))
        (var_init .null)]] := by
  decide!

/-! ### C15: the value of a percentile -/

theorem qsort_insert_perm {α : Type} (compar : α → α → Int) (x : α) (l : List α) :
    (qsort_insert compar x l).Perm (x :: l) := by
  induction l with
  | nil => exact List.Perm.refl _
  | cons y ys ih =>
    simp only [qsort_insert]
    split
    · exact List.Perm.refl _
    · exact (List.Perm.cons y ih).trans (List.Perm.swap x y ys)

theorem qsort_perm {α : Type} (compar : α → α → Int) (l : List α) :
    (qsort compar l).Perm l := by
  induction l with
  | nil => exact List.Perm.refl _
  | cons x xs ih => exact (qsort_insert_perm compar x _).trans (List.Perm.cons x ih)

theorem round_half_even_cases (m : ℚ) :
    round_half_even m = ⌊m⌋ ∨ round_half_even m = ⌊m⌋ + 1 := by
  have hfl : Rat.floor m = ⌊m⌋ := rfl
  unfold round_half_even
  rw [hfl]
  split_ifs <;> simp

theorem round_half_even_ge (m : ℚ) : m - 1 / 2 ≤ (round_half_even m : ℚ) := by
  have hfl : Rat.floor m = ⌊m⌋ := rfl
  have h1 := Int.lt_floor_add_one m
  unfold round_half_even
  rw [hfl]
  split_ifs with c1 c2 c3
  · linarith
  · push_cast; linarith
  · linarith
  · push_cast; linarith

theorem round_half_even_int (k : Int) : round_half_even (k : ℚ) = k := by
  have hfl : Rat.floor (k : ℚ) = ⌊(k : ℚ)⌋ := rfl
  unfold round_half_even
  rw [hfl, Int.floor_intCast]
  simp

theorem round_half_even_mono_ge (m : ℚ) (k : Int) (h : (k : ℚ) ≤ m) : k ≤ round_half_even m := by
  have h1 : k ≤ ⌊m⌋ := Int.le_floor.2 h
  rcases round_half_even_cases m with e | e <;> omega

theorem round_half_even_mono_le (m : ℚ) (k : Int) (h : m ≤ (k : ℚ)) : round_half_even m ≤ k := by
  rcases eq_or_lt_of_le h with e | e
  · rw [e, round_half_even_int]
  · have h1 : ⌊m⌋ < k := Int.floor_lt.2 e
    rcases round_half_even_cases m with e | e <;> omega

theorem binary64_pos (q : ℚ) (hq : 0 < q) :
    (double.fin q).binary64 =
      if (2 : ℚ) ^ (1024 : Int) ≤ round_half_even (q / binary64_ulp q) * binary64_ulp q then .pinf
      else .fin (round_half_even (q / binary64_ulp q) * binary64_ulp q) := by
  simp only [double.binary64, if_neg hq.ne', abs_of_pos hq, if_pos hq]

theorem binary64_zero : (double.fin 0).binary64 = .fin 0 := by
  simp only [double.binary64, if_true]

theorem int_log_two_lt (q : ℚ) (k : Int) (hq : 0 < q) (h2 : q < 2 ^ k) : Int.log 2 q < k :=
  (Int.lt_zpow_iff_log_lt (b := 2) (by norm_num) hq).1 (by simpa only [Nat.cast_ofNat] using h2)

/-- A natural number below 2^53 is a binary64 number. -/
theorem binary64_nat (n : Nat) (hn : n < 2 ^ 53) : (double.fin (n : ℚ)).binary64 = .fin n := by
  rcases Nat.eq_zero_or_pos n with e | hpos
  · subst e
    simp only [Nat.cast_zero, binary64_zero]
  · have hq : (0 : ℚ) < n := by exact_mod_cast hpos
    have h1 : (1 : ℚ) ≤ n := by exact_mod_cast hpos
    have hlt : (n : ℚ) < 2 ^ (53 : Int) := by
      rw [show (2 : ℚ) ^ (53 : Int) = 2 ^ (53 : Nat) by norm_num]
      exact_mod_cast hn
    have he0 : 0 ≤ Int.log 2 (n : ℚ) :=
      (Int.zpow_le_iff_le_log (b := 2) (by norm_num) hq).1 (by simpa using h1)
    have he1 : Int.log 2 (n : ℚ) < 53 := int_log_two_lt _ 53 hq hlt
    obtain ⟨k, hk⟩ : ∃ k : Nat, (k : Int) = 52 - Int.log 2 (n : ℚ) :=
      ⟨(52 - Int.log 2 (n : ℚ)).toNat, Int.toNat_of_nonneg (by omega)⟩
    have hulp : binary64_ulp (n : ℚ) = ((2 : ℚ) ^ k)⁻¹ := by
      unfold binary64_ulp
      rw [abs_of_pos hq, max_eq_left (by omega),
        show Int.log 2 (n : ℚ) - 52 = -(k : Int) by omega, zpow_neg, zpow_natCast]
    have hm : (n : ℚ) / ((2 : ℚ) ^ k)⁻¹ = ((n * 2 ^ k : Int) : ℚ) := by
      rw [div_inv_eq_mul]
      push_cast
      rfl
    have hy : (round_half_even ((n : ℚ) / ((2 : ℚ) ^ k)⁻¹) : ℚ) * ((2 : ℚ) ^ k)⁻¹ = n := by
      rw [hm, round_half_even_int]
      push_cast
      field_simp
    rw [binary64_pos _ hq, hulp, hy, if_neg]
    have : (2 : ℚ) ^ (53 : Int) ≤ 2 ^ (1024 : Int) := zpow_le_zpow_right₀ (by norm_num) (by norm_num)
    exact not_le.2 (by linarith)

/-- A number from a power of two on rounds to a number from that power of
two on, or to the infinity. -/
theorem binary64_ge_pow (q : ℚ) (k : Int) (hk : -1022 ≤ k) (h : (2 : ℚ) ^ k ≤ q) :
    (double.fin q).binary64 = .pinf ∨
      ∃ y : ℚ, (double.fin q).binary64 = .fin y ∧ (2 : ℚ) ^ k ≤ y := by
  have hq : 0 < q := lt_of_lt_of_le (by positivity) h
  have he : k ≤ Int.log 2 q :=
    (Int.zpow_le_iff_le_log (b := 2) (by norm_num) hq).1 (by simpa only [Nat.cast_ofNat] using h)
  have hlog := Int.zpow_log_le_self (b := 2) (by norm_num) hq
  simp only [Nat.cast_ofNat] at hlog
  have hulp : binary64_ulp q = 2 ^ (Int.log 2 q - 52) := by
    unfold binary64_ulp
    rw [abs_of_pos hq, max_eq_left (by omega)]
  rw [binary64_pos q hq]
  split
  · exact Or.inl rfl
  · right
    refine ⟨_, rfl, ?_⟩
    rw [hulp]
    have hu : (0 : ℚ) < 2 ^ (Int.log 2 q - 52) := by positivity
    have e52 : ((2 ^ 52 : Int) : ℚ) * 2 ^ (Int.log 2 q - 52) = 2 ^ Int.log 2 q := by
      rw [zpow_sub₀ (by norm_num : (2 : ℚ) ≠ 0)]
      push_cast
      field_simp
      norm_num
      ring
    have hm : (((2 ^ 52 : Int)) : ℚ) ≤ q / 2 ^ (Int.log 2 q - 52) := by
      rw [le_div_iff₀ hu, e52]
      exact hlog
    have hr := round_half_even_mono_ge _ _ hm
    have hr' : ((2 ^ 52 : Int) : ℚ) ≤ round_half_even (q / 2 ^ (Int.log 2 q - 52)) := by
      exact_mod_cast hr
    calc (2 : ℚ) ^ k ≤ 2 ^ Int.log 2 q := zpow_le_zpow_right₀ (by norm_num) he
      _ = ((2 ^ 52 : Int) : ℚ) * 2 ^ (Int.log 2 q - 52) := e52.symm
      _ ≤ round_half_even (q / 2 ^ (Int.log 2 q - 52)) * 2 ^ (Int.log 2 q - 52) :=
        mul_le_mul_of_nonneg_right hr' hu.le

/-- The index that `perc_dump` reads at the percentile 100: the number of
stored values, when it fits an `int`. -/
theorem perc_index_hundred (n : Nat) :
    perc_index (.fin 100) n = if n < 2 ^ 31 then some (n : Int) else none := by
  have hfl : ∀ z : ℚ, Rat.floor z = ⌊z⌋ := fun _ => rfl
  have h1 : (double.fin (100 / 100)).binary64 = .fin 1 := by
    rw [show (100 : ℚ) / 100 = ((1 : Nat) : ℚ) by norm_num, binary64_nat 1 (by norm_num)]
    simp
  simp only [perc_index, double.div, show (100 : ℚ) ≠ 0 by norm_num, if_false, h1, double.mul,
    one_mul]
  by_cases hn : n < 2 ^ 31
  · have h0 : (0 : ℚ) ≤ ((n : Int) : ℚ) := by positivity
    rw [binary64_nat n (lt_trans hn (by norm_num)), if_pos hn]
    simp only [double.floor, int_of_double, hfl, Int.floor_natCast, Int.cast_natCast,
      Nat.cast_nonneg, if_true]
    rw [if_pos]
    constructor
    · omega
    · exact_mod_cast hn
  · rw [if_neg hn]
    have h31 : (2 : ℚ) ^ (31 : Int) ≤ n := by
      rw [show (2 : ℚ) ^ (31 : Int) = ((2 ^ 31 : Nat) : ℚ) by norm_num]
      exact_mod_cast not_lt.1 hn
    rcases binary64_ge_pow (n : ℚ) 31 (by norm_num) h31 with e | ⟨y, e, hy⟩
    · rw [e]
      rfl
    · rw [e]
      have hy0 : 0 ≤ y := le_trans (by positivity) hy
      have hf : (2 : Int) ^ 31 ≤ ⌊y⌋ := by
        rw [Int.le_floor]
        have : (((2 : Int) ^ 31 : Int) : ℚ) = (2 : ℚ) ^ (31 : Int) := by norm_num
        rw [this]
        exact hy
      have hcast : (0 : ℚ) ≤ ((⌊y⌋ : Int) : ℚ) := by
        exact_mod_cast le_trans (by norm_num) hf
      simp only [double.floor, int_of_double, hfl, hcast, if_true, Int.floor_intCast]
      rw [if_neg]
      omega

/-- C16: `perc_parse_args` accepts the percentile 100, and with it the index
that `perc_dump` reads is `values_len`, one past the last stored value,
whatever is stored: `perc_dump` gives no text. With
`--perfect --key k --aggregator percentile,100,v` and the one record
`{"k":"a","v":"1"}` the program reads `values[1]` of an array that holds one
value. Besides, `mode_dump` on the data of `mode_init`, before any update,
passes `NULL` to `fputs`. -/
theorem perc_dump_reads_past_end :
    perc_parse_args example_libc (some "100,v") =
      some (true, .perc_config (.fin 100), ["v"]) ∧
    perc_index (.fin 100) 1 = some 1 ∧
    (∀ (L : libc) (values : List double),
      perc_dump L (.perc_config (.fin 100)) (.perc_data values) = none) ∧
    (add_all perc_add (.perc_config (.fin 100)) (perc_init (.perc_config (.fin 100)))
        [([some "1"], [.fin 1])]).bind (perc_dump example_libc (.perc_config (.fin 100))) =
      none ∧
    (match main_config example_libc (aggregators example_libc (fun t => t))
        ["--perfect", "--key", "k", "--aggregator", "percentile,100,v"] with
      | .ok cs => some (cs.agg_instances.map (fun agg_inst => agg_inst.config_data))
      | _ => none) = some [.perc_config (.fin 100)] ∧
    (main_of example_libc (aggregators example_libc (fun t => t))
        ["--perfect", "--key", "k", "--aggregator", "percentile,100,v"]
        [[some "a", some "1"]]).map (fun s => s.stdout) = none ∧
    mode_dump (fun t => t) .null (mode_init .null) = none := by
  refine ⟨by decide!, by decide!, ?_, by decide!, by decide!, by decide!, by decide!⟩
  intro L values
  simp only [perc_dump, perc_index_hundred]
  by_cases hn : values.length < 2147483648
  · have hlen : (qsort cmp_dbl values).length = values.length :=
      (qsort_perm cmp_dbl values).length_eq
    simp [hn, hlen]
  · simp [hn]

/-! ### C17: concatenate -/

/-- The buffer of `concat_add` after a sequence of texts: the texts from the
first that is not empty on, joined by the delimiter; the empty texts before
it leave no trace. -/
theorem concat_add_all (L : libc) (delim : String) (values : List String) :
    ∀ buf : String, buf ≠ "" →
    add_all concat_add (.concat_config delim delim.length) (.concat_data buf)
        (text_obs L values) =
      some (.concat_data (buf ++ concat_text (values.map (fun v => delim ++ v)))) := by
  induction values with
  | nil =>
    intro buf _
    simp [text_obs, add_all, concat_text]
  | cons v vs ih =>
    intro buf hbuf
    have hlen : buf.length > 0 := by
      rcases buf with ⟨l⟩
      cases l with
      | nil => exact absurd rfl hbuf
      | cons a l => exact Nat.succ_pos _
    have hne : buf ++ String.mk (delim.data.take delim.length) ++ v ≠ "" := by
      intro h
      have h2 := congrArg String.data h
      simp only [String.data_append] at h2
      exact hbuf (String.ext (List.append_eq_nil.1 (List.append_eq_nil.1 h2).1).1)
    have htake : String.mk (delim.data.take delim.length) = delim := by
      rcases delim with ⟨l⟩
      show String.mk (List.take l.length l) = String.mk l
      rw [List.take_length]
    simp only [text_obs, List.map_cons, add_all, concat_add, List.getD_cons_zero, hlen, if_true,
      Option.some_bind]
    have := ih (buf ++ String.mk (delim.data.take delim.length) ++ v) hne
    simp only [text_obs] at this
    rw [this, htake]
    simp [concat_text, String.append_assoc]

/-- The buffer of `concat_add` after a sequence of texts, from `concat_init`:
the empty texts at the start leave no trace, the other texts are joined by
the delimiter. -/
theorem concat_add_all_init (L : libc) (delim : String) (values : List String) :
    add_all concat_add (.concat_config delim delim.length)
        (concat_init (.concat_config delim delim.length)) (text_obs L values) =
      some (.concat_data
        (match values.dropWhile (fun v => v = "") with
         | [] => ""
         | w :: ws => w ++ concat_text (ws.map (fun v => delim ++ v)))) := by
  induction values with
  | nil => rfl
  | cons v vs ih =>
    by_cases hv : v = ""
    · subst hv
      simp only [text_obs, List.map_cons, add_all, concat_init, concat_add, List.getD_cons_zero,
        Option.some_bind]
      simp only [text_obs, concat_init] at ih
      exact ih
    · have h := concat_add_all L delim vs v hv
      simp only [text_obs, List.map_cons, add_all, concat_init, concat_add, List.getD_cons_zero,
        Option.some_bind, List.dropWhile_cons, hv, decide_False, Bool.false_eq_true, if_false]
      simp only [text_obs] at h
      exact h

/-- C17: with the delimiter `-`, the observations "" and "b" leave `b` in the
buffer of `concat_add`, and `concat_dump` writes `"b"`, not `"-b"`, the two
values joined by the delimiter: the delimiter is written only when the buffer
is not empty, not when a value came before. With
`--perfect --key k --aggregator concat,-,v` the records `{"k":"a","v":""}`
and `{"k":"a","v":"b"}` give the output record `{"k":"a","concat_-_v":"b"}`. -/
theorem concat_drops_leading_empty :
    concat_parse_args (some "-,v") = some (true, .concat_config "-" 1, ["v"]) ∧
    add_all concat_add (.concat_config "-" 1) (concat_init (.concat_config "-" 1))
        (text_obs example_libc ["", "b"]) = some (.concat_data "b") ∧
    concat_dump (.concat_config "-" 1) (.concat_data "b") = some "\"b\"" ∧
    "\"" ++ "-".intercalate ["", "b"] ++ "\"" = "\"-b\"" ∧
    (main_of example_libc (aggregators example_libc (fun t => t))
        ["--perfect", "--key", "k", "--aggregator", "concat,-,v"]
        [[some "a", some ""], [some "a", some "b"]]).map (fun s => s.stdout) =
      some "\x7b\"k\":\"a\",\"concat_-_v\":\"b\"\x7d\n" := by
  decide!

/-! ### C18: textual aggregators and absent values -/

/-- C18: `concat_add` and `mode_add` do not skip an absent value: both read
through `ch_data[0]` (`strlen`) without a test for `NULL`, whatever their
data holds, and do not return. With
`--perfect --key k --aggregator concat,-,v` (or `mode,v`) the record
`{"k":"a"}`, which has no field v, ends the program in this read, and nothing
is written. -/
theorem textual_add_reads_absent_value :
    (∀ c concat_buf num_data, concat_add c (.concat_data concat_buf) [none] num_data = none) ∧
    (∀ c hash_table num_data, mode_add c (.mode_data hash_table) [none] num_data = none) ∧
    (main_of example_libc (aggregators example_libc (fun t => t))
        ["--perfect", "--key", "k", "--aggregator", "concat,-,v"]
        [[some "a", none]]).map (fun s => s.stdout) = none ∧
    (main_of example_libc (aggregators example_libc (fun t => t))
        ["--perfect", "--key", "k", "--aggregator", "mode,v"]
        [[some "a", none]]).map (fun s => s.stdout) = none ∧
    (main_of example_libc (aggregators example_libc (fun t => t))
        ["--perfect", "--key", "k", "--aggregator", "concat,-,v"]
        [[some "a", some "b"]]).map (fun s => s.stdout) =
      some "\x7b\"k\":\"a\",\"concat_-_v\":\"b\"\x7d\n" := by
  refine ⟨fun _ _ _ => rfl, fun _ _ _ => rfl, by decide!, by decide!, by decide!⟩

/-! ### C11: one line per record -/

/-- C11: every text that `mode_dump` writes starts with the line `Mode dump!`
and so holds a newline, whatever the values are. With
`--perfect --key x --aggregator mode,y` the record `{"x":"a","y":"b"}` is
written as two lines: the text holds two newline characters, the first of
them inside the record. -/
theorem mode_dump_writes_newline :
    (∀ hash_scan c hash_table text,
      mode_dump hash_scan c (.mode_data hash_table) = some text → '\n' ∈ text.data) ∧
    mode_dump (fun t => t) .null (.mode_data [("b", .fin 1)]) = some "Mode dump!\n\"b\"" ∧
    (main_of example_libc (aggregators example_libc (fun t => t))
        ["--perfect", "--key", "x", "--aggregator", "mode,y"]
        [[some "a", some "b"]]).map (fun s => s.stdout) =
      some "\x7b\"x\":\"a\",\"mode_y\":Mode dump!\n\"b\"\x7d\n" ∧
    ("\x7b\"x\":\"a\",\"mode_y\":Mode dump!\n\"b\"\x7d\n".data.filter (fun ch => ch = '\n')).length =
      2 := by
  refine ⟨?_, by decide!, by decide!, by decide⟩
  intro hash_scan c hash_table text h
  simp only [mode_dump] at h
  split at h
  · cases h
    simp [String.data_append]
  · cases h

/-! ### C19: mode -/

theorem mode_hash_lookup_none (hash_table : List (String × double)) (key : String) :
    mode_hash_lookup hash_table key = none ↔ key ∉ hash_table.map Prod.fst := by
  simp only [mode_hash_lookup, List.find?_eq_none, beq_iff_eq, List.mem_map, not_exists, not_and]

/-- The table of a mode aggregator has one entry for each different value
seen. -/
theorem mode_table_length (seen : List String) (t : List (String × double))
    (h : mode_table_of seen t) : t.length = seen.dedup.length := by
  obtain ⟨hnd, hmem, _⟩ := h
  rw [← List.card_toFinset, ← List.length_map t Prod.fst, ← List.toFinset_card_of_nodup hnd]
  congr 1
  ext k
  simp only [List.mem_toFinset]
  exact hmem k

theorem dedup_length_le_append (l1 l2 : List String) :
    l1.dedup.length ≤ (l1 ++ l2).dedup.length := by
  rw [← List.card_toFinset, ← List.card_toFinset]
  apply Finset.card_le_card
  intro k hk
  simp only [List.mem_toFinset, List.mem_append] at hk ⊢
  exact Or.inl hk

/-- One call of `mode_add` with a value that is in the table or finds a free
node in the pools: the table counts it. -/
theorem mode_add_step (c : agg_config) (seen : List String) (t : List (String × double))
    (v : String) (num_data : List double) (h : mode_table_of seen t)
    (hroom : (seen ++ [v]).dedup.length ≤ 32) :
    ∃ t', mode_add c (.mode_data t) [some v] num_data = some (.mode_data t') ∧
      mode_table_of (seen ++ [v]) t' := by
  have hlen := mode_table_length seen t h
  obtain ⟨hnd, hmem, hcount⟩ := h
  have hmap : ∀ l : List (String × double),
      (l.map (fun e => if e.1 == v then (e.1, e.2.add (.fin 1)) else e)).map Prod.fst =
        l.map Prod.fst := by
    intro l
    rw [List.map_map]
    apply List.map_congr_left
    intro e _
    simp only [Function.comp]
    split <;> rfl
  cases hl : mode_hash_lookup t v with
  | none =>
    have hv : v ∉ t.map Prod.fst := (mode_hash_lookup_none t v).1 hl
    have hvs : v ∉ seen := fun h => hv ((hmem v).2 h)
    have hfree : ¬ 32 < t.length + 1 := by
      have e : (seen ++ [v]).dedup.length = seen.dedup.length + 1 := by
        have hins : (seen ++ [v]).toFinset = insert v seen.toFinset := by
          ext k
          simp only [List.mem_toFinset, List.mem_append, List.mem_singleton, Finset.mem_insert]
          exact or_comm
        rw [← List.card_toFinset, ← List.card_toFinset, hins,
          Finset.card_insert_of_not_mem (by simpa using hvs)]
      omega
    refine ⟨(t ++ [(v, double.fin 0)]).map
      (fun e : String × double => if e.1 == v then (e.1, e.2.add (.fin 1)) else e),
      ?_, ?_, ?_, ?_⟩
    · simp only [mode_add, List.getD_cons_zero, hl, if_neg hfree]
    · rw [hmap, List.map_append]
      exact List.Nodup.append hnd (List.nodup_singleton _)
        (by simpa [List.disjoint_singleton] using hv)
    · intro k
      rw [hmap, List.map_append, List.mem_append, List.mem_append, hmem]
      simp
    · intro e he
      obtain ⟨e0, he0, rfl⟩ := List.mem_map.1 he
      rcases List.mem_append.1 he0 with h1 | h1
      · have hne : e0.1 ≠ v := fun h => hv (h ▸ List.mem_map_of_mem _ h1)
        have hb : (e0.1 == v) = false := by simpa using hne
        simp only [hb, Bool.false_eq_true, if_false]
        rw [hcount e0 h1, List.count_append, List.count_singleton]
        simp [hne.symm]
      · rw [List.mem_singleton.1 h1]
        simp [double.add, List.count_eq_zero_of_not_mem hvs]
  | some e1 =>
    have hv : v ∈ t.map Prod.fst := by
      by_contra h
      rw [(mode_hash_lookup_none t v).2 h] at hl
      cases hl
    refine ⟨t.map (fun e : String × double => if e.1 == v then (e.1, e.2.add (.fin 1)) else e),
      ?_, ?_, ?_, ?_⟩
    · simp only [mode_add, List.getD_cons_zero, hl]
    · rw [hmap]
      exact hnd
    · intro k
      rw [hmap, List.mem_append, hmem]
      constructor
      · exact Or.inl
      · rintro (h | h)
        · exact h
        · rw [List.mem_singleton.1 h]
          exact (hmem v).1 hv
    · intro e he
      obtain ⟨e0, he0, rfl⟩ := List.mem_map.1 he
      by_cases hk : e0.1 = v
      · have hb : (e0.1 == v) = true := by simpa using hk
        simp only [hb, if_true]
        rw [hcount e0 he0, List.count_append, List.count_singleton, hk]
        simp [double.add]
      · have hb : (e0.1 == v) = false := by simpa using hk
        simp only [hb, Bool.false_eq_true, if_false]
        rw [hcount e0 he0, List.count_append, List.count_singleton]
        simp [Ne.symm hk]

/-- The calls of `mode_add` on a sequence of values build the table of their
counts, as long as the pools have a node for every different value. -/
theorem mode_add_all (L : libc) (c : agg_config) (values : List String) :
    ∀ (seen : List String) (t : List (String × double)), mode_table_of seen t →
    (seen ++ values).dedup.length ≤ 32 →
    ∃ t', add_all mode_add c (.mode_data t) (text_obs L values) = some (.mode_data t') ∧
      mode_table_of (seen ++ values) t' := by
  induction values with
  | nil =>
    intro seen t h _
    exact ⟨t, rfl, by simpa using h⟩
  | cons v vs ih =>
    intro seen t h hroom
    have hroom1 : (seen ++ [v]).dedup.length ≤ 32 := by
      have := dedup_length_le_append (seen ++ [v]) vs
      rw [List.append_assoc, List.singleton_append] at this
      omega
    obtain ⟨t1, e1, h1⟩ := mode_add_step c seen t v [dbl_val L (some v)] h hroom1
    obtain ⟨t2, e2, h2⟩ := ih (seen ++ [v]) t1 h1 (by simpa using hroom)
    refine ⟨t2, ?_, by simpa using h2⟩
    simp only [text_obs, List.map_cons, add_all, e1, Option.some_bind]
    exact e2

/-- The loop of `mode_dump` over entries whose counts are given by `f`: it
keeps `max_num` and `max_val` when no count is greater than `max_num`, and
else ends with the first entry of the greatest count. -/
theorem mode_dump_loop_spec (f : String → Nat) (es : List (String × double))
    (hes : ∀ e ∈ es, e.2 = .fin (f e.1)) :
    ∀ (m0 : Nat) (v0 : Option String),
    ((∀ e ∈ es, f e.1 ≤ m0) ∧ mode_dump_loop es (.fin m0) v0 = (.fin m0, v0)) ∨
    ∃ pre e post, es = pre ++ e :: post ∧
      mode_dump_loop es (.fin m0) v0 = (.fin (f e.1), some e.1) ∧ m0 < f e.1 ∧
      (∀ x ∈ pre, f x.1 < f e.1) ∧ ∀ x ∈ es, f x.1 ≤ f e.1 := by
  induction es with
  | nil =>
    intro m0 v0
    exact Or.inl ⟨by simp, rfl⟩
  | cons e rest ih =>
    intro m0 v0
    have he := hes e (List.mem_cons_self _ _)
    have hrest : ∀ x ∈ rest, x.2 = .fin (f x.1) := fun x hx => hes x (List.mem_cons_of_mem _ hx)
    by_cases h : m0 < f e.1
    · have hlt : (double.fin m0).lt (.fin (f e.1)) = true := by
        simp only [double.lt, decide_eq_true_eq]
        exact_mod_cast h
      have hloop : mode_dump_loop (e :: rest) (.fin m0) v0 =
          mode_dump_loop rest (.fin (f e.1)) (some e.1) := by
        simp only [mode_dump_loop, he, hlt, if_true]
      rcases ih hrest (f e.1) (some e.1) with ⟨h1, h2⟩ | ⟨pre, e', post, h1, h2, h3, h4, h5⟩
      · right
        refine ⟨[], e, rest, rfl, by rw [hloop, h2], h, by simp, ?_⟩
        intro x hx
        rcases List.mem_cons.1 hx with e1 | hx
        · rw [e1]
        · exact h1 x hx
      · right
        refine ⟨e :: pre, e', post, by rw [h1]; rfl, by rw [hloop, h2], by omega, ?_, ?_⟩
        · intro x hx
          rcases List.mem_cons.1 hx with e1 | hx
          · rw [e1]
            exact h3
          · exact h4 x hx
        · intro x hx
          rcases List.mem_cons.1 hx with e1 | hx
          · rw [e1]
            omega
          · exact h5 x hx
    · have hlt : (double.fin m0).lt (.fin (f e.1)) = false := by
        simp only [double.lt, decide_eq_false_iff_not]
        exact_mod_cast h
      have hloop : mode_dump_loop (e :: rest) (.fin m0) v0 =
          mode_dump_loop rest (.fin m0) v0 := by
        simp only [mode_dump_loop, he, hlt, Bool.false_eq_true, if_false]
      rcases ih hrest m0 v0 with ⟨h1, h2⟩ | ⟨pre, e', post, h1, h2, h3, h4, h5⟩
      · left
        refine ⟨?_, by rw [hloop, h2]⟩
        intro x hx
        rcases List.mem_cons.1 hx with e1 | hx
        · rw [e1]
          omega
        · exact h1 x hx
      · right
        refine ⟨e :: pre, e', post, by rw [h1]; rfl, by rw [hloop, h2], h3, ?_, ?_⟩
        · intro x hx
          rcases List.mem_cons.1 hx with e1 | hx
          · rw [e1]
            omega
          · exact h4 x hx
        · intro x hx
          rcases List.mem_cons.1 hx with e1 | hx
          · rw [e1]
            omega
          · exact h5 x hx

/-- Mode within the pools: for a hash table whose scan visits every entry
once and a sequence of values that is not empty and holds at most 32
different values, the calls of `mode_add` from `mode_init` count the
occurrences of each value, and `mode_dump` writes a value whose number of
occurrences is the greatest; among several such values it is the one that
the scan of the hash table visits first, every entry before it in the scan
having fewer occurrences. -/
theorem mode_selects_first_scanned (L : libc)
    (hash_scan : List (String × double) → List (String × double))
    (hscan : ∀ t, (hash_scan t).Perm t) (c : agg_config) (values : List String)
    (hne : values ≠ []) (hroom : values.dedup.length ≤ 32) :
    ∃ t v pre post,
      add_all mode_add c (mode_init c) (text_obs L values) = some (.mode_data t) ∧
      mode_table_of values t ∧
      mode_dump hash_scan c (.mode_data t) = some ("Mode dump!\n" ++ "\"" ++ v ++ "\"") ∧
      v ∈ values ∧ (∀ w, values.count w ≤ values.count v) ∧
      (hash_scan t).map Prod.fst = pre ++ v :: post ∧
      ∀ w ∈ pre, values.count w < values.count v := by
  obtain ⟨t, e, ht⟩ := mode_add_all L c values [] []
    ⟨List.nodup_nil, by simp, by simp⟩ (by simpa using hroom)
  rw [List.nil_append] at ht
  obtain ⟨hnd, hmem, hcount⟩ := ht
  have hes : ∀ x ∈ hash_scan t, x.2 = .fin (values.count x.1) := fun x hx =>
    hcount x ((hscan t).subset hx)
  obtain ⟨a, ha⟩ := List.exists_mem_of_ne_nil _ hne
  obtain ⟨ea, hea, hea1⟩ := List.mem_map.1 ((hmem a).2 ha)
  have hpos : 0 < values.count ea.1 := by
    rw [hea1]
    exact List.count_pos_iff.2 ha
  rcases mode_dump_loop_spec (fun k => values.count k) (hash_scan t) hes 0 none with
    ⟨h1, _⟩ | ⟨pre, e1, post, h1, h2, h3, h4, h5⟩
  · have := h1 ea ((hscan t).symm.subset hea)
    simp only at this
    omega
  · have he1 : e1 ∈ t := (hscan t).subset (by rw [h1]; simp)
    refine ⟨t, e1.1, pre.map Prod.fst, post.map Prod.fst, e, ⟨hnd, hmem, hcount⟩, ?_,
      (hmem e1.1).1 (List.mem_map_of_mem _ he1), ?_, by rw [h1]; simp, ?_⟩
    · have h2' : mode_dump_loop (hash_scan t) (.fin 0) none =
          (.fin (values.count e1.1), some e1.1) := by
        simpa using h2
      simp only [mode_dump, h2']
    · intro w
      by_cases hw : w ∈ values
      · obtain ⟨ew, hew, hew1⟩ := List.mem_map.1 ((hmem w).2 hw)
        have := h5 ew ((hscan t).symm.subset hew)
        simp only at this
        rw [← hew1]
        exact this
      · rw [List.count_eq_zero_of_not_mem hw]
        exact Nat.zero_le _
    · intro w hw
      obtain ⟨x, hx, hx1⟩ := List.mem_map.1 hw
      rw [← hx1]
      exact h4 x hx

/-- A call of `mode_add` with a new value when the pools are full: `realloc`
releases the nodes of the table, and the call does not return. -/
theorem mode_add_full (c : agg_config) (t : List (String × double)) (v : String)
    (num_data : List double) (hnew : v ∉ t.map Prod.fst) (hfull : 32 ≤ t.length) :
    mode_add c (.mode_data t) [some v] num_data = none := by
  have hl := (mode_hash_lookup_none t v).2 hnew
  simp only [mode_add, List.getD_cons_zero, hl]
  rw [if_pos (by omega)]

/-- C19: the pools of a mode aggregator are allocated for 32 nodes and
entries. With the 33rd different value `mode_add` hands both pools to
`realloc` while the hash table still holds the 32 nodes of the old block, and
the nodes point to the entries of the old block: from then on the table is
made of released memory, and every later `hash_lookup` and the scan of
`mode_dump` read it. In the model `mode_add` gives no data when a new value
meets full pools, whatever the table holds. The values 0 to 31 fill the pools,
the value 32 after them is lost; with
`--perfect --key k --aggregator mode,v` the 33 records with k = a and v = 0 to
32 give no output, while the 32 records with v = 0 to 31 followed by one more
with v = 5, the only value seen twice, give the value 5. -/
theorem mode_add_releases_table_nodes :
    (∀ (c : agg_config) (t : List (String × double)) (v : String) (num_data : List double),
      v ∉ t.map Prod.fst → 32 ≤ t.length →
      mode_add c (.mode_data t) [some v] num_data = none) ∧
    ((List.range 33).map Nat.repr).Nodup ∧
    (add_all mode_add .null (mode_init .null)
        (text_obs example_libc ((List.range 32).map Nat.repr))).map
      (fun d => match d with
        | .mode_data t => t.length
        | _ => 0) = some 32 ∧
    add_all mode_add .null (mode_init .null)
      (text_obs example_libc ((List.range 33).map Nat.repr)) = none ∧
    (main_of example_libc (aggregators example_libc (fun t => t))
        ["--perfect", "--key", "k", "--aggregator", "mode,v"]
        ((List.range 33).map (fun i => [some "a", some (Nat.repr i)]))).map
      (fun s => s.stdout) = none ∧
    (main_of example_libc (aggregators example_libc (fun t => t))
        ["--perfect", "--key", "k", "--aggregator", "mode,v"]
        ((List.range 32).map (fun i => [some "a", some (Nat.repr i)]) ++
          [[some "a", some "5"]])).map
      (fun s => s.stdout) = some "\x7b\"k\":\"a\",\"mode_v\":Mode dump!\n\"5\"\x7d\n" := by
  refine ⟨mode_add_full, by decide!, by decide!, by decide!, by decide!, by decide!⟩

/-! ### C20: the output field name -/

theorem strchr_split_eq (s : String) (c : Char) :
    strchr_split s c =
      if c ∈ s.data then
        some (String.mk (s.data.takeWhile (fun ch => ch ≠ c)),
          String.mk ((s.data.dropWhile (fun ch => ch ≠ c)).drop 1))
      else none := by
  have hp : (fun x : Char => x != c) = (fun ch => decide (ch ≠ c)) := by
    funext x
    by_cases e : x = c <;> simp [e]
  unfold strchr_split
  rw [List.span_eq_take_drop, hp]
  by_cases hc : c ∈ s.data
  · rw [if_pos hc]
    cases hd : s.data.dropWhile (fun ch => decide (ch ≠ c)) with
    | nil =>
      have := List.dropWhile_eq_nil_iff.1 hd c hc
      simp at this
    | cons a post => rfl
  · rw [if_neg hc]
    have hd : s.data.dropWhile (fun ch => decide (ch ≠ c)) = [] := by
      apply List.dropWhile_eq_nil_iff.2
      intro x hx
      simp only [decide_eq_true_eq]
      exact fun e => hc (e ▸ hx)
    rw [hd]

/-- C20 (output field name): `init_agg_instance` takes as output field name
the text before the first `=` of the specifier, and as kind name the text
between that `=` and the next comma (or the end); without `=` the output
field name is the whole specifier with every comma turned into an
underscore (as long as the specifier, without a comma), and the kind name is
the text before the first comma. The aggregator is the first of the table
with that name or short name, and without one the error names the kind. -/
theorem output_field_name_spec (aggregators : List aggregator)
    (fields : List interesting_field) (agg_str : String) :
    init_agg_instance aggregators fields agg_str =
      (match aggregators.find? (fun a => strcmp (spec_kind_name agg_str) a.name == 0 ||
          strcmp (spec_kind_name agg_str) a.shortname == 0) with
       | some aggregator =>
         match aggregator.parse_args_func (spec_arguments agg_str) with
         | some (_, config_data, names) =>
           .ok (⟨aggregator, spec_output_field_name agg_str, names.length,
             (add_input_fields fields names).2, config_data⟩, (add_input_fields fields names).1)
         | none => .crash
       | none =>
         .usage_err ("Couldn't find an aggregator named '" ++ spec_kind_name agg_str ++ "'")) ∧
    ('=' ∉ agg_str.data →
      (spec_output_field_name agg_str).length = agg_str.length ∧
      ',' ∉ (spec_output_field_name agg_str).data) ∧
    ∀ a, aggregators.find? (fun a => strcmp (spec_kind_name agg_str) a.name == 0 ||
        strcmp (spec_kind_name agg_str) a.shortname == 0) = some a →
      a.name = spec_kind_name agg_str ∨ a.shortname = spec_kind_name agg_str := by
  refine ⟨?_, ?_, ?_⟩
  · have htake : ∀ l : List Char, ',' ∉ l →
        l.takeWhile (fun ch => decide (ch ≠ ',')) = l := by
      intro l hc
      apply List.takeWhile_eq_self_iff.2
      intro x hx
      simp only [decide_eq_true_eq]
      exact fun e => hc (e ▸ hx)
    unfold init_agg_instance
    rw [strchr_split_eq agg_str '=']
    by_cases he : '=' ∈ agg_str.data
    · simp only [if_pos he, spec_kind_name, spec_after_name, spec_arguments,
        spec_output_field_name]
      rw [strchr_split_eq _ ',']
      by_cases hc : ',' ∈ (agg_str.data.dropWhile (fun ch => decide (ch ≠ '='))).drop 1
      · simp only [if_pos hc]
      · simp only [if_neg hc, htake _ hc]
    · simp only [if_neg he, spec_kind_name, spec_after_name, spec_arguments,
        spec_output_field_name, String.map_eq]
      rw [strchr_split_eq _ ',']
      by_cases hc : ',' ∈ agg_str.data
      · simp only [if_pos hc]
      · simp only [if_neg hc, htake _ hc]
  · intro he
    simp only [spec_output_field_name, if_neg he, String.length, List.length_map, List.mem_map,
      not_exists, not_and]
    refine ⟨trivial, ?_⟩
    intro x _
    split <;> simp_all
  · intro a ha
    have := List.find?_some ha
    simp only [Bool.or_eq_true, beq_iff_eq, strcmp_eq_zero] at this
    rcases this with h | h
    · exact Or.inl h.symm
    · exact Or.inr h.symm

/-! ### Which functions of the table cannot fail -/

/-- The dump functions of the table give a text on every data, those of mode
and percentile apart. -/
theorem aggregators_dump_total (L : libc)
    (hash_scan : List (String × double) → List (String × double)) (agg : aggregator)
    (hagg : agg ∈ aggregators L hash_scan) (hname : agg.name ≠ "mode" ∧ agg.name ≠ "percentile")
    (c : agg_config) (d : agg_data) : (agg.dump_func c d).isSome = true := by
  simp only [aggregators, List.mem_cons, List.mem_singleton, List.not_mem_nil, or_false]
    at hagg
  rcases hagg with e | e | e | e | e | e | e | e | e | e | e <;> subst e
  · cases d <;> rfl
  · cases d <;> rfl
  · cases d <;> rfl
  · cases d <;> rfl
  · cases d <;> rfl
  · cases d <;> rfl
  · cases d <;> rfl
  · exact absurd rfl hname.1
  · exact absurd rfl hname.2
  · cases d <;> rfl
  · cases d <;> rfl

/-- The add functions of the table give new data on every data and input,
those of concatenate and mode apart. -/
theorem aggregators_add_total (L : libc)
    (hash_scan : List (String × double) → List (String × double)) (agg : aggregator)
    (hagg : agg ∈ aggregators L hash_scan)
    (hname : agg.name ≠ "concatenate" ∧ agg.name ≠ "mode")
    (c : agg_config) (d : agg_data) (ch_data : List (Option String))
    (num_data : List double) : (agg.add_func c d ch_data num_data).isSome = true := by
  have hcov : ∀ d ch_data num_data, ∃ d', cov_add .null d ch_data num_data = some d' := by
    intro d ch_data num_data
    cases d <;> simp only [cov_add] <;> first | exact ⟨_, rfl⟩ | (split <;> exact ⟨_, rfl⟩)
  have hvar : ∀ d ch_data num_data, ∃ d', var_add .null d ch_data num_data = some d' := by
    intro d ch_data num_data
    cases d <;> simp only [var_add] <;> first | exact ⟨_, rfl⟩ | (split <;> exact ⟨_, rfl⟩)
  simp only [aggregators, List.mem_cons, List.mem_singleton, List.not_mem_nil, or_false]
    at hagg
  rcases hagg with e | e | e | e | e | e | e | e | e | e | e <;> subst e
  · cases d <;> simp only [avg_add] <;> first | rfl | (split <;> rfl)
  · exact absurd rfl hname.1
  · cases d <;> rfl
  · cases d with
    | corr_data cv v1 v2 =>
      obtain ⟨cv', h1⟩ := hcov cv ch_data num_data
      obtain ⟨v1', h2⟩ := hvar v1 ch_data num_data
      obtain ⟨v2', h3⟩ := hvar v2 (ch_data.drop 1) (num_data.drop 1)
      simp only [corr_add, h1, h2, h3, Option.bind_eq_bind, Option.some_bind, Option.pure_def,
        Option.isSome_some]
    | _ => rfl
  · cases d <;> simp only [cov_add] <;> first | rfl | (split <;> rfl)
  · cases d <;> simp only [max_add_func] <;> first | rfl | (split <;> rfl)
  · cases d <;> simp only [min_add] <;> first | rfl | (split <;> rfl)
  · exact absurd rfl hname.2
  · cases d <;> simp only [perc_add] <;> first | rfl | (split <;> rfl)
  · cases d <;> simp only [sum_aggregator, sum_add] <;> first | rfl | (split <;> rfl)
  · cases d <;> simp only [var_add] <;> first | rfl | (split <;> rfl)

/-! ### One line per record, when no dump function writes a newline -/

/-- The keys that `dump_clump` writes hold no newline when the names and the
key values hold none. -/
theorem dump_clump_keys_no_newline (names : List String) (key_values : List (Option String))
    (hnames : ∀ name ∈ names, '\n' ∉ name.data)
    (hkeys : ∀ v, some v ∈ key_values → '\n' ∉ v.data) :
    ∀ n i, '\n' ∉ (dump_clump_keys names key_values n i).data := by
  have hname : ∀ i, '\n' ∉ (names.getD i "").data := by
    intro i
    rw [List.getD_eq_getElem?_getD]
    cases h : names[i]? with
    | none => simp
    | some name => exact hnames name (List.mem_iff_getElem?.2 ⟨i, h⟩)
  intro n
  induction n with
  | zero => intro i; simp [dump_clump_keys]
  | succ n ih =>
    intro i
    have hsep : '\n' ∉ (if i ≠ 0 then "," else "").data := by
      split <;> decide
    simp only [dump_clump_keys, String.data_append, List.mem_append, not_or]
    refine ⟨⟨hsep, ?_⟩, ih (i + 1)⟩
    rw [List.getD_eq_getElem?_getD]
    cases h : key_values[i]? with
    | none =>
      simp only [Option.getD_none, String.data_append, List.mem_append, not_or]
      exact ⟨⟨by decide, hname i⟩, by decide⟩
    | some o =>
      cases o with
      | none =>
        simp only [Option.getD_some, String.data_append, List.mem_append, not_or]
        exact ⟨⟨by decide, hname i⟩, by decide⟩
      | some v =>
        simp only [Option.getD_some, String.data_append, List.mem_append, not_or]
        exact ⟨⟨⟨⟨by decide, hname i⟩, by decide⟩, hkeys v (List.mem_iff_getElem?.2 ⟨i, h⟩)⟩, by decide⟩

/-- The aggregator fields that `dump_clump` writes hold no newline when the
output field names and the texts of the dump functions hold none. -/
theorem dump_clump_aggs_no_newline (i : Nat) :
    ∀ (insts : List agg_instance) (ds : List agg_data) (text : String),
    (∀ agg_inst ∈ insts, '\n' ∉ agg_inst.output_field_name.data) →
    (∀ agg_inst ∈ insts, ∀ d t, agg_inst.agg.dump_func agg_inst.config_data d = some t →
      '\n' ∉ t.data) →
    dump_clump_aggs i insts ds = some text → '\n' ∉ text.data := by
  intro insts
  induction insts with
  | nil =>
    intro ds text _ _ h
    simp only [dump_clump_aggs] at h
    cases h
    simp
  | cons agg_inst insts ih =>
    intro ds text houts hdumps h
    cases ds with
    | nil =>
      simp only [dump_clump_aggs] at h
      cases h
      simp
    | cons d ds =>
      simp only [dump_clump_aggs, Option.bind_eq_bind, Option.pure_def] at h
      cases ht : agg_inst.agg.dump_func agg_inst.config_data d with
      | none => rw [ht] at h; cases h
      | some t =>
        rw [ht, Option.some_bind] at h
        cases hr : dump_clump_aggs i insts ds with
        | none => rw [hr] at h; cases h
        | some rest =>
          rw [hr, Option.some_bind] at h
          cases h
          have hsep : '\n' ∉ (if i ≠ 0 then "," else "").data := by
            split <;> decide
          simp only [String.data_append, List.mem_append, not_or]
          exact ⟨⟨⟨⟨⟨hsep, by decide⟩, houts agg_inst (List.mem_cons_self _ _)⟩, by decide⟩,
            hdumps agg_inst (List.mem_cons_self _ _) d t ht⟩,
            ih ds rest (fun a ha => houts a (List.mem_cons_of_mem _ ha))
              (fun a ha => hdumps a (List.mem_cons_of_mem _ ha)) hr⟩

/-- One line per record, when no dump function writes a newline: the text that
`dump_clump` writes for a clump is a text without newline followed by one
newline, provided the field names, the key values and the texts of the dump
functions hold none. -/
theorem dump_clump_text_one_newline (cs : collate_state) (c : clump) (text : String)
    (hnames : ∀ name ∈ cs.interesting_field_names, '\n' ∉ name.data)
    (hkeys : ∀ v, some v ∈ c.key_values → '\n' ∉ v.data)
    (houts : ∀ agg_inst ∈ cs.agg_instances, '\n' ∉ agg_inst.output_field_name.data)
    (hdumps : ∀ agg_inst ∈ cs.agg_instances, ∀ d t,
      agg_inst.agg.dump_func agg_inst.config_data d = some t → '\n' ∉ t.data)
    (h : dump_clump_text cs c = some text) :
    ∃ body : String, text = body ++ "\n" ∧ '\n' ∉ body.data := by
  simp only [dump_clump_text, Option.bind_eq_bind, Option.pure_def] at h
  cases ha : dump_clump_aggs cs.num_key_fields cs.agg_instances c.aggregator_data with
  | none => rw [ha] at h; cases h
  | some aggs =>
    rw [ha, Option.some_bind] at h
    cases h
    refine ⟨"\x7b" ++ dump_clump_keys cs.interesting_field_names c.key_values cs.num_key_fields 0 ++
      aggs ++ "\x7d", ?_, ?_⟩
    · rw [String.append_assoc _ "\x7d" "\n"]
      rfl
    · simp only [String.data_append, List.mem_append, not_or]
      exact ⟨⟨⟨by decide, dump_clump_keys_no_newline _ _ hnames hkeys _ _⟩,
        dump_clump_aggs_no_newline _ _ _ _ houts hdumps ha⟩, by decide⟩

/-! ### C21: a `parse_args_func` that returns false -/

/-- The one error in which `init_agg_instance` ends is that of line 569: no
entry of the table has the name or the short name of the specifier. When an
entry has it, `init_agg_instance` raises no error, whatever the function of
the entry returns. -/
theorem init_agg_instance_usage_err (aggregators : List aggregator)
    (fields : List interesting_field) (agg_str msg : String)
    (h : init_agg_instance aggregators fields agg_str = .usage_err msg) :
    ∃ kind : String, msg = "Couldn't find an aggregator named '" ++ kind ++ "'" ∧
      ∀ a ∈ aggregators, a.name ≠ kind ∧ a.shortname ≠ kind := by
  simp only [init_agg_instance] at h
  split at h
  · split at h <;> cases h
  · rename_i hfind
    simp only [outcome.usage_err.injEq] at h
    refine ⟨_, h.symm, ?_⟩
    intro a ha
    have := List.find?_eq_none.1 hfind a ha
    simp only [Bool.or_eq_true, beq_iff_eq, not_or] at this
    exact ⟨fun e => this.1 ((strcmp_eq_zero _ _).2 e.symm),
      fun e => this.2 ((strcmp_eq_zero _ _).2 e.symm)⟩

/-- C21: `init_agg_instance` does not look at the value that
`parse_args_func` returns (line 557): it ends in an error only when no entry
of the table has the name of the specifier. For the specifiers `sum,` (empty field),
`cov,x` (no second field), `concat,x` and `perc,x` (no comma after the first
argument) and `perc,abc,v` (no number) the function of the kind returns
false, and `init_agg_instance` returns all the same: it has set up an
instance of the kind with no input field, and `main` goes on with it. With
`--perfect --key k --aggregator cov,x` the configuration ends without an
error and holds one instance of covariance. -/
theorem init_agg_instance_ignores_parse_failure :
    (∀ (aggregators : List aggregator) (fields : List interesting_field) (agg_str msg : String),
      init_agg_instance aggregators fields agg_str = .usage_err msg →
      ∃ kind : String, msg = "Couldn't find an aggregator named '" ++ kind ++ "'" ∧
        ∀ a ∈ aggregators, a.name ≠ kind ∧ a.shortname ≠ kind) ∧
    sum_parse_args (some "") = some (false, .null, []) ∧
    cov_parse_args (some "x") = some (false, .null, []) ∧
    concat_parse_args (some "x") = some (false, .null, []) ∧
    perc_parse_args example_libc (some "x") = some (false, .null, []) ∧
    perc_parse_args example_libc (some "abc,v") = some (false, .perc_config (.fin 0), []) ∧
    registered_by (init_agg_instance (aggregators example_libc (fun t => t)) [⟨"k", true⟩]
        "sum,") = some ⟨"sum", "sum_", 0, [], .null, ["k"]⟩ ∧
    registered_by (init_agg_instance (aggregators example_libc (fun t => t)) [⟨"k", true⟩]
        "cov,x") = some ⟨"covariance", "cov_x", 0, [], .null, ["k"]⟩ ∧
    registered_by (init_agg_instance (aggregators example_libc (fun t => t)) [⟨"k", true⟩]
        "concat,x") = some ⟨"concatenate", "concat_x", 0, [], .null, ["k"]⟩ ∧
    registered_by (init_agg_instance (aggregators example_libc (fun t => t)) [⟨"k", true⟩]
        "perc,x") = some ⟨"percentile", "perc_x", 0, [], .null, ["k"]⟩ ∧
    registered_by (init_agg_instance (aggregators example_libc (fun t => t)) [⟨"k", true⟩]
        "perc,abc,v") = some ⟨"percentile", "perc_abc_v", 0, [], .perc_config (.fin 0), ["k"]⟩ ∧
    (match main_config example_libc (aggregators example_libc (fun t => t))
        ["--perfect", "--key", "k", "--aggregator", "cov,x"] with
      | .ok cs => some (cs.agg_instances.map (fun agg_inst =>
          (agg_inst.agg.name, agg_inst.num_input_fields)))
      | _ => none) = some [("covariance", 0)] := by
  refine ⟨init_agg_instance_usage_err, by decide!, by decide!, by decide!, by decide!,
    by decide!, by decide!, by decide!, by decide!, by decide!, by decide!, by decide!⟩

/-! ### C26: the table of interesting fields -/

/-- The loop of `add_interesting_field` finds nothing when the name is not in
the table. -/
theorem add_interesting_field_find_none (str : String) (is_key : Bool) :
    ∀ (fields : List interesting_field) (i : Nat),
    str ∉ fields.map (fun f => f.name) →
    add_interesting_field_find str is_key fields i = none := by
  intro fields
  induction fields with
  | nil => intro i _; rfl
  | cons f rest ih =>
    intro i h
    simp only [List.map_cons, List.mem_cons, not_or] at h
    have hne : ¬ strcmp str f.name = 0 := fun e => h.1 ((strcmp_eq_zero _ _).1 e)
    simp only [add_interesting_field_find, if_neg hne, ih (i + 1) h.2, Option.map_none']

/-- The loop of `add_interesting_field` on a table of distinct names that
holds the name at index `k`: the entry is promoted when `is_key` is set, and
the index is the result. -/
theorem add_interesting_field_find_some (str : String) (is_key : Bool) :
    ∀ (fields : List interesting_field) (i k : Nat) (f : interesting_field),
    (fields.map (fun f => f.name)).Nodup → fields[k]? = some f → f.name = str →
    add_interesting_field_find str is_key fields i =
      some (fields.set k ⟨f.name, f.is_key || is_key⟩, i + k) := by
  intro fields
  induction fields with
  | nil => intro i k f _ h; simp at h
  | cons g rest ih =>
    intro i k f hnd hk hf
    simp only [List.map_cons, List.nodup_cons] at hnd
    cases k with
    | zero =>
      simp only [List.getElem?_cons_zero, Option.some.injEq] at hk
      subst hk
      have he : strcmp str g.name = 0 := (strcmp_eq_zero _ _).2 hf.symm
      simp only [add_interesting_field_find, if_pos he, List.set_cons_zero, Nat.add_zero]
      cases is_key <;> simp
    | succ k =>
      simp only [List.getElem?_cons_succ] at hk
      have hmem : f.name ∈ rest.map (fun f => f.name) :=
        List.mem_map.2 ⟨f, List.mem_iff_getElem?.2 ⟨k, hk⟩, rfl⟩
      have hne : ¬ strcmp str g.name = 0 := by
        intro e
        have := (strcmp_eq_zero _ _).1 e
        rw [← this, ← hf] at hnd
        exact hnd.1 hmem
      simp only [add_interesting_field_find, if_neg hne, ih (i + 1) k f hnd.2 hk hf,
        Option.map_some', List.set_cons_succ]
      congr 2
      omega

/-- A call of `add_interesting_field` with a name of the table, which holds
distinct names. -/
theorem add_interesting_field_present (fields : List interesting_field) (str : String)
    (is_key : Bool) (k : Nat) (f : interesting_field)
    (hnd : (fields.map (fun f => f.name)).Nodup) (hk : fields[k]? = some f)
    (hf : f.name = str) :
    add_interesting_field fields str is_key = (fields.set k ⟨f.name, f.is_key || is_key⟩, k) := by
  simp only [add_interesting_field, add_interesting_field_find_some str is_key fields 0 k f hnd hk hf,
    Nat.zero_add]

/-- A call of `add_interesting_field` with a name that the table does not
hold. -/
theorem add_interesting_field_new (fields : List interesting_field) (str : String)
    (is_key : Bool) (h : str ∉ fields.map (fun f => f.name)) :
    add_interesting_field fields str is_key = (fields ++ [⟨str, is_key⟩], fields.length) := by
  simp only [add_interesting_field, add_interesting_field_find_none str is_key fields 0 h]

/-- The names of the table after a call of `add_interesting_field`: the same
names, and the new name at the end when the table did not hold it. -/
theorem add_interesting_field_names (fields : List interesting_field) (str : String)
    (is_key : Bool) (hnd : (fields.map (fun f => f.name)).Nodup) :
    (add_interesting_field fields str is_key).1.map (fun f => f.name) =
      if str ∈ fields.map (fun f => f.name) then fields.map (fun f => f.name)
      else fields.map (fun f => f.name) ++ [str] := by
  by_cases h : str ∈ fields.map (fun f => f.name)
  · rw [if_pos h]
    obtain ⟨f, hf, e⟩ := List.mem_map.1 h
    obtain ⟨k, hk⟩ := List.mem_iff_getElem?.1 hf
    rw [add_interesting_field_present fields str is_key k f hnd hk e]
    apply List.ext_getElem?
    intro n
    simp only [List.getElem?_map, List.getElem?_set]
    by_cases e2 : k = n
    · subst e2
      simp only [if_true]
      rw [hk]
      have hlt : k < fields.length := getElem?_lt_of_some _ _ _ hk
      simp only [if_pos hlt, Option.map_some']
    · simp only [if_neg e2]
  · rw [if_neg h, add_interesting_field_new fields str is_key h]
    simp

/-- The names of the table stay distinct in a call of
`add_interesting_field`. -/
theorem add_interesting_field_nodup (fields : List interesting_field) (str : String)
    (is_key : Bool) (hnd : (fields.map (fun f => f.name)).Nodup) :
    ((add_interesting_field fields str is_key).1.map (fun f => f.name)).Nodup := by
  rw [add_interesting_field_names fields str is_key hnd]
  split
  · exact hnd
  · rename_i h
    exact List.Nodup.append hnd (List.nodup_singleton _) (by
      intro a ha hb
      rw [List.mem_singleton] at hb
      exact h (hb ▸ ha))

/-- The names of the table stay distinct in a sequence of calls of
`add_interesting_field`. -/
theorem add_interesting_fields_nodup (calls : List (String × Bool)) :
    ∀ fields : List interesting_field, (fields.map (fun f => f.name)).Nodup →
    ((add_interesting_fields fields calls).map (fun f => f.name)).Nodup := by
  induction calls with
  | nil => intro fields h; exact h
  | cons c cs ih =>
    intro fields h
    exact ih _ (add_interesting_field_nodup fields c.1 c.2 h)

/-- C26: in the table that a sequence of calls of `add_interesting_field`
builds from the empty table the names are pairwise distinct; a further call
with a name that the table holds at index `i` returns `i` and changes nothing
but the flag `is_key` of that entry, which is set when the call passes true
and keeps its value otherwise; a call with a new name puts an entry with the
name and the flag of the call at the end and returns the length the table had
before. -/
theorem interesting_field_table (calls : List (String × Bool)) (str : String) (is_key : Bool) :
    ((add_interesting_fields [] calls).map (fun f => f.name)).Nodup ∧
    (∀ i f, (add_interesting_fields [] calls)[i]? = some f → f.name = str →
      add_interesting_field (add_interesting_fields [] calls) str is_key =
        ((add_interesting_fields [] calls).set i ⟨f.name, f.is_key || is_key⟩, i)) ∧
    (str ∉ (add_interesting_fields [] calls).map (fun f => f.name) →
      add_interesting_field (add_interesting_fields [] calls) str is_key =
        (add_interesting_fields [] calls ++ [⟨str, is_key⟩],
          (add_interesting_fields [] calls).length)) :=
  ⟨add_interesting_fields_nodup calls [] List.nodup_nil,
    fun i f hi hf => add_interesting_field_present _ str is_key i f
      (add_interesting_fields_nodup calls [] List.nodup_nil) hi hf,
    add_interesting_field_new _ str is_key⟩

/-- C26, at the table of the calls (x, key), (p, no key), (x, no key): a call
with p as a key promotes the entry of p and returns its index 1; x is still a
key. -/
theorem interesting_field_table_witness :
    add_interesting_fields [] [("x", true), ("p", false), ("x", false)] =
      [⟨"x", true⟩, ⟨"p", false⟩] ∧
    add_interesting_field (add_interesting_fields [] [("x", true), ("p", false), ("x", false)])
        "p" true =
      ((add_interesting_fields [] [("x", true), ("p", false), ("x", false)]).set 1
        ⟨"p", false || true⟩, 1) :=
  ⟨by decide, (interesting_field_table [("x", true), ("p", false), ("x", false)] "p" true).2.1 1
    ⟨"p", false⟩ (by decide) rfl⟩

/-! ### C22: the order of the interesting fields -/

theorem first_seen_snoc (names : List String) (name : String) :
    first_seen (names ++ [name]) =
      if name ∈ first_seen names then first_seen names else first_seen names ++ [name] := by
  simp only [first_seen, List.foldl_append, List.foldl_cons, List.foldl_nil]

theorem mem_first_seen (names : List String) (name : String) :
    name ∈ first_seen names ↔ name ∈ names := by
  revert name
  induction names using List.reverseRecOn with
  | nil => intro name; simp [first_seen]
  | append_singleton l a ih =>
    intro name
    have iha := ih a
    have ih := ih name
    rw [first_seen_snoc]
    by_cases h : a ∈ first_seen l
    · rw [if_pos h, List.mem_append, List.mem_singleton, ih]
      constructor
      · exact Or.inl
      · rintro (h1 | h1)
        · exact h1
        · rw [h1]; exact iha.1 h
    · rw [if_neg h, List.mem_append, List.mem_append, ih]

theorem first_seen_nodup (names : List String) : (first_seen names).Nodup := by
  induction names using List.reverseRecOn with
  | nil => simp [first_seen]
  | append_singleton l a ih =>
    rw [first_seen_snoc]
    by_cases h : a ∈ first_seen l
    · rw [if_pos h]; exact ih
    · rw [if_neg h]
      exact List.Nodup.append ih (List.nodup_singleton _) (by
        intro b hb hb'
        rw [List.mem_singleton] at hb'
        exact h (hb' ▸ hb))

theorem add_interesting_fields_snoc (fields : List interesting_field)
    (calls : List (String × Bool)) (call : String × Bool) :
    add_interesting_fields fields (calls ++ [call]) =
      (add_interesting_field (add_interesting_fields fields calls) call.1 call.2).1 := by
  simp only [add_interesting_fields, List.foldl_append, List.foldl_cons, List.foldl_nil]

theorem add_interesting_fields_append (fields : List interesting_field)
    (calls calls' : List (String × Bool)) :
    add_interesting_fields fields (calls ++ calls') =
      add_interesting_fields (add_interesting_fields fields calls) calls' := by
  simp only [add_interesting_fields, List.foldl_append]

/-- A call of `add_interesting_field` on a table of distinct names, entry by
entry. -/
theorem add_interesting_field_eq (fields : List interesting_field) (str : String)
    (is_key : Bool) (hnd : (fields.map (fun f => f.name)).Nodup) :
    (add_interesting_field fields str is_key).1 =
      if str ∈ fields.map (fun f => f.name) then
        fields.map (fun f => if f.name = str then ⟨f.name, f.is_key || is_key⟩ else f)
      else fields ++ [⟨str, is_key⟩] := by
  by_cases h : str ∈ fields.map (fun f => f.name)
  · rw [if_pos h]
    obtain ⟨f, hf, e⟩ := List.mem_map.1 h
    obtain ⟨k, hk⟩ := List.mem_iff_getElem?.1 hf
    rw [add_interesting_field_present fields str is_key k f hnd hk e]
    apply List.ext_getElem?
    intro n
    simp only [List.getElem?_map, List.getElem?_set]
    have hlt : k < fields.length := getElem?_lt_of_some _ _ _ hk
    by_cases e2 : k = n
    · subst e2
      simp only [if_true, if_pos hlt, hk, Option.map_some', if_pos e]
    · simp only [if_neg e2]
      cases hn : fields[n]? with
      | none => rfl
      | some g =>
        simp only [Option.map_some', Option.some.injEq]
        have hgn : g.name ≠ str := by
          intro hg
          have hln : n < fields.length := getElem?_lt_of_some _ _ _ hn
          have h1 : (fields.map (fun f => f.name))[k]? = some str := by
            simp only [List.getElem?_map, hk, Option.map_some', e]
          have h2 : (fields.map (fun f => f.name))[n]? = some str := by
            simp only [List.getElem?_map, hn, Option.map_some', hg]
          have hk' : k < (fields.map (fun f => f.name)).length := by
            rw [List.length_map]; exact hlt
          have hn' : n < (fields.map (fun f => f.name)).length := by
            rw [List.length_map]; exact hln
          rw [List.getElem?_eq_getElem hk'] at h1
          rw [List.getElem?_eq_getElem hn'] at h2
          exact e2 ((List.Nodup.getElem_inj_iff hnd).1
            ((Option.some.inj h1).trans (Option.some.inj h2).symm))
        rw [if_neg hgn]
  · rw [if_neg h, add_interesting_field_new fields str is_key h]

/-- The table of interesting fields after a sequence of calls of
`add_interesting_field` from the empty table: the names in the order of their
first call, each a key when one of its calls passes `is_key`. -/
theorem add_interesting_fields_eq (calls : List (String × Bool)) :
    add_interesting_fields [] calls = table_of calls := by
  induction calls using List.reverseRecOn with
  | nil => rfl
  | append_singleton l c ih =>
    have hnd : ((add_interesting_fields [] l).map (fun f => f.name)).Nodup :=
      add_interesting_fields_nodup l [] List.nodup_nil
    rw [add_interesting_fields_snoc, add_interesting_field_eq _ _ _ hnd, ih]
    have hnames : (table_of l).map (fun f => f.name) = first_seen (l.map Prod.fst) := by
      simp only [table_of, List.map_map]
      exact List.map_id'' (fun _ => rfl) _
    rw [hnames]
    simp only [table_of, List.map_append, List.map_cons, List.map_nil, first_seen_snoc]
    by_cases h : c.1 ∈ first_seen (l.map Prod.fst)
    · rw [if_pos h, if_pos h, List.map_map]
      apply List.map_congr_left
      intro n _
      simp only [Function.comp, declared_key, List.any_append, List.any_cons, List.any_nil,
        Bool.or_false]
      by_cases e : n = c.1
      · subst e
        simp
      · have e' : ¬ c.1 = n := fun h => e h.symm
        simp [e, e']
    · rw [if_neg h, if_neg h, List.map_append]
      congr 1
      · apply List.map_congr_left
        intro n hn
        have e : ¬ c.1 = n := fun e => h (e ▸ hn)
        simp [declared_key, e]
      · have hc : declared_key l c.1 = false := by
          simp only [declared_key, List.any_eq_false, Bool.and_eq_true, beq_iff_eq, not_and]
          intro x hx e
          exact absurd ((mem_first_seen _ _).2 (List.mem_map.2 ⟨x, hx, e⟩)) h
        simp only [declared_key, List.any_append, List.any_cons, List.any_nil, Bool.or_false,
          beq_self_eq_true, Bool.true_and] at hc ⊢
        simp only [List.map_cons, List.map_nil, hc, Bool.false_or, beq_self_eq_true,
          Bool.true_and]

/-! ### What the option loop of `main` keeps -/

/-- A property of the table of interesting fields and the aggregator instances
that the calls of `add_interesting_field` for keys and the calls of
`init_agg_instance` keep holds after the loop over the aggregator
specifiers. -/
theorem main_add_aggs_keeps (aggregators : List aggregator)
    (Q : List interesting_field → List agg_instance → Prop)
    (hagg : ∀ fields insts agg agg_inst fields', Q fields insts →
      init_agg_instance aggregators fields agg = .ok (agg_inst, fields') →
      Q fields' (insts ++ [agg_inst]))
    (aggs : List String) :
    ∀ v v' : main_vars, main_add_aggs aggregators v aggs = .ok v' →
    Q v.fields v.cs.agg_instances → Q v'.fields v'.cs.agg_instances := by
  induction aggs with
  | nil =>
    intro v v' h hq
    simp only [main_add_aggs, outcome.ok.injEq] at h
    subst h
    exact hq
  | cons agg rest ih =>
    intro v v' h hq
    simp only [main_add_aggs] at h
    cases e : init_agg_instance aggregators v.fields agg with
    | ok r =>
      obtain ⟨agg_inst, fields⟩ := r
      rw [e] at h
      exact ih _ v' h (hagg _ _ _ _ _ hq e)
    | usage_err msg => rw [e] at h; cases h
    | crash => rw [e] at h; cases h

/-- A property of the table of interesting fields and the aggregator instances
that the calls of `add_interesting_field` for keys and the calls of
`init_agg_instance` keep holds after the option loop of `main`. -/
theorem main_options_keeps (E : libc) (aggregators : List aggregator)
    (Q : List interesting_field → List agg_instance → Prop)
    (hkey : ∀ fields insts keys, Q fields insts → Q (main_add_keys fields keys) insts)
    (hagg : ∀ fields insts agg agg_inst fields', Q fields insts →
      init_agg_instance aggregators fields agg = .ok (agg_inst, fields') →
      Q fields' (insts ++ [agg_inst])) :
    ∀ (n : Nat) (argv : List String) (v v' : main_vars), argv.length ≤ n →
    main_options E aggregators argv v = .ok v' →
    Q v.fields v.cs.agg_instances → Q v'.fields v'.cs.agg_instances := by
  intro n
  induction n with
  | zero =>
    intro argv v v' hlen h hq
    cases argv with
    | nil =>
      simp only [main_options, outcome.ok.injEq] at h
      subst h
      exact hq
    | cons a l => simp at hlen
  | succ n ih =>
    intro argv v v' hlen h hq
    cases argv with
    | nil =>
      simp only [main_options, outcome.ok.injEq] at h
      subst h
      exact hq
    | cons arg tl =>
      cases tl with
      | nil =>
        rw [main_options] at h
        by_cases c1 : arg = "--key" ∨ arg = "-k"
        · rw [if_pos c1] at h; cases h
        rw [if_neg c1] at h
        by_cases c2 : arg = "--aggregator" ∨ arg = "-a"
        · rw [if_pos c2] at h; cases h
        rw [if_neg c2] at h
        by_cases c3 : arg = "--size" ∨ arg = "--sz" ∨ arg = "-n"
        · rw [if_pos c3] at h; cases h
        rw [if_neg c3] at h
        by_cases c4 : arg = "--adjacent" ∨ arg = "-a" ∨ arg = "-1"
        · rw [if_pos c4] at h; cases h; exact hq
        rw [if_neg c4] at h
        by_cases c5 : arg = "--perfect"
        · rw [if_pos c5] at h; cases h; exact hq
        rw [if_neg c5] at h
        by_cases c6 : arg = "--incremental"
        · rw [if_pos c6] at h; cases h; exact hq
        rw [if_neg c6] at h
        by_cases c7 : arg = "--cube"
        · rw [if_pos c7] at h; cases h; exact hq
        rw [if_neg c7] at h
        by_cases c8 : arg = "--cube-default"
        · rw [if_pos c8] at h; cases h
        rw [if_neg c8] at h
        by_cases c9 : E.fopen arg = true
        · rw [if_pos c9] at h; cases h; exact hq
        · rw [if_neg c9] at h; cases h
      | cons next rest =>
        have hl1 : rest.length ≤ n := by simp at hlen; omega
        have hl2 : (next :: rest).length ≤ n := by simp at hlen ⊢; omega
        rw [main_options] at h
        by_cases c1 : arg = "--key" ∨ arg = "-k"
        · rw [if_pos c1] at h
          split at h
          · cases h
          · exact ih rest _ v' hl1 h (hkey _ _ _ hq)
        rw [if_neg c1] at h
        by_cases c2 : arg = "--aggregator" ∨ arg = "-a"
        · rw [if_pos c2] at h
          split at h
          · cases h
          · split at h
            · rename_i v1 e1
              exact ih rest v1 v' hl1 h (main_add_aggs_keeps aggregators Q hagg _ _ _ e1 hq)
            · cases h
            · cases h
        rw [if_neg c2] at h
        by_cases c3 : arg = "--size" ∨ arg = "--sz" ∨ arg = "-n"
        · rw [if_pos c3] at h
          split at h
          · cases h
          · split at h
            · cases h
            · exact ih rest _ v' hl1 h hq
        rw [if_neg c3] at h
        by_cases c4 : arg = "--adjacent" ∨ arg = "-a" ∨ arg = "-1"
        · rw [if_pos c4] at h; exact ih _ _ v' hl2 h hq
        rw [if_neg c4] at h
        by_cases c5 : arg = "--perfect"
        · rw [if_pos c5] at h; exact ih _ _ v' hl2 h hq
        rw [if_neg c5] at h
        by_cases c6 : arg = "--incremental"
        · rw [if_pos c6] at h; exact ih _ _ v' hl2 h hq
        rw [if_neg c6] at h
        by_cases c7 : arg = "--cube"
        · rw [if_pos c7] at h; exact ih _ _ v' hl2 h hq
        rw [if_neg c7] at h
        by_cases c8 : arg = "--cube-default"
        · rw [if_pos c8] at h; exact ih rest _ v' hl1 h hq
        rw [if_neg c8] at h
        by_cases c9 : E.fopen arg = true
        · rw [if_pos c9] at h; exact ih _ _ v' hl2 h hq
        · rw [if_neg c9] at h; cases h

/-- The loop of `main` over the tokens of a key list is a sequence of calls
of `add_interesting_field` with `is_key` set. -/
theorem main_add_keys_eq (keys : List String) :
    ∀ fields : List interesting_field,
    main_add_keys fields keys =
      add_interesting_fields fields (keys.map (fun key => (key, true))) := by
  induction keys with
  | nil => intro fields; rfl
  | cons k ks ih =>
    intro fields
    simp only [main_add_keys, List.map_cons, add_interesting_fields, List.foldl_cons]
    exact ih _

/-- The loop of `init_agg_instance` over the input field names is a sequence
of calls of `add_interesting_field` without `is_key`. -/
theorem add_input_fields_eq (names : List String) :
    ∀ fields : List interesting_field,
    (add_input_fields fields names).1 =
      add_interesting_fields fields (names.map (fun name => (name, false))) := by
  induction names with
  | nil => intro fields; rfl
  | cons n ns ih =>
    intro fields
    simp only [add_input_fields, List.map_cons, add_interesting_fields, List.foldl_cons]
    exact ih _

/-- What a call of `init_agg_instance` that returns has done: the function
of the aggregator has given the configuration and the names of the input
fields, and the loop over the names has registered them. -/
theorem init_agg_instance_ok (aggregators : List aggregator) (fields : List interesting_field)
    (agg_str : String) (agg_inst : agg_instance) (fields' : List interesting_field)
    (h : init_agg_instance aggregators fields agg_str = .ok (agg_inst, fields')) :
    ∃ names : List String,
      fields' = (add_input_fields fields names).1 ∧
      agg_inst.input_fields = (add_input_fields fields names).2 ∧
      agg_inst.num_input_fields = names.length := by
  simp only [init_agg_instance] at h
  split at h
  · split at h
    · rename_i r b config_data names e
      simp only [outcome.ok.injEq, Prod.mk.injEq] at h
      obtain ⟨h1, h2⟩ := h
      subst h1 h2
      exact ⟨names, rfl, rfl, rfl⟩
    · cases h
  · cases h

/-- The table of interesting fields with which the option loop of `main` ends
is the table of a sequence of calls of `add_interesting_field` from the empty
table. -/
theorem main_options_calls (E : libc) (aggregators : List aggregator) (argv : List String)
    (v : main_vars) (h : main_options E aggregators argv main_init = .ok v) :
    ∃ calls : List (String × Bool), v.fields = add_interesting_fields [] calls := by
  refine main_options_keeps E aggregators
    (fun fields _ => ∃ calls : List (String × Bool), fields = add_interesting_fields [] calls)
    ?_ ?_ argv.length argv main_init v (le_refl _) h ⟨[], rfl⟩
  · rintro fields _ keys ⟨calls, e⟩
    exact ⟨calls ++ keys.map (fun key => (key, true)), by
      rw [add_interesting_fields_append, ← e, main_add_keys_eq]⟩
  · rintro fields _ agg agg_inst fields' ⟨calls, e⟩ hok
    obtain ⟨names, h1, _, _⟩ := init_agg_instance_ok _ _ _ _ _ hok
    exact ⟨calls ++ names.map (fun name => (name, false)), by
      rw [add_interesting_fields_append, ← e, h1, add_input_fields_eq]⟩

/-- What `main` has set when the checks after the option loop pass: the
names of the keys of the table before the names of the other fields, the
numbers of fields, and the aggregator instances with their new indices. -/
theorem main_finish_ok (v : main_vars) (cs : collate_state) (h : main_finish v = .ok cs) :
    cs.interesting_field_names =
      (v.fields.filter (fun f => f.is_key)).map (fun f => f.name) ++
        (v.fields.filter (fun f => !f.is_key)).map (fun f => f.name) ∧
    cs.num_key_fields = (v.fields.filter (fun f => f.is_key)).length ∧
    cs.num_interesting_fields = v.fields.length ∧
    cs.agg_instances = v.cs.agg_instances.map (fun agg_inst =>
      { agg_inst with
        input_fields := agg_inst.input_fields.map
          (main_remap_field cs.interesting_field_names v.fields) }) := by
  have h0 : ¬ v.fields.length = 0 := by
    intro h0
    simp only [main_finish, if_pos h0] at h
    cases h
  simp only [main_finish, if_neg h0, List.length_map] at h
  cases hc : v.cube with
  | false =>
    simp only [hc, Bool.false_eq_true, false_and, if_false, outcome.ok.injEq] at h
    subst h
    exact ⟨rfl, rfl, rfl, rfl⟩
  | true =>
    simp only [hc, true_and, if_true] at h
    split at h
    · cases h
    · simp only [outcome.ok.injEq] at h
      subst h
      exact ⟨rfl, rfl, rfl, rfl⟩

/-- C22, amended: when the table of interesting fields comes from a sequence
of calls of `add_interesting_field` (the registrations that the `--key` and
`--aggregator` options make, in the order of the command line), `main` puts
into the first `num_key_fields` entries of `interesting_field_names` the
names that a call declares a key, in the order of their first registration,
as a key or as the input of an aggregator, and into the remaining entries
the other names in the order of their first registration. -/
theorem finalization_order (v : main_vars) (calls : List (String × Bool)) (cs : collate_state)
    (hv : v.fields = add_interesting_fields [] calls) (h : main_finish v = .ok cs) :
    cs.interesting_field_names.take cs.num_key_fields =
      (first_seen (calls.map Prod.fst)).filter (declared_key calls) ∧
    cs.interesting_field_names.drop cs.num_key_fields =
      (first_seen (calls.map Prod.fst)).filter (fun name => !declared_key calls name) := by
  obtain ⟨h1, h2, _, _⟩ := main_finish_ok v cs h
  have hlen : cs.num_key_fields =
      ((v.fields.filter (fun f => f.is_key)).map (fun f => f.name)).length := by
    rw [h2, List.length_map]
  rw [h1, hlen, List.take_left, List.drop_left, hv, add_interesting_fields_eq]
  simp only [table_of, List.filter_map, List.map_map]
  constructor
  · exact List.map_id'' (fun _ => rfl) _
  · exact List.map_id'' (fun _ => rfl) _

/-- C22, amended, at the registrations of `--aggregator sum,q --key d,q`:
the keys are q and d, in the order of their first registration. -/
theorem finalization_order_witness :
    ∃ cs, main_finish { main_init with
        fields := add_interesting_fields [] [("q", false), ("d", true), ("q", true)] } = .ok cs ∧
      cs.interesting_field_names.take cs.num_key_fields = ["q", "d"] ∧
      cs.interesting_field_names.drop cs.num_key_fields = [] := by
  have hcs : ∃ cs, main_finish { main_init with
      fields := add_interesting_fields [] [("q", false), ("d", true), ("q", true)] } = .ok cs :=
    ⟨_, rfl⟩
  obtain ⟨cs, hcs⟩ := hcs
  exact ⟨cs, hcs,
    (finalization_order _ [("q", false), ("d", true), ("q", true)] cs rfl hcs).1.trans
      (by decide),
    (finalization_order _ [("q", false), ("d", true), ("q", true)] cs rfl hcs).2.trans
      (by decide)⟩

/-- C22 as stated fails: with `--aggregator sum,q --key d,q` the fields d and
q are declared as keys in this order, and the first two entries of
`interesting_field_names` are q and d: q was registered first, as the input
of the aggregator. -/
theorem keys_not_in_declaration_order :
    strtok_all "d,q" ',' = ["d", "q"] ∧
    (match main_config example_libc (aggregators example_libc (fun t => t))
        ["--aggregator", "sum,q", "--key", "d,q"] with
      | .ok cs => some (cs.num_key_fields, cs.interesting_field_names)
      | _ => none) = some (2, ["q", "d"]) ∧
    (match main_config example_libc (aggregators example_libc (fun t => t))
        ["--aggregator", "sum,q", "--key", "d,q"] with
      | .ok cs => some (cs.interesting_field_names.take cs.num_key_fields)
      | _ => none) ≠ some (strtok_all "d,q" ',') := by
  refine ⟨by decide, by decide!, by decide!⟩

/-! ### C27: the new indices of the input fields -/

/-- The loop of `add_interesting_field` keeps the length of the table and
returns an index of it. -/
theorem add_interesting_field_find_length (str : String) (is_key : Bool) :
    ∀ (fields fields' : List interesting_field) (i k : Nat),
    add_interesting_field_find str is_key fields i = some (fields', k) →
    fields'.length = fields.length ∧ k < i + fields.length := by
  intro fields
  induction fields with
  | nil => intro fields' i k h; cases h
  | cons f rest ih =>
    intro fields' i k h
    simp only [add_interesting_field_find] at h
    split at h
    · simp only [Option.some.injEq, Prod.mk.injEq] at h
      obtain ⟨h1, h2⟩ := h
      subst h1 h2
      simp
    · cases e : add_interesting_field_find str is_key rest (i + 1) with
      | none => rw [e] at h; cases h
      | some r =>
        rw [e] at h
        simp only [Option.map_some', Option.some.injEq, Prod.mk.injEq] at h
        obtain ⟨h1, h2⟩ := h
        subst h1 h2
        obtain ⟨g1, g2⟩ := ih r.1 (i + 1) r.2 e
        simp only [List.length_cons, g1]
        exact ⟨trivial, by omega⟩

/-- A call of `add_interesting_field` does not shorten the table and returns
an index of the new table. -/
theorem add_interesting_field_length (fields : List interesting_field) (str : String)
    (is_key : Bool) :
    fields.length ≤ (add_interesting_field fields str is_key).1.length ∧
    (add_interesting_field fields str is_key).2 <
      (add_interesting_field fields str is_key).1.length := by
  unfold add_interesting_field
  cases e : add_interesting_field_find str is_key fields 0 with
  | none => simp
  | some r =>
    obtain ⟨g1, g2⟩ := add_interesting_field_find_length str is_key fields r.1 0 r.2 e
    simp only [g1]
    exact ⟨le_refl _, by omega⟩

theorem add_interesting_fields_length (calls : List (String × Bool)) :
    ∀ fields : List interesting_field,
    fields.length ≤ (add_interesting_fields fields calls).length := by
  induction calls with
  | nil => intro fields; exact le_refl _
  | cons c cs ih =>
    intro fields
    exact le_trans (add_interesting_field_length fields c.1 c.2).1 (ih _)

/-- The loop of `init_agg_instance` over the input field names gives one
index for each name, all of them indices of the new table, which is not
shorter than the old. -/
theorem add_input_fields_indices (names : List String) :
    ∀ fields : List interesting_field,
    fields.length ≤ (add_input_fields fields names).1.length ∧
    (add_input_fields fields names).2.length = names.length ∧
    ∀ old ∈ (add_input_fields fields names).2, old < (add_input_fields fields names).1.length := by
  induction names with
  | nil => intro fields; simp [add_input_fields]
  | cons n ns ih =>
    intro fields
    obtain ⟨g1, g2⟩ := add_interesting_field_length fields n false
    obtain ⟨h1, h2, h3⟩ := ih (add_interesting_field fields n false).1
    simp only [add_input_fields, List.length_cons, h2, List.mem_cons, forall_eq_or_imp]
    exact ⟨le_trans g1 h1, trivial, lt_of_lt_of_le g2 h1, h3⟩

/-- The option loop of `main` ends with valid indices in every aggregator
instance. -/
theorem main_options_indices (E : libc) (aggregators : List aggregator) (argv : List String)
    (v : main_vars) (h : main_options E aggregators argv main_init = .ok v) :
    indices_valid v.fields v.cs.agg_instances := by
  refine main_options_keeps E aggregators indices_valid ?_ ?_ argv.length argv main_init v
    (le_refl _) h ?_
  · intro fields insts keys hq agg_inst hmem
    obtain ⟨g1, g2⟩ := hq agg_inst hmem
    refine ⟨g1, fun old ho => lt_of_lt_of_le (g2 old ho) ?_⟩
    rw [main_add_keys_eq]
    exact add_interesting_fields_length _ _
  · intro fields insts agg agg_inst fields' hq hok a hmem
    obtain ⟨names, h1, h2, h3⟩ := init_agg_instance_ok _ _ _ _ _ hok
    obtain ⟨k1, k2, k3⟩ := add_input_fields_indices names fields
    rw [List.mem_append, List.mem_singleton] at hmem
    rcases hmem with hmem | hmem
    · obtain ⟨g1, g2⟩ := hq a hmem
      exact ⟨g1, fun old ho => lt_of_lt_of_le (g2 old ho) (by rw [h1]; exact k1)⟩
    · subst hmem
      rw [h2, h3, h1]
      exact ⟨k2, k3⟩
  · intro agg_inst hmem
    simp [main_init] at hmem

/-- The loop of lines 725-733 of `main` for a valid old index: the new index
is an index of `names` and holds the name of the old index, when `names`
holds the names of the table. -/
theorem main_remap_field_spec (names : List String) (fields : List interesting_field)
    (old : Nat) (f : interesting_field) (hf : fields[old]? = some f) (hmem : f.name ∈ names) :
    main_remap_field names fields old < names.length ∧
    names[main_remap_field names fields old]? = some f.name := by
  simp only [main_remap_field, hf]
  cases e : names.findIdx? (fun n => strcmp n f.name == 0) with
  | none =>
    rw [List.findIdx?_eq_none_iff] at e
    have := e f.name hmem
    simp [(strcmp_eq_zero f.name f.name).2 rfl] at this
  | some k =>
    obtain ⟨hk, hp, _⟩ := List.findIdx?_eq_some_iff_getElem.1 e
    simp only [beq_iff_eq] at hp
    exact ⟨hk, by rw [List.getElem?_eq_getElem hk, (strcmp_eq_zero _ _).1 hp]⟩

/-- C27: when the option loop of `main` has returned and the checks after it
pass, every aggregator instance has after the remap loop as many input field
indices as before, and the index at each position `j` is less than
`num_interesting_fields` and designates in `interesting_field_names` the name
that the index at `j` designated in the table `fields` before the loop. -/
theorem index_remap (E : libc) (aggregators : List aggregator) (argv : List String)
    (v : main_vars) (cs : collate_state)
    (hopt : main_options E aggregators argv main_init = .ok v)
    (hfin : main_finish v = .ok cs) :
    cs.agg_instances.length = v.cs.agg_instances.length ∧
    ∀ (i : Nat) (agg_inst agg_inst' : agg_instance), v.cs.agg_instances[i]? = some agg_inst →
      cs.agg_instances[i]? = some agg_inst' →
      agg_inst'.num_input_fields = agg_inst.num_input_fields ∧
      agg_inst'.input_fields.length = agg_inst.num_input_fields ∧
      ∀ j, j < agg_inst.num_input_fields →
        ∃ (old k : Nat) (f : interesting_field), agg_inst.input_fields[j]? = some old ∧
          agg_inst'.input_fields[j]? = some k ∧ k < cs.num_interesting_fields ∧
          v.fields[old]? = some f ∧ cs.interesting_field_names[k]? = some f.name := by
  obtain ⟨h1, h2, h3, h4⟩ := main_finish_ok v cs hfin
  have hvalid := main_options_indices E aggregators argv v hopt
  refine ⟨by rw [h4, List.length_map], ?_⟩
  intro i agg_inst agg_inst' hi hi'
  rw [h4, List.getElem?_map, hi, Option.map_some', Option.some.injEq] at hi'
  subst hi'
  obtain ⟨g1, g2⟩ := hvalid agg_inst (List.mem_iff_getElem?.2 ⟨i, hi⟩)
  refine ⟨rfl, by simp only [List.length_map, g1], ?_⟩
  intro j hj
  have hjl : j < agg_inst.input_fields.length := by rw [g1]; exact hj
  have hold : agg_inst.input_fields[j]? = some agg_inst.input_fields[j] :=
    List.getElem?_eq_getElem hjl
  have hlt : agg_inst.input_fields[j] < v.fields.length :=
    g2 _ (List.getElem_mem hjl)
  have hf : v.fields[agg_inst.input_fields[j]]? = some v.fields[agg_inst.input_fields[j]] :=
    List.getElem?_eq_getElem hlt
  have hmem : (v.fields[agg_inst.input_fields[j]]).name ∈ cs.interesting_field_names := by
    rw [h1, List.mem_append, List.mem_map, List.mem_map]
    cases hk : (v.fields[agg_inst.input_fields[j]]).is_key with
    | true =>
      exact Or.inl ⟨_, List.mem_filter.2 ⟨List.getElem_mem hlt, hk⟩, rfl⟩
    | false =>
      exact Or.inr ⟨_, List.mem_filter.2 ⟨List.getElem_mem hlt, by simp [hk]⟩, rfl⟩
  obtain ⟨r1, r2⟩ := main_remap_field_spec cs.interesting_field_names v.fields _ _ hf hmem
  have hnl : cs.interesting_field_names.length = cs.num_interesting_fields := by
    rw [h1, h3, List.length_append, List.length_map, List.length_map]
    have := List.length_eq_length_filter_add (l := v.fields) (fun f => f.is_key)
    omega
  refine ⟨_, _, _, hold, ?_, ?_, hf, r2⟩
  · simp only [List.getElem?_map, hold, Option.map_some']
  · rw [← hnl]; exact r1

/-- C27, at `--aggregator sum,p --key d`: the table holds p, then d, and the
instance of sum the index 0 of p; after the remap loop the names are d, p and
the instance holds the index 1. -/
theorem index_remap_witness :
    main_options example_libc (aggregators example_libc (fun t => t))
        ["--aggregator", "sum,p", "--key", "d"] main_init = .ok sum_p_key_d_vars ∧
    (match main_finish sum_p_key_d_vars with
      | .ok cs => some (cs.interesting_field_names,
          cs.agg_instances.map (fun agg_inst => agg_inst.input_fields))
      | _ => none) = some (["d", "p"], [[1]]) ∧
    ∃ cs, main_finish sum_p_key_d_vars = .ok cs ∧
      cs.agg_instances.length = sum_p_key_d_vars.cs.agg_instances.length := by
  have hv : main_options example_libc (aggregators example_libc (fun t => t))
      ["--aggregator", "sum,p", "--key", "d"] main_init = .ok sum_p_key_d_vars := by
    with_unfolding_all rfl
  have hcs : ∃ cs, main_finish sum_p_key_d_vars = .ok cs := ⟨_, rfl⟩
  obtain ⟨cs, hcs⟩ := hcs
  exact ⟨hv, by decide!, cs, hcs,
    (index_remap example_libc (aggregators example_libc (fun t => t))
      ["--aggregator", "sum,p", "--key", "d"] sum_p_key_d_vars cs hv hcs).1⟩

/-! ### C23: the correlation of linear data -/

theorem sum_of_cons (f : ℚ → ℚ) (x : ℚ) (xs : List ℚ) :
    sum_of f (x :: xs) = f x + sum_of f xs := by
  simp [sum_of]

/-- The sum of the squared distances of the numbers of a list from `m`. -/
theorem sum_of_sq_sub (xs : List ℚ) (m : ℚ) :
    sum_of (fun x => (x - m) ^ 2) xs =
      sum_of (fun x => x * x) xs - 2 * m * sum_of (fun x => x) xs + xs.length * m ^ 2 := by
  induction xs with
  | nil => simp [sum_of]
  | cons x xs ih =>
    simp only [sum_of_cons, ih, List.length_cons, Nat.cast_add, Nat.cast_one]
    ring

/-- The one-pass formula of `var_val` on exact numbers is the mean of the
squared distances from the mean. -/
theorem var_formula (xs : List ℚ) (hn : xs ≠ []) :
    sum_of (fun x => x * x) xs / xs.length -
        (sum_of (fun x => x) xs / xs.length) * (sum_of (fun x => x) xs / xs.length) =
      sum_of (fun x => (x - sum_of (fun x => x) xs / xs.length) ^ 2) xs / xs.length := by
  have hlen : (xs.length : ℚ) ≠ 0 := by
    have : xs.length ≠ 0 := fun h => hn (List.length_eq_zero.1 h)
    exact_mod_cast this
  rw [sum_of_sq_sub]
  field_simp
  ring

theorem sum_of_nonneg (f : ℚ → ℚ) (xs : List ℚ) (h : ∀ x ∈ xs, 0 ≤ f x) : 0 ≤ sum_of f xs := by
  induction xs with
  | nil => simp [sum_of]
  | cons x xs ih =>
    rw [sum_of_cons]
    exact add_nonneg (h x (List.mem_cons_self _ _))
      (ih (fun y hy => h y (List.mem_cons_of_mem _ hy)))

theorem sum_of_pos (f : ℚ → ℚ) (xs : List ℚ) (h : ∀ x ∈ xs, 0 ≤ f x)
    (hp : ∃ x ∈ xs, 0 < f x) : 0 < sum_of f xs := by
  induction xs with
  | nil => obtain ⟨x, hx, _⟩ := hp; cases hx
  | cons y ys ih =>
    rw [sum_of_cons]
    obtain ⟨x, hx, hfx⟩ := hp
    rcases List.mem_cons.1 hx with e | hx'
    · subst e
      exact add_pos_of_pos_of_nonneg hfx
        (sum_of_nonneg f ys (fun z hz => h z (List.mem_cons_of_mem _ hz)))
    · exact add_pos_of_nonneg_of_pos (h y (List.mem_cons_self _ _))
        (ih (fun z hz => h z (List.mem_cons_of_mem _ hz)) ⟨x, hx', hfx⟩)

/-- The one-pass variance of numbers that are not all equal is positive. -/
theorem var_formula_pos (xs : List ℚ) (hne : ∃ x ∈ xs, ∃ y ∈ xs, x ≠ y) :
    0 < sum_of (fun x => x * x) xs / xs.length -
        (sum_of (fun x => x) xs / xs.length) * (sum_of (fun x => x) xs / xs.length) := by
  obtain ⟨x, hx, y, hy, hxy⟩ := hne
  have hn : xs ≠ [] := List.ne_nil_of_mem hx
  have hlen : (0 : ℚ) < xs.length := by
    have : 0 < xs.length := List.length_pos.2 hn
    exact_mod_cast this
  rw [var_formula xs hn]
  apply div_pos _ hlen
  apply sum_of_pos _ _ (fun z _ => sq_nonneg _)
  by_cases e : x = sum_of (fun x => x) xs / xs.length
  · refine ⟨y, hy, ?_⟩
    have : y - sum_of (fun x => x) xs / xs.length ≠ 0 := by
      intro h
      exact hxy (e.trans (sub_eq_zero.1 h).symm)
    positivity
  · refine ⟨x, hx, ?_⟩
    have : x - sum_of (fun x => x) xs / xs.length ≠ 0 := fun h => e (sub_eq_zero.1 h)
    positivity

theorem sum_of_linear (a b : ℚ) (xs : List ℚ) :
    sum_of (fun x => a * x + b) xs = a * sum_of (fun x => x) xs + xs.length * b ∧
    sum_of (fun x => (a * x + b) * (a * x + b)) xs =
      a ^ 2 * sum_of (fun x => x * x) xs + 2 * a * b * sum_of (fun x => x) xs +
        xs.length * b ^ 2 ∧
    sum_of (fun x => x * (a * x + b)) xs =
      a * sum_of (fun x => x * x) xs + b * sum_of (fun x => x) xs := by
  induction xs with
  | nil => simp [sum_of]
  | cons x xs ih =>
    obtain ⟨h1, h2, h3⟩ := ih
    simp only [sum_of_cons, h1, h2, h3, List.length_cons, Nat.cast_add, Nat.cast_one]
    refine ⟨by ring, by ring, by ring⟩

/-- The data of a correlation after a sequence of pairs of numbers (x, y):
the three counts go up by the number of pairs, and the sums by the sums of
the products, of the numbers and of their squares. -/
theorem corr_add_all (c : agg_config) (g : ℚ → ℚ) (xs : List ℚ) :
    ∀ (obs : List (List (Option String) × List double)),
    obs.map Prod.snd = xs.map (fun x => [double.fin x, double.fin (g x)]) →
    ∀ n sxy sx sy n1 q1 s1 n2 q2 s2 : ℚ,
    add_all corr_add c
        (.corr_data (.cov_data (.fin n) (.fin sxy) (.fin sx) (.fin sy))
          (.var_data (.fin n1) (.fin q1) (.fin s1)) (.var_data (.fin n2) (.fin q2) (.fin s2)))
        obs =
      some (.corr_data
        (.cov_data (.fin (n + xs.length)) (.fin (sxy + sum_of (fun x => x * g x) xs))
          (.fin (sx + sum_of (fun x => x) xs)) (.fin (sy + sum_of g xs)))
        (.var_data (.fin (n1 + xs.length)) (.fin (q1 + sum_of (fun x => x * x) xs))
          (.fin (s1 + sum_of (fun x => x) xs)))
        (.var_data (.fin (n2 + xs.length)) (.fin (q2 + sum_of (fun x => g x * g x) xs))
          (.fin (s2 + sum_of g xs)))) := by
  induction xs with
  | nil =>
    intro obs hobs n sxy sx sy n1 q1 s1 n2 q2 s2
    have : obs = [] := by simpa using hobs
    subst this
    simp [add_all, sum_of]
  | cons x xs ih =>
    intro obs hobs n sxy sx sy n1 q1 s1 n2 q2 s2
    cases obs with
    | nil => simp at hobs
    | cons o obs =>
      simp only [List.map_cons, List.cons.injEq] at hobs
      obtain ⟨ho, hobs⟩ := hobs
      have h1 : corr_add c
          (.corr_data (.cov_data (.fin n) (.fin sxy) (.fin sx) (.fin sy))
            (.var_data (.fin n1) (.fin q1) (.fin s1)) (.var_data (.fin n2) (.fin q2) (.fin s2)))
          o.1 o.2 =
          some (.corr_data
            (.cov_data (.fin (n + 1)) (.fin (sxy + x * g x)) (.fin (sx + x)) (.fin (sy + g x)))
            (.var_data (.fin (n1 + 1)) (.fin (q1 + x * x)) (.fin (s1 + x)))
            (.var_data (.fin (n2 + 1)) (.fin (q2 + g x * g x)) (.fin (s2 + g x)))) := by
        rw [ho]
        rfl
      simp only [add_all, h1, Option.some_bind]
      rw [ih obs hobs]
      simp only [sum_of_cons, List.length_cons, Nat.cast_add, Nat.cast_one]
      apply congrArg some
      congr 1 <;> congr 1 <;> congr 1 <;> ring

theorem cov_val_fin (n sxy sx sy : ℚ) (hn : n ≠ 0) :
    cov_val (.cov_data (.fin n) (.fin sxy) (.fin sx) (.fin sy)) =
      .fin (sxy / n - (sx / n) * (sy / n)) := by
  simp only [cov_val, double.div, if_neg hn, double.mul, double.sub, double.neg, double.add]
  rw [sub_eq_add_neg]

theorem var_val_fin (n q s : ℚ) (hn : n ≠ 0) :
    var_val (.var_data (.fin n) (.fin q) (.fin s)) = .fin (q / n - (s / n) * (s / n)) := by
  simp only [var_val, double.div, if_neg hn, double.mul, double.sub, double.neg, double.add]
  rw [sub_eq_add_neg]

/-- The square root of the examples is exact on squares. -/
theorem sqrt_floor_sq (q : ℚ) (hq : 0 ≤ q) : sqrt_floor (.fin (q * q)) = .fin q := by
  have h0 : ¬ q * q < 0 := not_lt.2 (mul_self_nonneg q)
  have hnum : 0 ≤ q.num := Rat.num_nonneg.2 hq
  simp only [sqrt_floor, if_neg h0, Rat.mul_self_num, Rat.mul_self_den]
  have h1 : (q.num * q.num).toNat = q.num.toNat * q.num.toNat := by
    have := Int.toNat_of_nonneg hnum
    zify
    rw [Int.toNat_of_nonneg (mul_nonneg hnum hnum), this]
  rw [h1, Nat.sqrt_eq, Nat.sqrt_eq]
  congr 1
  have h2 : ((q.num.toNat : ℕ) : ℚ) = (q.num : ℚ) := by
    have := Int.toNat_of_nonneg hnum
    exact_mod_cast this
  rw [h2]
  exact Rat.num_div_den q

/-- C23: for a sequence of pairs of numbers (x, y) with y = a*x + b, a > 0,
in which two of the x differ, `corr_dump` writes the number 1 for the data
that `corr_add` builds from `corr_init`, in the exact arithmetic of the model
and with a `sqrt` that is exact on squares. -/
theorem correlation_of_linear_data (L : libc) (c : agg_config) (a b : ℚ) (xs : List ℚ)
    (obs : List (List (Option String) × List double))
    (hsqrt : ∀ q : ℚ, 0 ≤ q → L.sqrt (.fin (q * q)) = .fin q)
    (ha : 0 < a) (hne : ∃ x ∈ xs, ∃ y ∈ xs, x ≠ y)
    (hobs : obs.map Prod.snd = xs.map (fun x => [double.fin x, double.fin (a * x + b)])) :
    (add_all corr_add c (corr_init c) obs).bind (corr_dump L c) =
      some (L.printf_g (.fin 1)) := by
  have hV := var_formula_pos xs hne
  obtain ⟨x0, hx0, _⟩ := hne
  have hn : xs ≠ [] := List.ne_nil_of_mem hx0
  have hlen : (xs.length : ℚ) ≠ 0 := by
    have : xs.length ≠ 0 := fun h => hn (List.length_eq_zero.1 h)
    exact_mod_cast this
  obtain ⟨l1, l2, l3⟩ := sum_of_linear a b xs
  have hstate := corr_add_all c (fun x => a * x + b) xs obs hobs 0 0 0 0 0 0 0 0 0 0
  simp only [zero_add] at hstate
  have hinit : corr_init c =
      .corr_data (.cov_data (.fin 0) (.fin 0) (.fin 0) (.fin 0))
        (.var_data (.fin 0) (.fin 0) (.fin 0)) (.var_data (.fin 0) (.fin 0) (.fin 0)) := rfl
  rw [hinit, hstate, Option.some_bind]
  simp only [corr_dump, cov_val_fin _ _ _ _ hlen, var_val_fin _ _ _ hlen, double.mul]
  have hcov : sum_of (fun x => x * (a * x + b)) xs / xs.length -
      sum_of (fun x => x) xs / xs.length * (sum_of (fun x => a * x + b) xs / xs.length) =
      a * (sum_of (fun x => x * x) xs / xs.length -
        (sum_of (fun x => x) xs / xs.length) * (sum_of (fun x => x) xs / xs.length)) := by
    rw [l1, l3]
    field_simp
    ring
  have hvar : (sum_of (fun x => x * x) xs / xs.length -
        sum_of (fun x => x) xs / xs.length * (sum_of (fun x => x) xs / xs.length)) *
      (sum_of (fun x => (a * x + b) * (a * x + b)) xs / xs.length -
        sum_of (fun x => a * x + b) xs / xs.length *
          (sum_of (fun x => a * x + b) xs / xs.length)) =
      (a * (sum_of (fun x => x * x) xs / xs.length -
        (sum_of (fun x => x) xs / xs.length) * (sum_of (fun x => x) xs / xs.length))) *
      (a * (sum_of (fun x => x * x) xs / xs.length -
        (sum_of (fun x => x) xs / xs.length) * (sum_of (fun x => x) xs / xs.length))) := by
    rw [l1, l2]
    field_simp
    ring
  have hpos : 0 < a * (sum_of (fun x => x * x) xs / xs.length -
        (sum_of (fun x => x) xs / xs.length) * (sum_of (fun x => x) xs / xs.length)) :=
    mul_pos ha hV
  rw [hcov, hvar, hsqrt _ (le_of_lt hpos)]
  simp only [double.div, if_neg (ne_of_gt hpos), div_self (ne_of_gt hpos)]

/-- C23, at the pairs (1,2), (2,4), (3,6): y = 2*x, and the program writes
the correlation 1. -/
theorem correlation_of_linear_data_witness :
    (add_all corr_add .null (corr_init .null)
        [([some "1", some "2"], [.fin 1, .fin 2]), ([some "2", some "4"], [.fin 2, .fin 4]),
          ([some "3", some "6"], [.fin 3, .fin 6])]).bind (corr_dump example_libc .null) =
      some (example_libc.printf_g (.fin 1)) ∧
    (main_of example_libc (aggregators example_libc (fun t => t))
        ["--perfect", "--key", "k", "--aggregator", "c=correlation,x,y"]
        [[some "a", some "1", some "2"], [some "a", some "2", some "4"],
          [some "a", some "3", some "6"]]).map (fun s => s.stdout) =
      some "\x7b\"k\":\"a\",\"c\":1\x7d\n" :=
  ⟨correlation_of_linear_data example_libc .null 2 0 [1, 2, 3] _ sqrt_floor_sq (by norm_num)
    ⟨1, by simp, 2, by simp, by norm_num⟩ (by decide!), by decide!⟩

/-! ### C24: no key field -/

/-- The first loop of `dump_clump` writes nothing when there is no key
field. -/
theorem dump_clump_keys_zero (names : List String) (key_values : List (Option String))
    (i : Nat) : dump_clump_keys names key_values 0 i = "" := rfl

/-- The second loop of `dump_clump` after no key field: the separator guard
`i != 0` is false for every aggregator instance, and the output fields follow
each other without a comma. -/
theorem dump_clump_aggs_zero (insts : List agg_instance) (ds : List agg_data) :
    dump_clump_aggs 0 insts ds = (agg_field_texts insts ds).map concat_text := by
  induction insts generalizing ds with
  | nil => cases ds <;> rfl
  | cons a insts ih =>
    cases ds with
    | nil => rfl
    | cons d ds =>
      simp only [dump_clump_aggs, agg_field_texts, agg_field_text, ih, ne_eq, not_true_eq_false,
        if_false, Option.bind_eq_bind, Option.pure_def]
      cases a.agg.dump_func a.config_data d with
      | none => rfl
      | some text =>
        cases agg_field_texts insts ds with
        | none => rfl
        | some rest =>
          simp only [Option.some_bind, Option.map_some', concat_text_cons, String.append_assoc]
          congr 1

/-- The text of `dump_clump` with no key field: the output fields of the
aggregator instances between the braces, with no comma anywhere. -/
theorem dump_clump_text_zero_keys (cs : collate_state) (c : clump)
    (hK : cs.num_key_fields = 0) :
    dump_clump_text cs c =
      (agg_field_texts cs.agg_instances c.aggregator_data).map
        (fun texts => "\x7b" ++ concat_text texts ++ "\x7d\n") := by
  simp only [dump_clump_text, hK, dump_clump_keys_zero, dump_clump_aggs_zero,
    Option.bind_eq_bind, Option.pure_def]
  cases agg_field_texts cs.agg_instances c.aggregator_data with
  | none => rfl
  | some texts =>
    simp only [Option.map_some', Option.some_bind, String.append_assoc]
    rfl

/-- C24, amended: with no key field and at least one aggregator instance the
text that `dump_clump` writes for a clump has no comma before the first
aggregator output: after the opening brace comes the output field name of the
first instance in quotes, a colon and the dump of the instance over its data.
`dump_clump` writes a text when every dump gives one. -/
theorem zero_keys_first_output (cs : collate_state) (c : clump) (agg_inst : agg_instance)
    (rest : List agg_instance) (d : agg_data) (ds : List agg_data)
    (hK : cs.num_key_fields = 0) (hinst : cs.agg_instances = agg_inst :: rest)
    (hdata : c.aggregator_data = d :: ds) :
    (∀ text, dump_clump_text cs c = some text →
      ∃ t tail, agg_inst.agg.dump_func agg_inst.config_data d = some t ∧
        text = "\x7b" ++ ("\"" ++ agg_inst.output_field_name ++ "\":" ++ t) ++ tail) ∧
    (dumps_total cs → ∃ text, dump_clump_text cs c = some text) := by
  constructor
  · intro text h
    simp only [dump_clump_text, hK, hinst, hdata, dump_clump_aggs, dump_clump_keys_zero,
      Option.bind_eq_bind, Option.pure_def] at h
    cases ht : agg_inst.agg.dump_func agg_inst.config_data d with
    | none => rw [ht] at h; cases h
    | some t =>
      rw [ht, Option.some_bind] at h
      cases hr : dump_clump_aggs 0 rest ds with
      | none => rw [hr] at h; cases h
      | some tail =>
        rw [hr, Option.some_bind, Option.some_bind, Option.some.injEq] at h
        refine ⟨t, tail ++ "\x7d\n", rfl, ?_⟩
        rw [← h]
        simp only [ne_eq, not_true_eq_false, if_false, String.append_assoc, String.append_empty]
        rfl
  · intro hd
    exact Option.isSome_iff_exists.1 (dump_clump_text_isSome cs c hd)

/-- C24, amended, at a clump with the sum 1 and no key field. -/
theorem zero_keys_first_output_witness :
    dump_clump_text
        (start_state MAX_CLUMPS_INFINITE false [sum_instance example_libc "sum_x" 0] 1 "ALL" 1 0
          ["x"])
        ⟨[none], none, none, [.sum_data (.fin 1)]⟩ = some "\x7b\"sum_x\":1\x7d\n" ∧
    ∃ t tail, (sum_instance example_libc "sum_x" 0).agg.dump_func
        (sum_instance example_libc "sum_x" 0).config_data (.sum_data (.fin 1)) = some t ∧
      "\x7b\"sum_x\":1\x7d\n" =
        "\x7b" ++ ("\"" ++ (sum_instance example_libc "sum_x" 0).output_field_name ++ "\":" ++ t) ++
          tail :=
  ⟨by decide!,
    (zero_keys_first_output
      (start_state MAX_CLUMPS_INFINITE false [sum_instance example_libc "sum_x" 0] 1 "ALL" 1 0
        ["x"])
      ⟨[none], none, none, [.sum_data (.fin 1)]⟩ (sum_instance example_libc "sum_x" 0) []
      (.sum_data (.fin 1)) [] rfl rfl rfl).1 _ (by decide!)⟩

/-- C24 as stated fails: `--perfect --aggregator sum,x` has no key field and
one aggregator instance, and for the record `{"x":"1"}` the program writes
`{"sum_x":1}`: the text holds no comma, the first aggregator output follows
the opening brace. -/
theorem zero_keys_no_stray_comma :
    (match main_config example_libc (aggregators example_libc (fun t => t))
        ["--perfect", "--aggregator", "sum,x"] with
      | .ok cs => some (cs.num_key_fields, cs.agg_instances.length)
      | _ => none) = some (0, 1) ∧
    (main_of example_libc (aggregators example_libc (fun t => t))
        ["--perfect", "--aggregator", "sum,x"] [[some "1"]]).map (fun s => s.stdout) =
      some "\x7b\"sum_x\":1\x7d\n" ∧
    ',' ∉ "\x7b\"sum_x\":1\x7d\n".data := by
  refine ⟨by decide!, by decide!, by decide⟩

/-! ### C25: the fields that are no keys in the cube loop -/

/-- C25: the cube loop of `object_callback` tests `(1 << j) & i` for every
interesting field `j`, not only for the key fields. For a mask `i < 2^K`
(`K <= 30` key fields) the arrays it passes hold the text and the numeric
value of the record at every position `j >= K` with `j < 32`. At `j = 32`
the shift count is the width of an `int`: `(1 << 32) & 1` is 1 in the model,
and with `--cube --perfect --key k` and 32 aggregators `sum,f1`, ..., `sum,f32`
the record `{"k":"a","f32":"5"}` adds 5 to the sum of f32 in the clump of the
key a, and nothing in the clump of the key ALL, where the field f32 has been
replaced by the cube default. With 31 such aggregators both clumps get the
sum 5 of f31. -/
theorem cube_tests_bit_of_every_field :
    (∀ (L : libc) (s : collate_state) (vals : List (Option String)) (i j : Nat),
      s.num_key_fields ≤ 30 → i < 2 ^ s.num_key_fields → s.num_key_fields ≤ j →
      j < s.num_interesting_fields → j < 32 →
      (cube_vals s vals (dbl_vals_of L s.num_interesting_fields vals) i).1.getD j none =
        vals.getD j none ∧
      (cube_vals s vals (dbl_vals_of L s.num_interesting_fields vals) i).2.getD j .nan =
        dbl_val L (vals.getD j none)) ∧
    shl_one 32 &&& 1 = 1 ∧
    (match main_config example_libc (aggregators example_libc (fun t => t))
        ["--cube", "--perfect", "--key", "k", "--aggregator", sum_specs 32] with
      | .ok cs => some (cs.num_key_fields, cs.num_interesting_fields, cs.cube_max,
          cs.interesting_field_names.getD 32 "")
      | _ => none) = some (1, 33, 2, "f32") ∧
    (match main_config example_libc (aggregators example_libc (fun t => t))
        ["--cube", "--perfect", "--key", "k", "--aggregator", sum_specs 32] with
      | .ok cs => some ((cube_vals cs (some "a" :: (List.replicate 31 none ++ [some "5"]))
          (dbl_vals_of example_libc 33 (some "a" :: (List.replicate 31 none ++ [some "5"])))
          1).1.getD 32 none)
      | _ => none) = some (some "ALL") ∧
    (match main_config example_libc (aggregators example_libc (fun t => t))
        ["--cube", "--perfect", "--key", "k", "--aggregator", sum_specs 32] with
      | .ok cs => (process_records example_libc
          [some "a" :: (List.replicate 31 none ++ [some "5"])] cs).map last_data
      | _ => none) =
      some [([some "a", none], some (.sum_data (.fin 5))),
        ([some "ALL", none], some (.sum_data (.fin 0)))] ∧
    (match main_config example_libc (aggregators example_libc (fun t => t))
        ["--cube", "--perfect", "--key", "k", "--aggregator", sum_specs 31] with
      | .ok cs => (process_records example_libc
          [some "a" :: (List.replicate 30 none ++ [some "5"])] cs).map last_data
      | _ => none) =
      some [([some "a", none], some (.sum_data (.fin 5))),
        ([some "ALL", none], some (.sum_data (.fin 5)))] := by
  refine ⟨?_, by decide, by decide!, by decide!, by decide!, by decide!⟩
  intro L s vals i j hK hi hKj hj hj32
  have hbit : i.testBit j = false :=
    Nat.testBit_lt_two_pow (lt_of_lt_of_le hi (Nat.pow_le_pow_right (by omega) hKj))
  have h := cube_vals_getD L s vals i j hj hj32
  rw [hbit] at h
  simpa using h

/-! ### C28: the LRU list and the clump table -/

/-- C28: after a sequence of calls of `find_or_create_clump` from an empty
table and an empty list, with `max_clumps` unbounded or at least 1, the LRU
list runs from `clumps_head` along the `next` links to `clumps_tail`, with the
`prev` links pointing back, it holds every clump of the table once and no
other clump, and it is not empty when the table is at capacity, the case in
which a miss evicts. The calls return when the configuration is incremental
(an eviction writes nothing) or every `dump_func` gives a text on every
data. -/
theorem lru_list_is_table (cs : collate_state) (key_tuples : List (List (Option String)))
    (hcap : max_clumps_ok cs)
    (hempty : cs.clump_table = [] ∧ cs.clumps_head = none ∧ cs.clumps_tail = none) :
    (cs.incremental = true ∨ dumps_total cs →
      ∃ s ps, find_or_create_clumps cs key_tuples = some (s, ps)) ∧
    ∀ s ps, find_or_create_clumps cs key_tuples = some (s, ps) →
      lseg s.heap none s.clumps_head (lru_list s) s.clumps_tail none ∧
      s.clumps_head = (lru_list s).head? ∧ s.clumps_tail = (lru_list s).getLast? ∧
      (lru_list s).Nodup ∧ s.clump_table.Nodup ∧ (lru_list s).Perm s.clump_table ∧
      (at_capacity s → s.max_clumps ≠ MAX_CLUMPS_INFINITE ∧ lru_list s ≠ [] ∧
        ∃ t, s.clumps_tail = some t ∧ t ∈ s.clump_table) := by
  constructor
  · intro hd
    obtain ⟨r, hr⟩ := Option.isSome_iff_exists.1
      (find_or_create_clumps_returns key_tuples cs [] (table_lru_empty cs hempty) hcap hd)
    exact ⟨r.1, r.2, hr⟩
  intro s ps e
  obtain ⟨s', ps', e', hwf, hcfg, _⟩ :=
    find_or_create_clumps_spec key_tuples cs [] (table_lru_empty cs hempty) hcap
      (by rw [e]; rfl)
  rw [e] at e'
  cases e'
  have hlist := lru_list_eq s _ hwf.1
  have hends := lseg_ends _ _ _ _ _ _ hwf.1.1
  rw [hlist]
  refine ⟨hwf.1.1, ?_, ?_, hwf.1.2, hwf.2.symm.nodup_iff.1 hwf.1.2, hwf.2.symm, ?_⟩
  · rw [hends.1]
    cases (ps.foldl touch []).head? <;> rfl
  · rw [hends.2]
    cases (ps.foldl touch []).getLast? <;> rfl
  · intro hfull
    obtain ⟨hne, hcount⟩ := hfull
    have hmax : 1 ≤ s.max_clumps ∧ s.max_clumps < 2 ^ 31 := by
      rcases hcap with h | h
      · exact absurd (hcfg.1.trans h) hne
      · rw [hcfg.1]; exact h
    have hpos : 0 < s.clump_table.length := by
      have h1 := ulong_of_int_pos s.max_clumps hmax.1 hmax.2
      unfold hash_count at hcount
      have h2 : (1 : Int) ≤ (ulong_of_int s.max_clumps : Nat) := by rw [h1]; exact hmax.1
      have h3 : 1 ≤ ulong_of_int s.max_clumps := by exact_mod_cast h2
      omega
    have hlen : 0 < (ps.foldl touch []).length := by
      rw [← hwf.2.length_eq]; exact hpos
    have hnil : ps.foldl touch [] ≠ [] := List.length_pos.1 hlen
    refine ⟨hne, hnil, ?_⟩
    cases hl : (ps.foldl touch []).getLast? with
    | none => exact absurd (List.getLast?_eq_none_iff.1 hl) hnil
    | some t =>
      refine ⟨t, by rw [hends.2, hl], hwf.2.symm.subset ?_⟩
      obtain ⟨l', hl'⟩ := List.getLast?_eq_some_iff.1 hl
      rw [hl']
      simp

/-- C28, at three calls with capacity 2: a miss with allocation, a second
one, and a miss with eviction. -/
theorem lru_list_is_table_witness :
    ∃ s ps, find_or_create_clumps (start_state 2 false [count_instance "count"] 1 "ALL" 1 1 ["x"])
        [[some "a"], [some "b"], [some "c"]] = some (s, ps) ∧
      (lru_list s).Nodup ∧ (lru_list s).Perm s.clump_table := by
  have hcap : max_clumps_ok (start_state 2 false [count_instance "count"] 1 "ALL" 1 1 ["x"]) :=
    Or.inr ⟨by decide, by decide⟩
  have h := lru_list_is_table (start_state 2 false [count_instance "count"] 1 "ALL" 1 1 ["x"])
    [[some "a"], [some "b"], [some "c"]] hcap ⟨rfl, rfl, rfl⟩
  obtain ⟨s, ps, e⟩ := h.1 (Or.inr (by
    intro agg_inst hmem d
    simp only [start_state, List.mem_singleton] at hmem
    subst hmem
    cases d <;> rfl))
  obtain ⟨_, _, _, h4, _, h6, _⟩ := h.2 s ps e
  exact ⟨s, ps, e, h4, h6⟩

/-! ### C29: `value_callback` and the buffer of the parser -/

/-- Writing to an array the element it holds changes nothing. -/
theorem list_set_same {α : Type} (l : List α) (i : Nat) (x : α) (h : l[i]? = some x) :
    l.set i x = l := by
  apply List.ext_getElem?
  intro n
  rw [List.getElem?_set]
  by_cases e : i = n
  · subst e
    rw [if_pos rfl, if_pos (getElem?_lt_of_some _ _ _ h), h]
  · rw [if_neg e]

/-- A byte written over and then written back leaves the array as it was. -/
theorem array_set_restore {α : Type} (a a1 : List α) (i : Int) (x save : α)
    (hget : array_get a i = some save) (hset : array_set a i x = some a1) :
    array_set a1 i save = some a := by
  unfold array_get at hget
  unfold array_set at hset ⊢
  split at hset
  · rename_i hi
    cases hset
    rw [if_pos hi.1] at hget
    rw [if_pos ⟨hi.1, by rw [List.length_set]; exact hi.2⟩]
    congr 1
    rw [List.set_set]
    exact list_set_same _ _ _ hget
  · cases hset

/-- A write to an array succeeds where a read does. -/
theorem array_set_of_get {α : Type} (a : List α) (i : Int) (x save : α)
    (hget : array_get a i = some save) : ∃ a1, array_set a i x = some a1 := by
  unfold array_get at hget
  unfold array_set
  split at hget
  · rename_i hi
    exact ⟨_, if_pos ⟨hi, getElem?_lt_of_some _ _ _ hget⟩⟩
  · cases hget

/-- What `value_callback` does when it acts: the depth is 2, a field is
current, and the value does not start an object, an array, `true`, `false`
or `null`. -/
theorem value_callback_acts (ps : parse_state) (state : collate_state)
    (frame : parse_stack_frame) (ch save : Char)
    (hdepth : ps.parse_stack_length = 2) (hfield : state.interesting_field ≠ -1)
    (hframe : array_get ps.parse_stack (ps.parse_stack_length - 1) = some frame)
    (hch : array_get ps.buffer.buf (frame.start_offset - ps.buffer.base_offset) = some ch)
    (hskip : ¬ skipped_start ch)
    (hsave : array_get ps.buffer.buf
      ((if ch = '"' then ps.offset - 1 else ps.offset) - ps.buffer.base_offset) = some save) :
    value_callback ps state =
      (array_set state.interesting_fields state.interesting_field
        ⟨if ch = '"' then frame.start_offset + 1 else frame.start_offset,
          (if ch = '"' then ps.offset - 1 else ps.offset) -
            (if ch = '"' then frame.start_offset + 1 else frame.start_offset), true⟩).map
        (fun interesting_fields => (ps, { state with interesting_fields := interesting_fields })) := by
  obtain ⟨buf1, hset⟩ := array_set_of_get ps.buffer.buf _ '\x00' save hsave
  have hback := array_set_restore ps.buffer.buf buf1 _ '\x00' save hsave hset
  unfold skipped_start at hskip
  unfold value_callback
  rw [if_pos ⟨hdepth, hfield⟩]
  simp only [hframe, hch, Option.bind_eq_bind, Option.some_bind, Option.pure_def, if_neg hskip,
    hsave, hset]
  cases array_set state.interesting_fields state.interesting_field _ with
  | none => rfl
  | some fields =>
    simp only [Option.some_bind, hback, Option.map_some']

/-- Outside depth 2 and without a current field `value_callback` does
nothing. -/
theorem value_callback_idle (ps : parse_state) (state : collate_state)
    (h : ps.parse_stack_length ≠ 2 ∨ state.interesting_field = -1) :
    value_callback ps state = some (ps, state) := by
  unfold value_callback
  rw [if_neg (by
    rintro ⟨h1, h2⟩
    rcases h with h | h
    · exact h h1
    · exact h2 h)]
  rfl

/-- A value that starts an object, an array, `true`, `false` or `null` makes
`value_callback` return at once. -/
theorem value_callback_skips (ps : parse_state) (state : collate_state)
    (frame : parse_stack_frame) (ch : Char)
    (hframe : array_get ps.parse_stack (ps.parse_stack_length - 1) = some frame)
    (hch : array_get ps.buffer.buf (frame.start_offset - ps.buffer.base_offset) = some ch)
    (hskip : skipped_start ch) :
    value_callback ps state = some (ps, state) := by
  by_cases hc : ps.parse_stack_length = 2 ∧ state.interesting_field ≠ -1
  · unfold skipped_start at hskip
    unfold value_callback
    rw [if_pos hc]
    simp only [hframe, hch, Option.bind_eq_bind, Option.some_bind, Option.pure_def, if_pos hskip]
  · apply value_callback_idle
    by_contra h
    rw [not_or] at h
    exact hc ⟨not_not.1 h.1, h.2⟩

/-- C29: `value_callback` leaves the state of the parser as it is, every byte
of the buffer included: the byte it overwrites with NUL it writes back. Of
the collate state it changes at most the entry of the current interesting
field in `interesting_fields`, in which it sets `is_set`. It changes nothing
when the depth is not 2, when the current interesting field is -1, or when
the value starts with an opening brace or bracket or with t, f or n. When it
acts, on a value inside the buffer and with a current field inside
`interesting_fields`, it returns, and the entry holds the offset and the
length of the value, without the quotes of a string. -/
theorem value_callback_keeps_buffer (ps : parse_state) (state : collate_state) :
    (∀ ps' state', value_callback ps state = some (ps', state') →
      ps' = ps ∧
      (state' = state ∨
        ∃ r : str_ref, r.is_set = true ∧
          state' = { state with
            interesting_fields :=
              state.interesting_fields.set state.interesting_field.toNat r })) ∧
    (ps.parse_stack_length ≠ 2 ∨ state.interesting_field = -1 →
      value_callback ps state = some (ps, state)) ∧
    (∀ frame ch, array_get ps.parse_stack (ps.parse_stack_length - 1) = some frame →
      array_get ps.buffer.buf (frame.start_offset - ps.buffer.base_offset) = some ch →
      skipped_start ch → value_callback ps state = some (ps, state)) ∧
    (∀ frame ch save, ps.parse_stack_length = 2 → state.interesting_field ≠ -1 →
      array_get ps.parse_stack (ps.parse_stack_length - 1) = some frame →
      array_get ps.buffer.buf (frame.start_offset - ps.buffer.base_offset) = some ch →
      ¬ skipped_start ch →
      array_get ps.buffer.buf
        ((if ch = '"' then ps.offset - 1 else ps.offset) - ps.buffer.base_offset) = some save →
      0 ≤ state.interesting_field →
      state.interesting_field.toNat < state.interesting_fields.length →
      value_callback ps state = some (ps, { state with
        interesting_fields := state.interesting_fields.set state.interesting_field.toNat
          ⟨if ch = '"' then frame.start_offset + 1 else frame.start_offset,
            (if ch = '"' then ps.offset - 1 else ps.offset) -
              (if ch = '"' then frame.start_offset + 1 else frame.start_offset), true⟩ })) := by
  refine ⟨?_, value_callback_idle ps state, fun frame ch => value_callback_skips ps state frame ch,
    ?_⟩
  · intro ps' state' h
    by_cases hc : ps.parse_stack_length = 2 ∧ state.interesting_field ≠ -1
    · cases hframe : array_get ps.parse_stack (ps.parse_stack_length - 1) with
      | none =>
        unfold value_callback at h
        rw [if_pos hc] at h
        simp only [hframe, Option.bind_eq_bind, Option.none_bind] at h
        cases h
      | some frame =>
        cases hch : array_get ps.buffer.buf (frame.start_offset - ps.buffer.base_offset) with
        | none =>
          unfold value_callback at h
          rw [if_pos hc] at h
          simp only [hframe, hch, Option.bind_eq_bind, Option.some_bind, Option.none_bind] at h
          cases h
        | some ch =>
          by_cases hskip : skipped_start ch
          · rw [value_callback_skips ps state frame ch hframe hch hskip] at h
            cases h
            exact ⟨rfl, Or.inl rfl⟩
          · cases hsave : array_get ps.buffer.buf
                ((if ch = '"' then ps.offset - 1 else ps.offset) - ps.buffer.base_offset) with
            | none =>
              unfold skipped_start at hskip
              unfold value_callback at h
              rw [if_pos hc] at h
              simp only [hframe, hch, Option.bind_eq_bind, Option.some_bind, Option.pure_def,
                if_neg hskip, hsave, Option.none_bind] at h
              cases h
            | some save =>
              rw [value_callback_acts ps state frame ch save hc.1 hc.2 hframe hch hskip hsave] at h
              unfold array_set at h
              split at h
              · simp only [Option.map_some', Option.some.injEq, Prod.mk.injEq] at h
                obtain ⟨h1, h2⟩ := h
                exact ⟨h1.symm, Or.inr ⟨_, rfl, h2.symm⟩⟩
              · cases h
    · have hi : ps.parse_stack_length ≠ 2 ∨ state.interesting_field = -1 := by
        by_contra hn
        rw [not_or] at hn
        exact hc ⟨not_not.1 hn.1, hn.2⟩
      rw [value_callback_idle ps state hi] at h
      cases h
      exact ⟨rfl, Or.inl rfl⟩
  · intro frame ch save hdepth hfield hframe hch hskip hsave h0 hlt
    rw [value_callback_acts ps state frame ch save hdepth hfield hframe hch hskip hsave]
    unfold array_set
    rw [if_pos ⟨h0, hlt⟩]
    rfl

/-- C29, at the value of the record `{"x":"ab"}` with the field x current:
the parser state is as before, and the entry of x holds the offset 6 and the
length 2 of the text ab. -/
theorem value_callback_keeps_buffer_witness :
    value_callback parsed_value_state
        { start_state 1 false [] 1 "ALL" 1 1 ["x"] with interesting_field := 0 } =
      some (parsed_value_state,
        { start_state 1 false [] 1 "ALL" 1 1 ["x"] with
          interesting_field := 0
          interesting_fields := [⟨6, 2, true⟩] }) :=
  (value_callback_keeps_buffer parsed_value_state
    { start_state 1 false [] 1 "ALL" 1 1 ["x"] with interesting_field := 0 }).2.2.2
    ⟨5⟩ '"' '"' rfl (by decide) rfl rfl (by unfold skipped_start; decide) rfl (by decide)
    (by decide)

/-! ### C30: `string_callback` and the names of the table -/

/-- The loop of `string_callback` gives -1 when no name equals the text. -/
theorem string_callback_find_none (str : String) :
    ∀ (names : List String) (i : Nat), str ∉ names → string_callback_find str names i = -1 := by
  intro names
  induction names with
  | nil => intro i _; rfl
  | cons name rest ih =>
    intro i h
    simp only [List.mem_cons, not_or] at h
    have hne : ¬ strcmp str name = 0 := fun e => h.1 ((strcmp_eq_zero _ _).1 e)
    simp only [string_callback_find, if_neg hne, ih (i + 1) h.2]

/-- The loop of `string_callback` gives the first index whose name equals the
text. -/
theorem string_callback_find_some (str : String) :
    ∀ (names : List String) (i k : Nat), names[k]? = some str →
    (∀ j, j < k → names[j]? ≠ some str) →
    string_callback_find str names i = ((i + k : Nat) : Int) := by
  intro names
  induction names with
  | nil => intro i k h; simp at h
  | cons name rest ih =>
    intro i k hk hmin
    cases k with
    | zero =>
      simp only [List.getElem?_cons_zero, Option.some.injEq] at hk
      have he : strcmp str name = 0 := (strcmp_eq_zero _ _).2 hk.symm
      simp only [string_callback_find, if_pos he, Nat.add_zero]
    | succ k =>
      have h0 := hmin 0 (Nat.succ_pos _)
      simp only [List.getElem?_cons_zero, ne_eq, Option.some.injEq] at h0
      have hne : ¬ strcmp str name = 0 := fun e => h0 ((strcmp_eq_zero _ _).1 e).symm
      simp only [List.getElem?_cons_succ] at hk
      simp only [string_callback_find, if_neg hne]
      rw [ih (i + 1) k hk (fun j hj => by
        have := hmin (j + 1) (Nat.succ_lt_succ hj)
        simpa using this)]
      congr 1
      omega

/-- The bytes up to the first NUL of a list in which the byte at `n` is NUL
and no byte before it is. -/
theorem takeWhile_set_nul (l : List Char) (n : Nat) (hn : n < l.length)
    (hnul : '\x00' ∉ l.take n) :
    (l.set n '\x00').takeWhile (fun ch => ch ≠ '\x00') = l.take n := by
  induction l generalizing n with
  | nil => simp at hn
  | cons a l ih =>
    cases n with
    | zero => simp [List.takeWhile]
    | succ n =>
      simp only [List.take_succ_cons, List.mem_cons, not_or] at hnul
      have ha : a ≠ '\x00' := fun e => hnul.1 e.symm
      simp only [List.set_cons_succ, List.takeWhile_cons, ne_eq, ha, not_false_eq_true,
        decide_True, if_true, List.take_succ_cons]
      rw [ih n (by simpa using hn) hnul.2]

/-- The C string at `s` after the closing quote at `e` has become NUL: the
bytes from `s` to `e`, when none of them is NUL. -/
theorem c_string_at_key (buf : List Char) (s e : Nat) (hse : s ≤ e) (he : e < buf.length)
    (hnul : '\x00' ∉ (buf.drop s).take (e - s)) :
    c_string_at (buf.set e '\x00') (s : Int) = some (String.mk ((buf.drop s).take (e - s))) := by
  have hdrop : (buf.set e '\x00').drop s = (buf.drop s).set (e - s) '\x00' := by
    rw [List.drop_set, if_neg (by omega)]
  have hlen : e - s < (buf.drop s).length := by
    rw [List.length_drop]; omega
  have hmem : '\x00' ∈ (buf.set e '\x00').drop s := by
    rw [hdrop]
    exact List.mem_iff_getElem?.2 ⟨e - s, by
      rw [List.getElem?_set, if_pos rfl, if_pos hlen]⟩
  unfold c_string_at
  rw [if_pos ⟨Int.natCast_nonneg _, by simpa using hmem⟩]
  simp only [Int.toNat_ofNat, hdrop, takeWhile_set_nul _ _ hlen hnul]

/-- C30: at depth 2, for a key whose token lies in the buffer, the bytes
between its quotes being `key` without a NUL, `string_callback` writes NUL
over the closing quote and sets `interesting_field` to the first index of
`interesting_field_names` that holds `key`, the one index that holds it when
the names are distinct, and to -1 when no name equals `key`; it changes
nothing else. At any other depth it changes nothing. -/
theorem string_callback_matches (ps : parse_state) (state : collate_state) :
    (ps.parse_stack_length ≠ 2 → string_callback ps state = some (ps, state)) ∧
    (∀ (frame : parse_stack_frame) (s e : Nat) (key : String),
      ps.parse_stack_length = 2 →
      array_get ps.parse_stack (ps.parse_stack_length - 1) = some frame →
      frame.start_offset - ps.buffer.base_offset + 1 = (s : Int) →
      ps.offset - ps.buffer.base_offset - 1 = (e : Int) →
      s ≤ e → e < ps.buffer.buf.length →
      key = String.mk ((ps.buffer.buf.drop s).take (e - s)) → '\x00' ∉ key.data →
      ∃ i : Int,
        string_callback ps state =
          some ({ ps with buffer := { ps.buffer with buf := ps.buffer.buf.set e '\x00' } },
            { state with interesting_field := i }) ∧
        (key ∉ state.interesting_field_names → i = -1) ∧
        (∀ k : Nat, state.interesting_field_names[k]? = some key →
          (∀ j, j < k → state.interesting_field_names[j]? ≠ some key) → i = (k : Int)) ∧
        (state.interesting_field_names.Nodup →
          ∀ k : Nat, state.interesting_field_names[k]? = some key → i = (k : Int))) := by
  constructor
  · intro h
    unfold string_callback
    rw [if_neg h]
    rfl
  · intro frame s e key hdepth hframe hs he hse hlen hkey hnul
    have hset : array_set ps.buffer.buf (ps.offset - ps.buffer.base_offset - 1) '\x00' =
        some (ps.buffer.buf.set e '\x00') := by
      unfold array_set
      rw [he, if_pos ⟨Int.natCast_nonneg _, by simpa using hlen⟩]
      simp
    have hstr : c_string_at (ps.buffer.buf.set e '\x00')
        (frame.start_offset - ps.buffer.base_offset + 1) = some key := by
      rw [hs, hkey]
      exact c_string_at_key _ s e hse hlen (by rw [hkey] at hnul; exact hnul)
    have hfirst : ∀ k : Nat, state.interesting_field_names[k]? = some key →
        (∀ j, j < k → state.interesting_field_names[j]? ≠ some key) →
        string_callback_find key state.interesting_field_names 0 = (k : Int) := by
      intro k hk hmin
      rw [string_callback_find_some key _ 0 k hk hmin, Nat.zero_add]
    refine ⟨string_callback_find key state.interesting_field_names 0, ?_,
      string_callback_find_none key _ 0, hfirst, ?_⟩
    · unfold string_callback
      rw [if_pos hdepth]
      simp only [hframe, hset, hstr, Option.bind_eq_bind, Option.some_bind, Option.pure_def]
    · intro hnd k hk
      apply hfirst k hk
      intro j hj hjk
      have hkl : k < state.interesting_field_names.length := getElem?_lt_of_some _ _ _ hk
      have hjl : j < state.interesting_field_names.length := getElem?_lt_of_some _ _ _ hjk
      rw [List.getElem?_eq_getElem hkl] at hk
      rw [List.getElem?_eq_getElem hjl] at hjk
      have := (List.Nodup.getElem_inj_iff hnd).1
        ((Option.some.inj hjk).trans (Option.some.inj hk).symm)
      omega

/-- C30, at the key of the record `{"x":"ab"}` with the names k and x:
`string_callback` sets `interesting_field` to 1, the index of x. -/
theorem string_callback_matches_witness :
    ∃ i : Int,
      string_callback parsed_key_state (start_state 1 false [] 1 "ALL" 2 1 ["k", "x"]) =
        some ({ parsed_key_state with
            buffer := { parsed_key_state.buffer with
              buf := parsed_key_state.buffer.buf.set 3 '\x00' } },
          { start_state 1 false [] 1 "ALL" 2 1 ["k", "x"] with interesting_field := i }) ∧
      i = 1 := by
  obtain ⟨i, h1, _, _, h4⟩ :=
    (string_callback_matches parsed_key_state (start_state 1 false [] 1 "ALL" 2 1 ["k", "x"])).2
      ⟨1⟩ 2 3 "x" rfl rfl rfl rfl (by decide) (by decide) (by decide) (by decide)
  exact ⟨i, h1, h4 (by decide) 1 rfl⟩

/-! ### C32: the variance -/

/-- The data of a variance after a sequence of observations whose numbers are
the rationals `xs`: the count goes up by their number, the sums by the sum of
their squares and by their sum; an observation that is NaN changes nothing. -/
theorem var_add_all (c : agg_config) (obs : List (List (Option String) × List double)) :
    ∀ (xs : List ℚ) (n q s : ℚ), observed obs = xs.map double.fin →
    add_all var_add c (.var_data (.fin n) (.fin q) (.fin s)) obs =
      some (.var_data (.fin (n + xs.length)) (.fin (q + sum_of (fun x => x * x) xs))
        (.fin (s + sum_of (fun x => x) xs))) := by
  induction obs with
  | nil =>
    intro xs n q s h
    have hxs : xs = [] := by
      cases xs with
      | nil => rfl
      | cons x xs => simp [observed] at h
    subst hxs
    simp [add_all, sum_of]
  | cons a rest ih =>
    intro xs n q s h
    by_cases hx : isnan (a.2.getD 0 .nan) = true
    · have hobs : observed (a :: rest) = observed rest := by
        simp only [observed, List.map_cons, List.filter_cons, hx, Bool.not_true,
          Bool.false_eq_true, if_false]
      rw [hobs] at h
      simp only [add_all, var_add, hx, Bool.not_true, Bool.false_eq_true, if_false,
        Option.some_bind]
      exact ih xs n q s h
    · have hx' : isnan (a.2.getD 0 .nan) = false := by simpa using hx
      have hobs : observed (a :: rest) = a.2.getD 0 .nan :: observed rest := by
        simp only [observed, List.map_cons, List.filter_cons, hx', Bool.not_false, if_true]
      rw [hobs] at h
      cases xs with
      | nil => simp at h
      | cons x xs =>
        simp only [List.map_cons, List.cons.injEq] at h
        obtain ⟨h1, h2⟩ := h
        simp only [add_all, var_add, h1, isnan, Bool.not_false, if_true, Option.some_bind,
          double.add, double.mul]
        rw [ih xs _ _ _ h2]
        simp only [sum_of_cons, List.length_cons, Nat.cast_add, Nat.cast_one]
        apply congrArg some
        congr 1 <;> congr 1 <;> ring

/-- C32: for a sequence of observations whose numbers, the values that are
not NaN, are the rationals x_1, ..., x_n with n >= 1, the data that `var_add`
builds from `var_init` holds n, the sum of the squares and the sum, and
`var_val` of it is, in the exact arithmetic of the model, the mean of the
squared distances of the x_i from their mean; this number is not negative. -/
theorem variance_is_population_variance (c : agg_config)
    (obs : List (List (Option String) × List double)) (xs : List ℚ)
    (hobs : observed obs = xs.map double.fin) (hn : 1 ≤ xs.length) :
    ∃ d, add_all var_add c (var_init c) obs = some d ∧
      d = .var_data (.fin xs.length) (.fin (sum_of (fun x => x * x) xs))
        (.fin (sum_of (fun x => x) xs)) ∧
      var_val d =
        .fin (1 / xs.length *
          sum_of (fun x => (x - sum_of (fun y => y) xs / xs.length) ^ 2) xs) ∧
      0 ≤ 1 / (xs.length : ℚ) *
          sum_of (fun x => (x - sum_of (fun y => y) xs / xs.length) ^ 2) xs := by
  have hne : xs ≠ [] := by
    intro h
    rw [h] at hn
    simp at hn
  have hlen : (xs.length : ℚ) ≠ 0 := by
    have : xs.length ≠ 0 := by omega
    exact_mod_cast this
  have hstate := var_add_all c obs xs 0 0 0 hobs
  simp only [zero_add] at hstate
  refine ⟨_, hstate, rfl, ?_, ?_⟩
  · rw [var_val_fin _ _ _ hlen, var_formula xs hne]
    congr 1
    ring
  · apply mul_nonneg
    · positivity
    · exact sum_of_nonneg _ _ (fun x _ => sq_nonneg _)

/-- C32, at the observations 1, NaN, 3: the mean is 2 and the variance 1. -/
theorem variance_is_population_variance_witness :
    ∃ d, add_all var_add .null (var_init .null)
        [([some "1"], [.fin 1]), ([none], [.nan]), ([some "3"], [.fin 3])] = some d ∧
      var_val d = .fin 1 := by
  obtain ⟨d, h1, _, h3, _⟩ := variance_is_population_variance .null
    [([some "1"], [.fin 1]), ([none], [.nan]), ([some "3"], [.fin 3])] [1, 3] (by decide!)
    (by decide)
  refine ⟨d, h1, ?_⟩
  rw [h3]
  congr 1
  simp only [sum_of, List.map_cons, List.map_nil, List.sum_cons, List.sum_nil, List.length_cons,
    List.length_nil]
  norm_num

/-! ### C31: the clumps of one record and the evictions -/

/-- The clumps touched so far stay the first clumps of the LRU list when a
further clump moves to its head. -/
theorem at_front_touch (l ps : List Nat) (p : Nat) (h : at_front l ps) :
    at_front (touch l p) (ps ++ [p]) := by
  obtain ⟨front, back, hl, hmem, hlen⟩ := h
  by_cases hp : p ∈ front
  · refine ⟨p :: front.erase p, back, ?_, ?_, ?_⟩
    · rw [touch, hl, List.erase_append_left _ hp, List.cons_append]
    · intro a
      rw [List.mem_cons, List.mem_append, List.mem_singleton, ← hmem]
      constructor
      · rintro (h1 | h1)
        · exact Or.inr h1
        · exact Or.inl (List.mem_of_mem_erase h1)
      · rintro (h1 | h1)
        · by_cases e : a = p
          · exact Or.inl e
          · exact Or.inr ((List.mem_erase_of_ne e).2 h1)
        · exact Or.inl h1
    · rw [List.length_cons, List.length_erase_of_mem hp, List.length_append,
        List.length_singleton]
      have := List.length_pos_of_mem hp
      omega
  · refine ⟨p :: front, back.erase p, ?_, ?_, ?_⟩
    · rw [touch, hl, List.erase_append_right _ hp, List.cons_append]
    · intro a
      rw [List.mem_cons, List.mem_append, List.mem_singleton, ← hmem]
      exact Or.comm
    · rw [List.length_cons, List.length_append, List.length_singleton]
      omega

/-- The last clump of an LRU list that is longer than the number of clumps
touched so far is none of them. -/
theorem at_front_last (l ps : List Nat) (t : Nat) (h : at_front l ps) (hnd : l.Nodup)
    (hlen : ps.length < l.length) (ht : l.getLast? = some t) : t ∉ ps := by
  obtain ⟨front, back, hl, hmem, hfl⟩ := h
  subst hl
  have hback : back ≠ [] := by
    intro e
    subst e
    simp at hlen
    omega
  rw [List.getLast?_append_of_ne_nil _ hback] at ht
  have htb : t ∈ back := List.mem_of_getLast?_eq_some ht
  intro hps
  exact (List.disjoint_of_nodup_append hnd) ((hmem t).2 hps) htb

/-- A call that evicts: it has found no clump, the table is bounded and full,
and the clump it evicts is the last of the LRU list. -/
theorem evicted_by_some (s : collate_state) (l : List Nat) (k : List (Option String))
    (t : Nat) (hwf : table_lru s l) (h : evicted_by s k = some t) :
    hash_lookup s k = none ∧ at_capacity s ∧ l.getLast? = some t := by
  unfold evicted_by at h
  cases hl : hash_lookup s k with
  | some q => rw [hl] at h; cases h
  | none =>
    rw [hl] at h
    simp only [] at h
    split at h
    · rename_i hfull
      refine ⟨rfl, hfull, ?_⟩
      have hends := (lseg_ends _ _ _ _ _ _ hwf.1.1).2
      rw [h] at hends
      cases hlast : l.getLast? with
      | none => rw [hlast] at hends; cases hends
      | some a => rw [hlast] at hends; exact hends.symm ▸ rfl
    · cases h

/-- The calls of one record and the clumps they evict: when the clumps
touched so far are the first of the LRU list and the table, if bounded, has
room for these and for one clump for each call to come, no call evicts a
clump touched so far or a clump that an earlier of the calls returned; a
call that evicts returns the storage of the clump it evicted. -/
theorem add_each_trace_spec (args : List (List (Option String) × List double)) :
    ∀ (s : collate_state) (l ps : List Nat), table_lru s l → max_clumps_ok s →
    at_front l ps →
    (s.max_clumps ≠ MAX_CLUMPS_INFINITE →
      ((ps.length + args.length : Nat) : Int) ≤ s.max_clumps) →
    ∀ trace, add_each_trace args s = some trace →
      trace.length = args.length ∧
      (∀ e ∈ trace, ∀ t, e.2 = some t → t ∉ ps ∧ e.1 = t) ∧
      trace.Pairwise (fun e1 e2 => e2.2 ≠ some e1.1) := by
  induction args with
  | nil =>
    intro s l ps _ _ _ _ trace h
    simp only [add_each_trace, Option.some.injEq] at h
    subst h
    exact ⟨rfl, by simp, List.Pairwise.nil⟩
  | cons a rest ih =>
    intro s l ps hwf hcap hfront hbound trace h
    simp only [add_each_trace] at h
    cases e1 : find_or_create_clump s a.1 with
    | none => rw [e1] at h; cases h
    | some r =>
      obtain ⟨s1, p⟩ := r
      cases e2 : find_and_add_to_clump s a.1 a.2 with
      | none => rw [e1, e2] at h; cases h
      | some s' =>
        rw [e1, e2] at h
        simp only [] at h
        cases e3 : add_each_trace rest s' with
        | none => rw [e3] at h; cases h
        | some trace' =>
          rw [e3, Option.map_some', Option.some.injEq] at h
          subst h
          obtain ⟨s1', p', _, _, _, _, _, e1', e2', hwf', hcfg, _⟩ :=
            find_and_add_to_clump_step s l a.1 a.2 hwf hcap (by rw [e2]; rfl)
          rw [e1] at e1'
          rw [e2] at e2'
          cases e1'
          cases e2'
          obtain ⟨s1x, px, hfc, _, _, _, hev, _⟩ :=
            find_or_create_clump_step s l a.1 hwf hcap (by rw [e1]; rfl)
          rw [e1] at hfc
          cases hfc
          have hcap' := max_clumps_ok_congr s s' hcfg hcap
          have hbound' : s'.max_clumps ≠ MAX_CLUMPS_INFINITE →
              (((ps ++ [p]).length + rest.length : Nat) : Int) ≤ s'.max_clumps := by
            intro hne
            rw [hcfg.1] at hne ⊢
            have e : (ps ++ [p]).length + rest.length = ps.length + (a :: rest).length := by
              simp only [List.length_append, List.length_cons, List.length_nil]
              omega
            rw [e]
            exact hbound hne
          obtain ⟨g1, g2, g3⟩ := ih s' (touch l p) (ps ++ [p]) hwf' hcap'
            (at_front_touch l ps p hfront) hbound' trace' e3
          have hhead : ∀ t, evicted_by s a.1 = some t → t ∉ ps ∧ p = t := by
            intro t ht
            obtain ⟨hmiss, hfull, hlast⟩ := evicted_by_some s l a.1 t hwf ht
            obtain ⟨hlast', _⟩ := hev hmiss hfull
            rw [hlast] at hlast'
            refine ⟨?_, (Option.some.inj hlast').symm⟩
            have hmax : 1 ≤ s.max_clumps ∧ s.max_clumps < 2 ^ 31 := by
              rcases hcap with hc | hc
              · exact absurd hc hfull.1
              · exact hc
            have h1 := ulong_of_int_pos s.max_clumps hmax.1 hmax.2
            have h2 := hbound hfull.1
            have h3 : hash_count s = l.length := hwf.2.length_eq
            have h4 := hfull.2
            rw [h3] at h4
            have h5 : ((ulong_of_int s.max_clumps : Nat) : Int) ≤ (l.length : Int) := by
              exact_mod_cast h4
            rw [h1] at h5
            have h6 : ps.length < l.length := by
              simp only [List.length_cons] at h2
              have : ((ps.length + (rest.length + 1) : Nat) : Int) ≤ (l.length : Int) :=
                le_trans h2 h5
              have : ps.length + (rest.length + 1) ≤ l.length := by exact_mod_cast this
              omega
            exact at_front_last l ps t hfront hwf.1.2 h6 hlast
          refine ⟨by simp [g1], ?_, ?_⟩
          · intro e he t ht
            rcases List.mem_cons.1 he with rfl | he'
            · exact hhead t ht
            · obtain ⟨k1, k2⟩ := g2 e he' t ht
              exact ⟨fun hp => k1 (List.mem_append_left _ hp), k2⟩
          · refine List.Pairwise.cons ?_ g3
            intro e he hv
            exact (g2 e he p hv).1 (List.mem_append_right _ (List.mem_singleton_self _))

/-- The trace of a sequence of calls exists when the calls return. -/
theorem add_each_trace_isSome (args : List (List (Option String) × List double)) :
    ∀ s : collate_state, (add_each args s).isSome = true →
    (add_each_trace args s).isSome = true := by
  induction args with
  | nil => intro s _; rfl
  | cons a rest ih =>
    intro s h
    simp only [add_each] at h
    cases e2 : find_and_add_to_clump s a.1 a.2 with
    | none => rw [e2] at h; cases h
    | some s' =>
      rw [e2, Option.some_bind] at h
      have e1 : (find_or_create_clump s a.1).isSome = true := by
        cases e : find_or_create_clump s a.1 with
        | none => simp [find_and_add_to_clump, e] at e2
        | some r => rfl
      obtain ⟨r, hr⟩ := Option.isSome_iff_exists.1 e1
      obtain ⟨trace, ht⟩ := Option.isSome_iff_exists.1 (ih s' h)
      simp only [add_each_trace, hr, e2, ht, Option.map_some', Option.isSome_some]

/-- A call of `find_or_create_clump` changes the key or the data of no clump
of the table other than the one it evicts. -/
theorem evicted_by_only (s : collate_state) (l : List Nat) (k : List (Option String))
    (hwf : table_lru s l) (hcap : max_clumps_ok s) (s' : collate_state) (p : Nat)
    (h : find_or_create_clump s k = some (s', p)) (a : Nat) (ha : a ∈ l)
    (hne : evicted_by s k ≠ some a) : content_at s'.heap a = content_at s.heap a := by
  rcases find_or_create_clump_cases s l k hwf hcap with
    ⟨hn, _⟩ | ⟨s1, p1, e, _, _, _, hev, hhit, hmiss⟩
  · rw [hn] at h; cases h
  · rw [h] at e
    cases e
    cases hl : hash_lookup s k with
    | some q => exact (hhit q hl).2.2.2.2.2 a
    | none =>
      obtain ⟨_, hother, hroom, _⟩ := hmiss hl
      apply hother
      intro hap
      subst hap
      by_cases hfull : at_capacity s
      · have hlast := (hev hl hfull).1
        apply hne
        have hends := (lseg_ends _ _ _ _ _ _ hwf.1.1).2
        rw [hlast] at hends
        unfold evicted_by
        rw [hl]
        unfold at_capacity at hfull
        simp only []
        rw [if_pos hfull]
        exact hends
      · exact (hroom hfull).1 ha

/-- The calls for one record when `max_clumps` is unbounded or positive: the
trace has one entry for each mask, a call that evicts returns the storage of
the clump it evicts, and no call evicts a clump that an earlier call has
returned. -/
theorem add_each_trace_cube (L : libc) (s : collate_state) (l : List Nat)
    (vals : List (Option String)) (hwf : table_lru s l) (hcap : max_clumps_ok s)
    (hcheck : s.max_clumps = MAX_CLUMPS_INFINITE ∨ s.cube_max ≤ s.max_clumps)
    (trace : List (Nat × Option Nat))
    (ht : add_each_trace (cube_calls L s vals) s = some trace) :
    trace.length = s.cube_max.toNat ∧
      (∀ e ∈ trace, ∀ t, e.2 = some t → e.1 = t) ∧
      trace.Pairwise (fun e1 e2 => e2.2 ≠ some e1.1) := by
  have hlen : (cube_calls L s vals).length = s.cube_max.toNat := by
    simp [cube_calls]
  have hbound : s.max_clumps ≠ MAX_CLUMPS_INFINITE →
      ((([] : List Nat).length + (cube_calls L s vals).length : Nat) : Int) ≤ s.max_clumps := by
    intro hne
    rw [hlen, List.length_nil, Nat.zero_add]
    have hmax : 1 ≤ s.max_clumps := by
      rcases hcap with hc | hc
      · exact absurd hc hne
      · exact hc.1
    rcases hcheck with hc | hc
    · exact absurd hc hne
    · by_cases h0 : 0 ≤ s.cube_max
      · rw [Int.toNat_of_nonneg h0]; exact hc
      · rw [Int.toNat_eq_zero.2 (by omega)]
        simp only [Nat.cast_zero]
        omega
  obtain ⟨g1, g2, g3⟩ := add_each_trace_spec (cube_calls L s vals) s l [] hwf hcap
    ⟨[], l, rfl, fun _ => Iff.rfl, le_refl _⟩ hbound trace ht
  exact ⟨by rw [g1, hlen], fun e he t h => (g2 e he t h).2, g3⟩

/-- C31: in a state in which the LRU list holds the clumps of the table, as
in every state the program reaches, with `max_clumps` an `int` that passes the
check of `main` (lines 713-714: unbounded, or not less than `cube_max`, the
number of masks, which is 2^K for K <= 30 key fields with cubing), the calls
that `object_callback` makes for the masks of one record evict no clump that an
earlier call for the same record has found or created: a call that evicts
takes the last clump of the LRU list, which none of the earlier calls has
touched, and returns its storage. `object_callback` returns when every add
gives new data and every dump a text. -/
theorem no_self_eviction (L : libc) (s : collate_state) (l : List Nat)
    (vals : List (Option String)) (hwf : table_lru s l) (hint : s.max_clumps < 2 ^ 31)
    (hcheck : s.max_clumps = MAX_CLUMPS_INFINITE ∨ s.cube_max ≤ s.max_clumps) :
    (∀ s', object_callback L s vals = some s' →
      add_each (cube_calls L s vals) s = some s' ∧
      ∃ trace, add_each_trace (cube_calls L s vals) s = some trace ∧
        trace.length = s.cube_max.toNat ∧
        (∀ K, K ≤ 30 → s.cube_max = main_cube_max true K → trace.length = 2 ^ K) ∧
        (∀ e ∈ trace, ∀ t, e.2 = some t → e.1 = t) ∧
        trace.Pairwise (fun e1 e2 => e2.2 ≠ some e1.1)) ∧
    (adds_total s → dumps_total s → ∃ s', object_callback L s vals = some s') := by
  have heq : object_callback L s vals = add_each (cube_calls L s vals) s :=
    object_callback_eq_add_each L s vals _ rfl
  by_cases hpos : 1 ≤ s.cube_max
  · have hcap : max_clumps_ok s := by
      rcases hcheck with hc | hc
      · exact Or.inl hc
      · exact Or.inr ⟨by omega, hint⟩
    constructor
    · intro s' e
      rw [heq] at e
      refine ⟨e, ?_⟩
      obtain ⟨trace, ht⟩ := Option.isSome_iff_exists.1
        (add_each_trace_isSome (cube_calls L s vals) s (by rw [e]; rfl))
      obtain ⟨g1, g2, g3⟩ := add_each_trace_cube L s l vals hwf hcap hcheck trace ht
      refine ⟨trace, ht, g1, ?_, g2, g3⟩
      intro K hK hmax
      rw [g1, hmax, main_cube_max_toNat true K hK, if_pos rfl]
    · intro ha hd
      exact Option.isSome_iff_exists.1 (object_callback_returns L s l vals hwf hcap ha hd)
  · have hnil : cube_calls L s vals = [] := by
      simp only [cube_calls, Int.toNat_eq_zero.2 (show s.cube_max ≤ 0 by omega),
        List.range_zero, List.map_nil]
    have h0 : s.cube_max.toNat = 0 := Int.toNat_eq_zero.2 (by omega)
    rw [heq, hnil]
    constructor
    · intro s' e
      refine ⟨e, [], rfl, ?_, ?_, ?_, List.Pairwise.nil⟩
      · rw [h0]; rfl
      · intro K hK hmax
        exfalso
        have h1 := main_cube_max_eq K hK
        rw [← hmax] at h1
        have h2 : (0 : Int) < ((2 ^ K : Nat) : Int) := by positivity
        omega
      · intro e he
        cases he
    · intro _ _
      exact ⟨s, rfl⟩

/-- C31, with `--cube --size 2 --key x --aggregator count`: after the record
with x = a the table holds the clumps of a and of ALL; for the record with
x = b the call for mask 0 evicts the clump of a and returns its storage, the
call for mask 1 finds the clump of ALL and evicts nothing. -/
theorem no_self_eviction_witness :
    ((object_callback example_libc
        (start_state 2 false [count_instance "count"] (main_cube_max true 1) "ALL" 1 1 ["x"])
        [some "a"]).bind
      (fun s => add_each_trace (cube_calls example_libc s [some "b"]) s)) =
      some [(0, some 0), (1, none)] ∧
    ∃ s s' trace,
      object_callback example_libc
        (start_state 2 false [count_instance "count"] (main_cube_max true 1) "ALL" 1 1 ["x"])
        [some "a"] = some s ∧
      object_callback example_libc s [some "b"] = some s' ∧
      add_each_trace (cube_calls example_libc s [some "b"]) s = some trace ∧
      trace.length = 2 ^ 1 ∧
      trace.Pairwise (fun e1 e2 => e2.2 ≠ some e1.1) := by
  refine ⟨by decide!, ?_⟩
  have hcap : max_clumps_ok
      (start_state 2 false [count_instance "count"] (main_cube_max true 1) "ALL" 1 1 ["x"]) :=
    Or.inr ⟨by decide, by decide⟩
  have hwf := table_lru_empty
    (start_state 2 false [count_instance "count"] (main_cube_max true 1) "ALL" 1 1 ["x"])
    ⟨rfl, rfl, rfl⟩
  have ha : adds_total
      (start_state 2 false [count_instance "count"] (main_cube_max true 1) "ALL" 1 1 ["x"]) := by
    intro agg_inst hmem d ch_data num_data
    simp only [start_state, List.mem_singleton] at hmem
    subst hmem
    cases d <;> rfl
  have hd : dumps_total
      (start_state 2 false [count_instance "count"] (main_cube_max true 1) "ALL" 1 1 ["x"]) := by
    intro agg_inst hmem d
    simp only [start_state, List.mem_singleton] at hmem
    subst hmem
    cases d <;> rfl
  obtain ⟨s, l, e, hwf1, hcfg⟩ := object_callback_wf example_libc _ [] [some "a"] hwf hcap
    (object_callback_returns example_libc _ [] [some "a"] hwf hcap ha hd)
  obtain ⟨ha1, hd1⟩ := same_config_totals _ s hcfg ha hd
  have hint : s.max_clumps < 2 ^ 31 := by
    rw [hcfg.1]
    decide
  have hcheck : s.max_clumps = MAX_CLUMPS_INFINITE ∨ s.cube_max ≤ s.max_clumps := by
    right
    rw [hcfg.1, hcfg.2.2.2.1]
    decide
  have h := no_self_eviction example_libc s l [some "b"] hwf1 hint hcheck
  obtain ⟨s', e'⟩ := h.2 ha1 hd1
  obtain ⟨_, trace, ht, _, hlen, _, hpw⟩ := h.1 s' e'
  exact ⟨s, s', trace, e, e', ht, hlen 1 (by decide) hcfg.2.2.2.1, hpw⟩

/-! ### C9: the cube check and the order of the options -/

/-- The loop of `main` over the aggregator specifiers leaves `cube` and
`max_clumps` alone and registers fields that it does not declare keys. -/
theorem main_add_aggs_effect (aggregators : List aggregator) (aggs : List String) :
    ∀ v v1 : main_vars, main_add_aggs aggregators v aggs = .ok v1 →
    v1.cube = v.cube ∧ v1.cs.max_clumps = v.cs.max_clumps ∧
    ∃ calls : List (String × Bool), v1.fields = add_interesting_fields v.fields calls ∧
      ∀ c ∈ calls, c.2 = false := by
  induction aggs with
  | nil =>
    intro v v1 h
    simp only [main_add_aggs, outcome.ok.injEq] at h
    subst h
    exact ⟨rfl, rfl, [], rfl, by simp⟩
  | cons agg rest ih =>
    intro v v1 h
    simp only [main_add_aggs] at h
    cases e : init_agg_instance aggregators v.fields agg with
    | ok r =>
      obtain ⟨agg_inst, fields⟩ := r
      rw [e] at h
      obtain ⟨h1, h2, calls, h3, h4⟩ := ih _ v1 h
      obtain ⟨names, hn, _, _⟩ := init_agg_instance_ok _ _ _ _ _ e
      refine ⟨h1, h2, names.map (fun name => (name, false)) ++ calls, ?_, ?_⟩
      · rw [add_interesting_fields_append, ← add_input_fields_eq, ← hn]
        exact h3
      · intro c hc
        rcases List.mem_append.1 hc with hc | hc
        · obtain ⟨n, _, rfl⟩ := List.mem_map.1 hc
          rfl
        · exact h4 c hc
    | usage_err msg => rw [e] at h; cases h
    | crash => rw [e] at h; cases h

/-- One round of the option loop of `main` that goes on: the option it reads,
the arguments left, and what the round does to `cube`, to `max_clumps` and to
the table of interesting fields. -/
theorem main_options_step (E : libc) (aggregators : List aggregator) (arg : String)
    (tl : List String) (v v' : main_vars)
    (h : main_options E aggregators (arg :: tl) v = .ok v') :
    ∃ (o : String × Option String) (rest : List String) (v1 : main_vars),
      options_of (arg :: tl) = o :: options_of rest ∧ rest.length ≤ tl.length ∧
      main_options E aggregators rest v1 = .ok v' ∧
      v1.cube = (v.cube || is_cube_option o) ∧
      v1.cs.max_clumps = (if is_size_option o then size_option_value E o else v.cs.max_clumps) ∧
      ∃ calls : List (String × Bool), v1.fields = add_interesting_fields v.fields calls ∧
        ∀ name, (name, true) ∈ calls ↔
          (is_key_option o = true ∧ name ∈ strtok_all (o.2.getD "") ',') := by
  cases tl with
  | nil =>
    rw [main_options] at h
    by_cases c1 : arg = "--key" ∨ arg = "-k"
    · rw [if_pos c1] at h; cases h
    rw [if_neg c1] at h
    by_cases c2 : arg = "--aggregator" ∨ arg = "-a"
    · rw [if_pos c2] at h; cases h
    rw [if_neg c2] at h
    by_cases c3 : arg = "--size" ∨ arg = "--sz" ∨ arg = "-n"
    · rw [if_pos c3] at h; cases h
    rw [if_neg c3] at h
    have hk : is_key_option (arg, none) = false := by
      simp only [is_key_option, decide_eq_false_iff_not]
      exact c1
    refine ⟨(arg, none), [], v', rfl, le_refl _, rfl, ?_, ?_, [], ?_, ?_⟩
    · by_cases c4 : arg = "--adjacent" ∨ arg = "-a" ∨ arg = "-1"
      · rw [if_pos c4] at h; cases h
        rcases c4 with rfl | rfl | rfl <;> simp [is_cube_option]
      rw [if_neg c4] at h
      by_cases c5 : arg = "--perfect"
      · rw [if_pos c5] at h; cases h
        subst c5; simp [is_cube_option]
      rw [if_neg c5] at h
      by_cases c6 : arg = "--incremental"
      · rw [if_pos c6] at h; cases h
        subst c6; simp [is_cube_option]
      rw [if_neg c6] at h
      by_cases c7 : arg = "--cube"
      · rw [if_pos c7] at h; cases h
        subst c7; simp [is_cube_option]
      rw [if_neg c7] at h
      by_cases c8 : arg = "--cube-default"
      · rw [if_pos c8] at h; cases h
      rw [if_neg c8] at h
      by_cases c9 : E.fopen arg = true
      · rw [if_pos c9] at h; cases h
        simp [is_cube_option, c7]
      · rw [if_neg c9] at h; cases h
    · by_cases c4 : arg = "--adjacent" ∨ arg = "-a" ∨ arg = "-1"
      · rw [if_pos c4] at h; cases h
        rcases c4 with rfl | rfl | rfl
        · simp [is_size_option, size_option_value]
        · exact absurd (Or.inr rfl) c2
        · simp [is_size_option, size_option_value]
      rw [if_neg c4] at h
      by_cases c5 : arg = "--perfect"
      · rw [if_pos c5] at h; cases h
        subst c5; simp [is_size_option, size_option_value]
      rw [if_neg c5] at h
      have hs : is_size_option (arg, none) = false := by
        simp only [is_size_option, decide_eq_false_iff_not]
        tauto
      rw [hs]
      by_cases c6 : arg = "--incremental"
      · rw [if_pos c6] at h; cases h; rfl
      rw [if_neg c6] at h
      by_cases c7 : arg = "--cube"
      · rw [if_pos c7] at h; cases h; rfl
      rw [if_neg c7] at h
      by_cases c8 : arg = "--cube-default"
      · rw [if_pos c8] at h; cases h
      rw [if_neg c8] at h
      by_cases c9 : E.fopen arg = true
      · rw [if_pos c9] at h; cases h; rfl
      · rw [if_neg c9] at h; cases h
    · by_cases c4 : arg = "--adjacent" ∨ arg = "-a" ∨ arg = "-1"
      · rw [if_pos c4] at h; cases h; rfl
      rw [if_neg c4] at h
      by_cases c5 : arg = "--perfect"
      · rw [if_pos c5] at h; cases h; rfl
      rw [if_neg c5] at h
      by_cases c6 : arg = "--incremental"
      · rw [if_pos c6] at h; cases h; rfl
      rw [if_neg c6] at h
      by_cases c7 : arg = "--cube"
      · rw [if_pos c7] at h; cases h; rfl
      rw [if_neg c7] at h
      by_cases c8 : arg = "--cube-default"
      · rw [if_pos c8] at h; cases h
      rw [if_neg c8] at h
      by_cases c9 : E.fopen arg = true
      · rw [if_pos c9] at h; cases h; rfl
      · rw [if_neg c9] at h; cases h
    · intro name
      rw [hk]
      simp
  | cons next rest =>
    rw [main_options] at h
    by_cases c1 : arg = "--key" ∨ arg = "-k"
    · rw [if_pos c1] at h
      have ht : takes_argument arg = true := by
        simp only [takes_argument, decide_eq_true_eq]
        tauto
      have ho : options_of (arg :: next :: rest) = (arg, some next) :: options_of rest := by
        rw [options_of, if_pos ht]
      split at h
      · cases h
      · refine ⟨(arg, some next), rest, _, ho, by simp, h, ?_, ?_,
          (strtok_all next ',').map (fun key => (key, true)), ?_, ?_⟩
        · rcases c1 with rfl | rfl <;> simp [is_cube_option]
        · rcases c1 with rfl | rfl <;> simp [is_size_option]
        · exact main_add_keys_eq _ _
        · intro name
          have hk : is_key_option (arg, some next) = true := by
            simp only [is_key_option, decide_eq_true_eq]
            exact c1
          simp [hk]
    rw [if_neg c1] at h
    by_cases c2 : arg = "--aggregator" ∨ arg = "-a"
    · rw [if_pos c2] at h
      have ht : takes_argument arg = true := by
        simp only [takes_argument, decide_eq_true_eq]
        tauto
      have ho : options_of (arg :: next :: rest) = (arg, some next) :: options_of rest := by
        rw [options_of, if_pos ht]
      split at h
      · cases h
      · split at h
        · rename_i v1 e1
          obtain ⟨h1, h2, calls, h3, h4⟩ := main_add_aggs_effect aggregators _ _ _ e1
          refine ⟨(arg, some next), rest, v1, ho, by simp, h, ?_, ?_, calls, h3, ?_⟩
          · rw [h1]
            rcases c2 with rfl | rfl <;> simp [is_cube_option]
          · rw [h2]
            rcases c2 with rfl | rfl <;> simp [is_size_option]
          · intro name
            have hk : is_key_option (arg, some next) = false := by
              simp only [is_key_option, decide_eq_false_iff_not]
              exact c1
            rw [hk]
            constructor
            · intro hm
              exact absurd (h4 _ hm) (by simp)
            · intro hm
              exact absurd hm.1 (by simp)
        · cases h
        · cases h
    rw [if_neg c2] at h
    by_cases c3 : arg = "--size" ∨ arg = "--sz" ∨ arg = "-n"
    · rw [if_pos c3] at h
      have ht : takes_argument arg = true := by
        simp only [takes_argument, decide_eq_true_eq]
        tauto
      have ho : options_of (arg :: next :: rest) = (arg, some next) :: options_of rest := by
        rw [options_of, if_pos ht]
      split at h
      · cases h
      · split at h
        · cases h
        · refine ⟨(arg, some next), rest, _, ho, by simp, h, ?_, ?_, [], rfl, ?_⟩
          · rcases c3 with rfl | rfl | rfl <;> simp [is_cube_option]
          · rcases c3 with rfl | rfl | rfl <;> simp [is_size_option, size_option_value]
          · intro name
            have hk : is_key_option (arg, some next) = false := by
              simp only [is_key_option, decide_eq_false_iff_not]
              exact c1
            rw [hk]
            simp
    rw [if_neg c3] at h
    have hk : is_key_option (arg, none) = false := by
      simp only [is_key_option, decide_eq_false_iff_not]
      exact c1
    have hcalls : ∀ name, (name, true) ∈ ([] : List (String × Bool)) ↔
        (is_key_option (arg, none) = true ∧
          name ∈ strtok_all ((arg, (none : Option String)).2.getD "") ',') := by
      intro name
      rw [hk]
      simp
    by_cases c8 : arg = "--cube-default"
    · have ht : takes_argument arg = true := by
        simp only [takes_argument, decide_eq_true_eq]
        tauto
      have ho : options_of (arg :: next :: rest) = (arg, some next) :: options_of rest := by
        rw [options_of, if_pos ht]
      subst c8
      simp only [String.reduceEq, or_self, if_false, if_true] at h
      refine ⟨("--cube-default", some next), rest, _, ho, by simp, h, ?_, ?_, [], rfl, ?_⟩
      · simp [is_cube_option]
      · simp [is_size_option]
      · intro name
        simp [is_key_option]
    have ht : takes_argument arg = false := by
      simp only [takes_argument, decide_eq_false_iff_not]
      tauto
    have ho : options_of (arg :: next :: rest) = (arg, none) :: options_of (next :: rest) := by
      rw [options_of, ht]
      rfl
    by_cases c4 : arg = "--adjacent" ∨ arg = "-a" ∨ arg = "-1"
    · rw [if_pos c4] at h
      refine ⟨(arg, none), next :: rest, _, ho, le_refl _, h, ?_, ?_, [], rfl, hcalls⟩
      · rcases c4 with rfl | rfl | rfl <;> simp [is_cube_option]
      · rcases c4 with rfl | rfl | rfl
        · simp [is_size_option, size_option_value]
        · exact absurd (Or.inr rfl) c2
        · simp [is_size_option, size_option_value]
    rw [if_neg c4] at h
    by_cases c5 : arg = "--perfect"
    · rw [if_pos c5] at h
      refine ⟨(arg, none), next :: rest, _, ho, le_refl _, h, ?_, ?_, [], rfl, hcalls⟩
      · subst c5; simp [is_cube_option]
      · subst c5; simp [is_size_option, size_option_value]
    rw [if_neg c5] at h
    have hs : is_size_option (arg, none) = false := by
      simp only [is_size_option, decide_eq_false_iff_not]
      tauto
    by_cases c6 : arg = "--incremental"
    · rw [if_pos c6] at h
      refine ⟨(arg, none), next :: rest, _, ho, le_refl _, h, ?_, ?_, [], rfl, hcalls⟩
      · subst c6; simp [is_cube_option]
      · rw [hs]; rfl
    rw [if_neg c6] at h
    by_cases c7 : arg = "--cube"
    · rw [if_pos c7] at h
      refine ⟨(arg, none), next :: rest, _, ho, le_refl _, h, ?_, ?_, [], rfl, hcalls⟩
      · subst c7; simp [is_cube_option]
      · rw [hs]; rfl
    rw [if_neg c7, if_neg c8] at h
    by_cases c9 : E.fopen arg = true
    · rw [if_pos c9] at h
      refine ⟨(arg, none), next :: rest, _, ho, le_refl _, h, ?_, ?_, [], rfl, hcalls⟩
      · simp [is_cube_option, c7]
      · rw [hs]; rfl
    · rw [if_neg c9] at h; cases h

/-- What the option loop of `main` leaves when it ends: `cube` is set when the
command line has `--cube`, `max_clumps` is what the last option that sets it
gives, and the registrations of the table declare the names of the `--key`
options keys, and no other name. -/
theorem main_options_final (E : libc) (aggregators : List aggregator) :
    ∀ (n : Nat) (argv : List String) (v v' : main_vars), argv.length ≤ n →
    main_options E aggregators argv v = .ok v' →
    v'.cube = (v.cube || cube_given argv) ∧
    v'.cs.max_clumps = size_of_options E v.cs.max_clumps argv ∧
    ∃ calls : List (String × Bool), v'.fields = add_interesting_fields v.fields calls ∧
      ∀ name, (name, true) ∈ calls ↔ name ∈ key_names argv := by
  intro n
  induction n with
  | zero =>
    intro argv v v' hlen h
    cases argv with
    | nil =>
      simp only [main_options, outcome.ok.injEq] at h
      subst h
      exact ⟨by simp [cube_given, options_of], rfl, [], rfl, by simp [key_names, options_of]⟩
    | cons a l => simp at hlen
  | succ n ih =>
    intro argv v v' hlen h
    cases argv with
    | nil =>
      simp only [main_options, outcome.ok.injEq] at h
      subst h
      exact ⟨by simp [cube_given, options_of], rfl, [], rfl, by simp [key_names, options_of]⟩
    | cons arg tl =>
      obtain ⟨o, rest, v1, ho, hlen1, h1, hc, hs, calls1, hf, hk⟩ :=
        main_options_step E aggregators arg tl v v' h
      have hl : rest.length ≤ n := by
        simp only [List.length_cons] at hlen
        omega
      obtain ⟨hc2, hs2, calls2, hf2, hk2⟩ := ih rest v1 v' hl h1
      refine ⟨?_, ?_, calls1 ++ calls2, ?_, ?_⟩
      · rw [hc2, hc]
        simp only [cube_given, ho, List.any_cons, Bool.or_assoc]
      · rw [hs2, hs]
        simp only [size_of_options, ho, List.filter_cons]
        by_cases hso : is_size_option o = true
        · rw [if_pos hso, if_pos hso]
          cases hfl : (options_of rest).filter is_size_option with
          | nil => simp
          | cons a l =>
            rw [List.getLast?_cons_cons,
              List.getLast?_eq_getLast _ (List.cons_ne_nil a l)]
        · rw [if_neg hso, if_neg hso]
      · rw [add_interesting_fields_append, ← hf]
        exact hf2
      · intro name
        rw [List.mem_append, hk, hk2]
        simp only [key_names, ho, List.filter_cons]
        by_cases hko : is_key_option o = true
        · rw [if_pos hko]
          simp [hko]
        · rw [if_neg hko]
          simp [hko]

/-- The number of key fields of the table that a sequence of registrations
leaves: the number of different names that a registration declares a key. -/
theorem count_key_fields_of_calls (calls : List (String × Bool)) (names : List String)
    (h : ∀ name, (name, true) ∈ calls ↔ name ∈ names) :
    count_key_fields (add_interesting_fields [] calls) = names.dedup.length := by
  rw [add_interesting_fields_eq]
  simp only [count_key_fields, table_of, List.filter_map, List.length_map]
  apply List.Perm.length_eq
  rw [List.perm_ext_iff_of_nodup ((first_seen_nodup _).filter _) (List.nodup_dedup _)]
  intro name
  rw [List.mem_filter, mem_first_seen, List.mem_dedup, ← h name]
  simp only [Function.comp, declared_key, List.any_eq_true, Bool.and_eq_true, beq_iff_eq,
    List.mem_map]
  constructor
  · rintro ⟨_, c, hc, h1, h2⟩
    have : c = (name, true) := Prod.ext h1 h2
    rw [← this]
    exact hc
  · intro hm
    exact ⟨⟨_, hm, rfl⟩, _, hm, rfl, rfl⟩

/-- The verdict of the cube check rests on `cube`, `max_clumps` and the number
of key fields only, once the table of interesting fields is not empty. -/
theorem main_finish_cube_error_congr (v v' : main_vars) (hfields : v.fields ≠ [])
    (hfields' : v'.fields ≠ []) (hc : v'.cube = v.cube)
    (hm : v'.cs.max_clumps = v.cs.max_clumps)
    (hk : count_key_fields v'.fields = count_key_fields v.fields) :
    main_finish v' = .usage_err cube_error ↔ main_finish v = .usage_err cube_error := by
  have hlen : ¬ v.fields.length = 0 := fun h => hfields (List.length_eq_zero.1 h)
  have hlen' : ¬ v'.fields.length = 0 := fun h => hfields' (List.length_eq_zero.1 h)
  simp only [count_key_fields] at hk
  simp only [main_finish, if_neg hlen, if_neg hlen', List.length_map, hc, hm, hk]
  by_cases hcu : v.cube = true
  · simp only [hcu, if_true, true_and]
    split <;> simp [cube_error]
  · have hcf : v.cube = false := by simpa using hcu
    simp [hcf]

/-- C9 (cube/size check), amended: when the option loop has ended with at
least one interesting field and at most 30 key fields, the configuration is
rejected with the cube error if and only if cubing is enabled, `max_clumps` is
not unbounded and `max_clumps < 2^K`, `K` the number of key fields. These
three are functions of the options of each kind alone: cubing is enabled when
the command line has `--cube`, `max_clumps` is what the last of the options
`--size`, `--adjacent` and `--perfect` gives (1 without any), and `K` is the
number of different names that the `--key` options declare. So a second
command line that reaches the check, with `--cube` or without it as the
first, with the same options that set `max_clumps` in the same order among
themselves and with the same key names, is rejected if and only if the first
is, wherever the options stand in the two command lines. -/
theorem cube_size_check (E : libc) (aggregators : List aggregator) (argv : List String)
    (v : main_vars) (hopt : main_options E aggregators argv main_init = .ok v)
    (hfields : v.fields ≠ []) (hK : count_key_fields v.fields ≤ 30) :
    (main_config E aggregators argv = .usage_err cube_error ↔
      (v.cube = true ∧ v.cs.max_clumps ≠ MAX_CLUMPS_INFINITE ∧
        v.cs.max_clumps < 2 ^ count_key_fields v.fields)) ∧
    (v.cube = cube_given argv ∧ v.cs.max_clumps = size_of_options E 1 argv ∧
      count_key_fields v.fields = (key_names argv).dedup.length) ∧
    ∀ (argv' : List String) (v' : main_vars),
      main_options E aggregators argv' main_init = .ok v' → v'.fields ≠ [] →
      cube_given argv' = cube_given argv →
      (options_of argv').filter is_size_option = (options_of argv).filter is_size_option →
      (∀ name, name ∈ key_names argv' ↔ name ∈ key_names argv) →
      (main_config E aggregators argv' = .usage_err cube_error ↔
        main_config E aggregators argv = .usage_err cube_error) := by
  have h1 : main_config E aggregators argv = main_finish v := by
    simp only [main_config, hopt]
  obtain ⟨hc, hs, calls, hf, hk⟩ :=
    main_options_final E aggregators argv.length argv main_init v (le_refl _) hopt
  have hkeys : count_key_fields v.fields = (key_names argv).dedup.length := by
    rw [hf]
    exact count_key_fields_of_calls calls _ hk
  refine ⟨by rw [h1]; exact main_finish_cube_error v hfields hK,
    ⟨by simpa [main_init] using hc, hs, hkeys⟩, ?_⟩
  intro argv' v' hopt' hfields' hcube hsize hnames
  have h2 : main_config E aggregators argv' = main_finish v' := by
    simp only [main_config, hopt']
  obtain ⟨hc', hs', calls', hf', hk'⟩ :=
    main_options_final E aggregators argv'.length argv' main_init v' (le_refl _) hopt'
  have hkeys' : count_key_fields v'.fields = (key_names argv).dedup.length := by
    rw [hf']
    exact count_key_fields_of_calls calls' _ (fun name => (hk' name).trans (hnames name))
  rw [h1, h2]
  apply main_finish_cube_error_congr v v' hfields hfields'
  · rw [hc', hc, hcube]
  · rw [hs', hs]
    simp only [size_of_options, hsize]
  · rw [hkeys', hkeys]

/-- C9, amended, at the command line `--cube --size 1 --key x`, which is
rejected, and with it the command line `--key x --size 1 --cube`. -/
theorem cube_size_check_witness :
    (main_options example_libc [count_aggregator] ["--cube", "--size", "1", "--key", "x"]
        main_init = .ok cube_size_one_vars ∧
      cube_size_one_vars.fields ≠ [] ∧ count_key_fields cube_size_one_vars.fields ≤ 30) ∧
    (main_config example_libc [count_aggregator] ["--cube", "--size", "1", "--key", "x"] =
        .usage_err cube_error ↔
      (cube_size_one_vars.cube = true ∧
        cube_size_one_vars.cs.max_clumps ≠ MAX_CLUMPS_INFINITE ∧
        cube_size_one_vars.cs.max_clumps < 2 ^ count_key_fields cube_size_one_vars.fields)) ∧
    (main_config example_libc [count_aggregator] ["--key", "x", "--size", "1", "--cube"] =
        .usage_err cube_error ↔
      main_config example_libc [count_aggregator] ["--cube", "--size", "1", "--key", "x"] =
        .usage_err cube_error) ∧
    main_config example_libc [count_aggregator] ["--key", "x", "--size", "1", "--cube"] =
      .usage_err cube_error :=
  have hopt : main_options example_libc [count_aggregator]
      ["--cube", "--size", "1", "--key", "x"] main_init = .ok cube_size_one_vars := by
    rfl
  have hopt' : main_options example_libc [count_aggregator]
      ["--key", "x", "--size", "1", "--cube"] main_init = .ok cube_size_one_vars := by
    rfl
  have hnames : key_names ["--key", "x", "--size", "1", "--cube"] =
      key_names ["--cube", "--size", "1", "--key", "x"] := by
    decide
  have h := cube_size_check example_libc [count_aggregator]
    ["--cube", "--size", "1", "--key", "x"] cube_size_one_vars hopt (by decide) (by decide)
  ⟨⟨hopt, by decide, by decide⟩, h.1,
    h.2.2 ["--key", "x", "--size", "1", "--cube"] cube_size_one_vars hopt' (by decide)
      (by decide) (by decide) (fun name => by rw [hnames]),
    by rfl⟩
